import Mathlib

/-!
# Quine-McCluskey minimizer (qm.cpp): shallow embedding and verified properties

Strings (`std::string`) are lists of characters, compared lexicographically by
character code as `std::string::operator<` does. Terms are `int` in the source
and `Int` here. `std::set<T>` is a strictly ascending list, `std::map<K, T>` a
list of pairs with strictly ascending keys. Exceptions are the `Except` monad.
The one `while` loop of the source takes a fuel argument.
-/

namespace QM

/-- Failures of the embedded code. `out_of_range` is the C++ exception
`std::out_of_range` (thrown by `std::string::substr` and `std::map::at`);
`undefined_behaviour` marks an execution the C++ standard leaves undefined;
`fuel` exists only in the model: the combining loop was cut off before its
condition became false. -/
inductive QMError where
  | out_of_range
  | undefined_behaviour
  | fuel
  deriving DecidableEq, Repr

deriving instance DecidableEq for Except

/-! ## Standard-library containers -/

/-- `std::sort` on a vector whose elements are totally ordered. -/
def sortStd {α : Type} [LinearOrder α] (l : List α) : List α :=
  l.insertionSort (· ≤ ·)

/-- `std::unique` followed by `erase`: drops every element equal to its predecessor. -/
def uniqueStd {α : Type} [DecidableEq α] : List α → List α
  | [] => []
  | [a] => [a]
  | a :: b :: l => if a = b then uniqueStd (b :: l) else a :: uniqueStd (b :: l)

/-- `std::set<T>::insert`. -/
def setInsert {α : Type} [LinearOrder α] (x : α) : List α → List α
  | [] => [x]
  | y :: l => if x < y then x :: y :: l else if x = y then y :: l else y :: setInsert x l

/-- The statement `m[k].push_back(v)` on a `std::map<K, std::vector<T>>`. -/
def mapPushBack {κ α : Type} [LinearOrder κ] (k : κ) (v : α) :
    List (κ × List α) → List (κ × List α)
  | [] => [(k, [v])]
  | (k', vs) :: m =>
    if k < k' then (k, [v]) :: (k', vs) :: m
    else if k = k' then (k', vs ++ [v]) :: m
    else (k', vs) :: mapPushBack k v m

/-- The statement `m[k] = v` on a `std::map`. -/
def mapAssign {κ β : Type} [LinearOrder κ] (k : κ) (v : β) : List (κ × β) → List (κ × β)
  | [] => [(k, v)]
  | (k', w) :: m =>
    if k < k' then (k, v) :: (k', w) :: m
    else if k = k' then (k', v) :: m
    else (k', w) :: mapAssign k v m

/-- Lookup of a key in a `std::map`. -/
def mapFind {κ β : Type} [DecidableEq κ] (k : κ) : List (κ × β) → Option β
  | [] => none
  | (k', w) :: m => if k = k' then some w else mapFind k m

/-- `std::map::at`: throws `std::out_of_range` for a missing key. -/
def mapAt {κ β : Type} [DecidableEq κ] (m : List (κ × β)) (k : κ) : Except QMError β :=
  match mapFind k m with
  | some w => .ok w
  | none => .error .out_of_range

/-- `std::map::operator[]` used as an rvalue on a map of sets: a missing key is
inserted with an empty set. Returns the set and the map afterwards. -/
def mapIndex {κ α : Type} [LinearOrder κ] (m : List (κ × List α)) (k : κ) :
    List α × List (κ × List α) :=
  match mapFind k m with
  | some w => (w, m)
  | none => ([], mapAssign k [] m)

/-! ## Term encoder -/

/-- `std::bitset<20>(n).to_string()`: the low 20 bits of `n`, most significant first. -/
def bitsetToString (n : Int) : List Char :=
  (List.range 20).map fun i => if ((n % 2 ^ 20).toNat).testBit (19 - i) then '1' else '0'

/-- `std::string::substr(pos)`: throws `std::out_of_range` when `pos > size()`.
A negative `int` converts to a `size_t` above every size. -/
def substr (s : List Char) (pos : Int) : Except QMError (List Char) :=
  if 0 ≤ pos ∧ pos ≤ (s.length : Int) then .ok (s.drop pos.toNat) else .error .out_of_range

/-- `QM::decToBin`, with `V` the member `VARIABLES` (a natural number here: the
constructor and `readFromFile` keep it within 1..20). For `V > 20` the position
`20 - V` is negative and `substr` throws. -/
def decToBin (V : Nat) (n : Int) : Except QMError (List Char) :=
  if V = 0 then .ok [] else substr (bitsetToString n) (20 - (V : Int))

/-- Loop of `QM::isGreyCode` from position `i` on, `diffCount` differences seen so far. -/
def isGreyCodeLoop : List Char → List Char → Nat → Bool
  | a :: as, b :: bs, diffCount =>
    if a ≠ b then
      if diffCount + 1 > 1 then false else isGreyCodeLoop as bs (diffCount + 1)
    else isGreyCodeLoop as bs diffCount
  | _, _, diffCount => diffCount == 1

/-- `QM::isGreyCode`. -/
def isGreyCode (a b : List Char) : Bool :=
  if a.length ≠ b.length then false else isGreyCodeLoop a b 0

/-- `QM::combineTerms`. The source loops over `a.length()` and is called only behind
`isGreyCode`, hence on strings of equal length; for `a` longer than `b` it would read `b`
past its end, where this embedding stops at the end of the shorter string. -/
def combineTerms : List Char → List Char → List Char
  | a :: as, b :: bs => (if a = b then a else '-') :: combineTerms as bs
  | _, _ => []

/-- Loop of `QM::covers(const string&, const string&)`. -/
def coversLoop : List Char → List Char → Bool
  | t :: ts, b :: bs => if t ≠ '-' ∧ t ≠ b then false else coversLoop ts bs
  | _, _ => true

/-- `QM::covers(const string& term, const string& binaryMinterm)`. -/
def covers (term binaryMinterm : List Char) : Bool :=
  if term.length ≠ binaryMinterm.length then false else coversLoop term binaryMinterm

/-- `QM::covers(const string& term, int minterm)`. -/
def coversInt (V : Nat) (term : List Char) (minterm : Int) : Except QMError Bool :=
  (decToBin V minterm).map (covers term)

/-! ## Prime implicant generator -/

/-- Local variables `nextPIs`, `marked` (a `std::set<string>`) and `changed` of one
pass of the combining loop of `QM::generatePrimeImplicants`. -/
structure Pass where
  nextPIs : List (List Char)
  marked : List (List Char)
  changed : Bool
  deriving DecidableEq, Repr

/-- Body of the innermost loop `for term2 : next->second` for a fixed `term1`. -/
def compareTerm (term1 : List Char) : List (List Char) → Pass → Pass
  | [], st => st
  | term2 :: rest, st =>
    if isGreyCode term1 term2 then
      compareTerm term1 rest
        { nextPIs :=
            if combineTerms term1 term2 ∈ st.nextPIs then st.nextPIs
            else st.nextPIs ++ [combineTerms term1 term2]
          marked := setInsert term2 (setInsert term1 st.marked)
          changed := true }
    else compareTerm term1 rest st

/-- Loop `for term1 : it->second` over one group, compared with the next group. -/
def compareGroup : List (List Char) → List (List Char) → Pass → Pass
  | [], _, st => st
  | term1 :: rest, nextGroup, st => compareGroup rest nextGroup (compareTerm term1 nextGroup st)

/-- Loop over the map `groups`: every group is compared with its successor in key order. -/
def compareAdjacent : List (Nat × List (List Char)) → Pass → Pass
  | (_, g) :: (k, nextGroup) :: rest, st =>
    compareAdjacent ((k, nextGroup) :: rest) (compareGroup g nextGroup st)
  | _, st => st

/-- Loop adding the terms of `currentPIs` that are not in `marked` to `primeImplicants`. -/
def addUnmarked (marked : List (List Char)) :
    List (List Char) → List (List Char) → List (List Char)
  | [], primeImplicants => primeImplicants
  | term :: rest, primeImplicants =>
    if term ∈ marked then addUnmarked marked rest primeImplicants
    else if term ∈ primeImplicants then addUnmarked marked rest primeImplicants
    else addUnmarked marked rest (primeImplicants ++ [term])

/-- Loop filling `groups`: `groups[count of '1'].push_back(term)`. -/
def groupByOnes :
    List (List Char) → List (Nat × List (List Char)) → List (Nat × List (List Char))
  | [], groups => groups
  | term :: rest, groups => groupByOnes rest (mapPushBack (term.count '1') term groups)

/-- The loop `while (changed)` of `QM::generatePrimeImplicants`; one unit of fuel per pass. -/
def combineLoop : Nat → List (Nat × List (List Char)) → List (List Char) → List (List Char) →
    Except QMError (List (List Char))
  | 0, _, _, _ => .error .fuel
  | fuel + 1, groups, currentPIs, primeImplicants =>
    let st := compareAdjacent groups { nextPIs := [], marked := [], changed := false }
    let primeImplicants := addUnmarked st.marked currentPIs primeImplicants
    if st.changed then combineLoop fuel (groupByOnes st.nextPIs []) st.nextPIs primeImplicants
    else .ok primeImplicants

/-- Loop `for (int m : terms) if (covers(pi, m)) covered.insert(m)`. -/
def coveredSet (V : Nat) (pi : List Char) : List Int → List Int → Except QMError (List Int)
  | [], covered => .ok covered
  | m :: rest, covered =>
    match coversInt V pi m with
    | .ok c => coveredSet V pi rest (if c then setInsert m covered else covered)
    | .error e => .error e

/-- Loop building `implicantCoverage` at the end of `QM::generatePrimeImplicants`. -/
def buildCoverage (V : Nat) (mintermList : List Int) :
    List (List Char) → List (List Char × List Int) → Except QMError (List (List Char × List Int))
  | [], implicantCoverage => .ok implicantCoverage
  | pi :: rest, implicantCoverage =>
    match coveredSet V pi mintermList [] with
    | .ok covered =>
      buildCoverage V mintermList rest
        (if covered ≠ [] then mapAssign pi covered implicantCoverage else implicantCoverage)
    | .error e => .error e

/-- Loop `for (int term : allTerms) binaryTerms.push_back(decToBin(term))`. -/
def encodeAll (V : Nat) : List Int → Except QMError (List (List Char))
  | [] => .ok []
  | term :: rest =>
    match decToBin V term with
    | .ok b =>
      match encodeAll V rest with
      | .ok bs => .ok (b :: bs)
      | .error e => .error e
    | .error e => .error e

/-- Data members of class `QM`. -/
structure State where
  VARIABLES : Nat
  mintermList : List Int
  dontCareList : List Int
  primeImplicants : List (List Char)
  essentialPrimeImplicants : List (List Char)
  implicantCoverage : List (List Char × List Int)
  minimalSolutions : List (List (List Char))
  uncoveredMintermsAfterEPI : List Int
  deriving DecidableEq, Repr

/-- A `QM` object right after construction, its two public input
lists then set by the caller. -/
def fresh (V : Nat) (minterms dontCares : List Int) : State :=
  { VARIABLES := V, mintermList := minterms, dontCareList := dontCares,
    primeImplicants := [], essentialPrimeImplicants := [], implicantCoverage := [],
    minimalSolutions := [], uncoveredMintermsAfterEPI := [] }

/-- `QM::generatePrimeImplicants`. -/
def generatePrimeImplicants (fuel : Nat) (q : State) : Except QMError State :=
  let allTerms := uniqueStd (sortStd (q.mintermList ++ q.dontCareList))
  match encodeAll q.VARIABLES allTerms with
  | .error e => .error e
  | .ok binaryTerms =>
    if binaryTerms = [] then .ok { q with primeImplicants := [] }
    else
      match combineLoop fuel (groupByOnes binaryTerms []) binaryTerms q.primeImplicants with
      | .error e => .error e
      | .ok found =>
        let primeImplicants := uniqueStd (sortStd (if found = [] then binaryTerms else found))
        match buildCoverage q.VARIABLES q.mintermList primeImplicants [] with
        | .error e => .error e
        | .ok implicantCoverage =>
          .ok { q with primeImplicants := primeImplicants, implicantCoverage := implicantCoverage }

/-! ## Minimal cover solver (Petrick's method) -/

/-- Inner loop of the product-of-sums construction for one minterm `m`:
`if (remainingCoverage.at(pi).count(m)) mintermToPIs[m].push_back(pi)`. -/
def clauseRow (remainingCoverage : List (List Char × List Int)) (m : Int) :
    List (List Char) → List (Int × List (List Char)) →
    Except QMError (List (Int × List (List Char)))
  | [], mintermToPIs => .ok mintermToPIs
  | pi :: rest, mintermToPIs =>
    match mapAt remainingCoverage pi with
    | .ok coverage =>
      clauseRow remainingCoverage m rest
        (if m ∈ coverage then mapPushBack m pi mintermToPIs else mintermToPIs)
    | .error e => .error e

/-- Outer loop `for (int m : uncoveredMinterms)` building `mintermToPIs`. -/
def buildClauses (remainingPIs : List (List Char))
    (remainingCoverage : List (List Char × List Int)) :
    List Int → List (Int × List (List Char)) → Except QMError (List (Int × List (List Char)))
  | [], mintermToPIs => .ok mintermToPIs
  | m :: rest, mintermToPIs =>
    match clauseRow remainingCoverage m remainingPIs mintermToPIs with
    | .ok mintermToPIs => buildClauses remainingPIs remainingCoverage rest mintermToPIs
    | .error e => .error e

/-- Loop `for pi : it->second` for one candidate `sol`: the candidate extended by `pi`,
sorted and deduplicated, is appended to `newSolutions` unless already there. -/
def multiplySol (sol : List (List Char)) :
    List (List Char) → List (List (List Char)) → List (List (List Char))
  | [], newSolutions => newSolutions
  | pi :: rest, newSolutions =>
    multiplySol sol rest
      (if uniqueStd (sortStd (if pi ∈ sol then sol else sol ++ [pi])) ∈ newSolutions
       then newSolutions
       else newSolutions ++ [uniqueStd (sortStd (if pi ∈ sol then sol else sol ++ [pi]))])

/-- Loop `for sol : solutions` multiplying every candidate with one clause. -/
def multiplyClause (clause : List (List Char)) :
    List (List (List Char)) → List (List (List Char)) → List (List (List Char))
  | [], newSolutions => newSolutions
  | sol :: rest, newSolutions => multiplyClause clause rest (multiplySol sol clause newSolutions)

/-- The multiplication loop over the clauses after the first, with its early exit as
soon as some candidate has size 1. -/
def multiplyAll :
    List (Int × List (List Char)) → List (List (List Char)) → List (List (List Char))
  | [], solutions => solutions
  | (_, clause) :: rest, solutions =>
    if (multiplyClause clause solutions []).any (fun sol => sol.length == 1)
    then multiplyClause clause solutions []
    else multiplyAll rest (multiplyClause clause solutions [])

/-- Loop computing `minSize`. -/
def minSizeLoop : List (List (List Char)) → Nat → Nat
  | [], minSize => minSize
  | sol :: rest, minSize => minSizeLoop rest (if sol.length < minSize then sol.length else minSize)

/-- Final selection of `QM::petricksMethod`: the candidates of minimal size, in order. -/
def selectMinimal (solutions : List (List (List Char))) : List (List (List Char)) :=
  match solutions with
  | [] => []
  | first :: _ =>
    solutions.filter (fun sol => sol.length == minSizeLoop solutions first.length)

/-- `QM::petricksMethod`. With an empty `mintermToPIs` the source evaluates
`next(mintermToPIs.begin())` on an empty map, which is undefined. -/
def petricksMethod (q : State) (remainingPIs : List (List Char))
    (remainingCoverage : List (List Char × List Int)) (uncoveredMinterms : List Int) :
    Except QMError State :=
  if remainingPIs = [] ∨ uncoveredMinterms = [] then .ok { q with minimalSolutions := [] }
  else
    match buildClauses remainingPIs remainingCoverage uncoveredMinterms [] with
    | .error e => .error e
    | .ok [] => .error .undefined_behaviour
    | .ok ((_, firstClause) :: rest) =>
      .ok { q with
        minimalSolutions := selectMinimal (multiplyAll rest (firstClause.map fun pi => [pi])) }

/-! ## Essential implicant selector -/

/-- Inner loop building `mintermCoverage` for one prime implicant:
`if (covers(pi, minterm)) mintermCoverage[minterm].push_back(pi)`. -/
def coverageRow (V : Nat) (pi : List Char) :
    List Int → List (Int × List (List Char)) → Except QMError (List (Int × List (List Char)))
  | [], mintermCoverage => .ok mintermCoverage
  | minterm :: rest, mintermCoverage =>
    match coversInt V pi minterm with
    | .ok c =>
      coverageRow V pi rest (if c then mapPushBack minterm pi mintermCoverage else mintermCoverage)
    | .error e => .error e

/-- Outer loop `for pi : primeImplicants` building `mintermCoverage`. -/
def buildMintermCoverage (V : Nat) (mintermList : List Int) :
    List (List Char) → List (Int × List (List Char)) →
    Except QMError (List (Int × List (List Char)))
  | [], mintermCoverage => .ok mintermCoverage
  | pi :: rest, mintermCoverage =>
    match coverageRow V pi mintermList mintermCoverage with
    | .ok mintermCoverage => buildMintermCoverage V mintermList rest mintermCoverage
    | .error e => .error e

/-- Variables updated by the loop that finds the essential prime implicants. -/
structure Selection where
  essentialPrimeImplicants : List (List Char)
  essentialPIs : List (List Char)
  coveredMinterms : List Int
  implicantCoverage : List (List Char × List Int)
  deriving DecidableEq, Repr

/-- Loop `for (int m : implicantCoverage[essentialPI]) coveredMinterms.insert(m)`. -/
def insertAll : List Int → List Int → List Int
  | [], coveredMinterms => coveredMinterms
  | m :: rest, coveredMinterms => insertAll rest (setInsert m coveredMinterms)

/-- Loop `for entry : mintermCoverage`: an entry with exactly one covering implicant
makes that implicant essential. -/
def selectEssential : List (Int × List (List Char)) → Selection → Selection
  | [], st => st
  | (_, [essentialPI]) :: rest, st =>
    if essentialPI ∈ st.essentialPIs then selectEssential rest st
    else
      selectEssential rest
        { essentialPrimeImplicants := st.essentialPrimeImplicants ++ [essentialPI]
          essentialPIs := setInsert essentialPI st.essentialPIs
          coveredMinterms := insertAll (mapIndex st.implicantCoverage essentialPI).1 st.coveredMinterms
          implicantCoverage := (mapIndex st.implicantCoverage essentialPI).2 }
  | _ :: rest, st => selectEssential rest st

/-- Loop collecting the minterms that are not in `coveredMinterms`. -/
def collectUncovered (coveredMinterms : List Int) : List Int → List Int → List Int
  | [], uncoveredMinterms => uncoveredMinterms
  | m :: rest, uncoveredMinterms =>
    collectUncovered coveredMinterms rest
      (if m ∈ coveredMinterms then uncoveredMinterms else setInsert m uncoveredMinterms)

/-- Loop collecting `remainingPIs` and `remainingCoverage`. -/
def collectRemaining (V : Nat) (essentialPIs : List (List Char)) (uncoveredMinterms : List Int) :
    List (List Char) → List (List Char) × List (List Char × List Int) →
    Except QMError (List (List Char) × List (List Char × List Int))
  | [], acc => .ok acc
  | pi :: rest, acc =>
    if pi ∈ essentialPIs then collectRemaining V essentialPIs uncoveredMinterms rest acc
    else
      match coveredSet V pi uncoveredMinterms [] with
      | .ok coverage =>
        collectRemaining V essentialPIs uncoveredMinterms rest
          (if coverage ≠ [] then (acc.1 ++ [pi], mapAssign pi coverage acc.2) else acc)
      | .error e => .error e

/-- `QM::findEssentialPrimeImplicants`. -/
def findEssentialPrimeImplicants (q : State) : Except QMError State :=
  if q.primeImplicants = [] then
    .ok { q with essentialPrimeImplicants := [], minimalSolutions := [] }
  else
    match buildMintermCoverage q.VARIABLES q.mintermList q.primeImplicants [] with
    | .error e => .error e
    | .ok mintermCoverage =>
      let sel := selectEssential mintermCoverage
        { essentialPrimeImplicants := [], essentialPIs := [], coveredMinterms := [],
          implicantCoverage := q.implicantCoverage }
      let uncoveredMinterms := collectUncovered sel.coveredMinterms q.mintermList []
      let q1 : State :=
        { q with
          essentialPrimeImplicants := sel.essentialPrimeImplicants
          implicantCoverage := sel.implicantCoverage
          uncoveredMintermsAfterEPI := uncoveredMinterms }
      if uncoveredMinterms = [] then .ok { q1 with minimalSolutions := [] }
      else
        match collectRemaining q.VARIABLES sel.essentialPIs uncoveredMinterms
            q.primeImplicants ([], []) with
        | .error e => .error e
        | .ok (remainingPIs, remainingCoverage) =>
          if remainingPIs = [] then .ok { q1 with minimalSolutions := [] }
          else petricksMethod q1 remainingPIs remainingCoverage uncoveredMinterms

/-! ## Maxterm converter and input validation -/

/-- Loop `for (int i = 0; i < totalTerms; i++)` of `QM::convertMaxtermsToMinterms`, over
the values of `i` still to be visited. -/
def complementLoop (maxtermSet : List Int) : List Nat → List Int → List Int
  | [], minterms => minterms
  | i :: rest, minterms =>
    complementLoop maxtermSet rest
      (if (i : Int) ∈ maxtermSet then minterms else minterms ++ [(i : Int)])

/-- `QM::convertMaxtermsToMinterms`, with `V` the member `VARIABLES`; `totalTerms` is
`1 << VARIABLES`, which does not overflow for `VARIABLES` up to 30. -/
def convertMaxtermsToMinterms (V : Nat) (maxterms : List Int) : List Int :=
  complementLoop (insertAll maxterms []) (List.range (2 ^ V)) []

/-- `std::set_intersection` on two sorted ranges: the smaller head is skipped, equal
heads are written once and both ranges advance. -/
def setIntersection {α : Type} [LinearOrder α] : List α → List α → List α
  | [], _ => []
  | a :: as, bs =>
    match bs.dropWhile (fun b => b < a) with
    | [] => []
    | b :: rest => if a < b then setIntersection as (b :: rest) else a :: setIntersection as rest

/-- The two range-check loops of `QM::validateInput`: an out-of-range term clears `valid`,
an in-range term is kept. -/
def checkRange (maxTerm : Int) : List Int → Bool × List Int → Bool × List Int
  | [], acc => acc
  | m :: rest, acc =>
    if m < 0 ∨ m > maxTerm then checkRange maxTerm rest (false, acc.2)
    else checkRange maxTerm rest (acc.1, acc.2 ++ [m])

/-- `QM::validateInput`: the returned flag and the object afterwards (the messages
written to `cerr` are left out). `maxTerm` is `(1 << VARIABLES) - 1`. -/
def validateInput (q : State) : Bool × State :=
  let mintermList := uniqueStd (sortStd q.mintermList)
  let dontCareList := uniqueStd (sortStd q.dontCareList)
  let maxTerm : Int := 2 ^ q.VARIABLES - 1
  let valid := if setIntersection mintermList dontCareList ≠ [] then false else true
  let r1 := checkRange maxTerm mintermList (valid, [])
  let r2 := checkRange maxTerm dontCareList (r1.1, [])
  (r2.1, { q with mintermList := r1.2, dontCareList := r2.2 })

/-! ## Expression rendering -/

/-- The apostrophe that marks a complemented variable. -/
def apostrophe : Char := Char.ofNat 39

/-- Loop of `QM::binaryToExpression` at position `i`. Reading `vars[i]` beyond the end of
`vars` is undefined in the source. -/
def binaryToExpressionLoop (vars : List (List Char)) :
    Nat → List Char → List Char → Except QMError (List Char)
  | _, [], expression => .ok expression
  | i, c :: rest, expression =>
    if c = '0' then
      match vars[i]? with
      | some v => binaryToExpressionLoop vars (i + 1) rest (expression ++ (v ++ [apostrophe]))
      | none => .error .undefined_behaviour
    else if c = '1' then
      match vars[i]? with
      | some v => binaryToExpressionLoop vars (i + 1) rest (expression ++ v)
      | none => .error .undefined_behaviour
    else binaryToExpressionLoop vars (i + 1) rest expression

/-- `QM::binaryToExpression`, with `V` the member `VARIABLES`; variable `i` is the
one-letter string `'A' + i`. -/
def binaryToExpression (V : Nat) (binary : List Char) : Except QMError (List Char) :=
  if V = 0 then .ok []
  else binaryToExpressionLoop ((List.range V).map fun i => [Char.ofNat (65 + i)]) 0 binary []

/-- What `QM::minimize` prints as the minimized expression, and `printVerilogModule` builds:
a constant when `essentialPrimeImplicants` is empty, otherwise the essential prime
implicants followed by the first minimal solution. -/
inductive Report where
  | constantZero
  | constantOne
  | sumOfProducts (terms : List (List Char))
  deriving DecidableEq, Repr

/-- The branch of `QM::minimize` that prints the minimized expression. -/
def minimizedExpression (q : State) : Report :=
  if q.essentialPrimeImplicants = [] then
    if q.mintermList = [] then .constantZero else .constantOne
  else
    .sumOfProducts (q.essentialPrimeImplicants ++
      (match q.minimalSolutions with
       | [] => []
       | first :: _ => first))

/-! ## Specification vocabulary -/

/-- The `V` rightmost characters of `bitsetToString n`: what `decToBin` returns
whenever `substr` succeeds. -/
def lowBits (V : Nat) (n : Int) : List Char := (bitsetToString n).drop (20 - V)

/-- A pattern: `V` symbols, each `0`, `1` or `-`. -/
def IsPattern (V : Nat) (p : List Char) : Prop :=
  p.length = V ∧ ∀ c ∈ p, c = '0' ∨ c = '1' ∨ c = '-'

/-- A pattern without wildcard. -/
def IsBinary (V : Nat) (s : List Char) : Prop :=
  s.length = V ∧ ∀ c ∈ s, c = '0' ∨ c = '1'

/-- A term of `[0, 2^V - 1]`. -/
def InRange (V : Nat) (t : Int) : Prop := 0 ≤ t ∧ t ≤ 2 ^ V - 1

/-- A valid input: `V` in 1..20, minterms and don't-cares in range, the two lists disjoint. -/
def ValidInput (V : Nat) (minterms dontCares : List Int) : Prop :=
  (1 ≤ V ∧ V ≤ 20) ∧ (∀ t ∈ minterms, InRange V t) ∧ (∀ t ∈ dontCares, InRange V t) ∧
    ∀ t ∈ minterms, t ∉ dontCares

/-- Membership of `t` in the vector stored under key `k` of a map of vectors. -/
def InGroup {κ α : Type} (m : List (κ × List α)) (k : κ) (t : α) : Prop :=
  ∃ g, (k, g) ∈ m ∧ t ∈ g

/-- The pairs `(a, b)` that the loop over adjacent groups compares: `a` from some
entry of the map, `b` from the entry right after it. -/
def AdjPair {κ α : Type} : List (κ × List α) → α → α → Prop
  | (_, g) :: (k, nextGroup) :: rest, a, b =>
    (a ∈ g ∧ b ∈ nextGroup) ∨ AdjPair ((k, nextGroup) :: rest) a b
  | _, _, _ => False

/-- Keys of a map in iteration order. -/
def keys {κ β : Type} (m : List (κ × β)) : List κ := m.map Prod.fst

/-- The pass state `st2` is `st` after the pairs of `R` have been compared: the merges
of the adjacent pairs were added to `nextPIs`, their sources to `marked`. -/
def Extends (st st2 : Pass) (R : List Char → List Char → Prop) : Prop :=
  (∀ c, c ∈ st2.nextPIs ↔
    c ∈ st.nextPIs ∨ ∃ a b, R a b ∧ isGreyCode a b = true ∧ c = combineTerms a b) ∧
  (∀ m, m ∈ st2.marked ↔
    m ∈ st.marked ∨ ∃ a b, R a b ∧ isGreyCode a b = true ∧ (m = a ∨ m = b)) ∧
  (st2.changed = true ↔ st.changed = true ∨ ∃ a b, R a b ∧ isGreyCode a b = true)

/-- Number of wildcards of a pattern. -/
def dashes (p : List Char) : Nat := p.count '-'

/-- Two strings that differ at exactly one position. -/
def Adjacent (a b : List Char) : Prop :=
  ∃ pre x y post, a = pre ++ x :: post ∧ b = pre ++ y :: post ∧ x ≠ y

/-- An implicant of the set `S` of encoded terms: every binary string it covers is in `S`. -/
def Implicant (V : Nat) (S : List (List Char)) (p : List Char) : Prop :=
  ∀ s, IsBinary V s → covers p s = true → s ∈ S

/-- Every binary string covered by `p` is covered by `q`. -/
def Within (V : Nat) (p q : List Char) : Prop :=
  ∀ s, IsBinary V s → covers p s = true → covers q s = true

/-- A prime implicant of `S`: an implicant pattern that no other implicant pattern contains. -/
def Prime (V : Nat) (S : List (List Char)) (p : List Char) : Prop :=
  IsPattern V p ∧ Implicant V S p ∧
    ∀ q, IsPattern V q → q ≠ p → Implicant V S q → ¬ Within V p q

/-- The implicant patterns of `S` with exactly `r` wildcards. -/
def Level (V : Nat) (S : List (List Char)) (r : Nat) (p : List Char) : Prop :=
  IsPattern V p ∧ dashes p = r ∧ Implicant V S p

/-- Position by position, `q` has a wildcard or the symbol of `p`. -/
def Contains (q p : List Char) : Prop :=
  List.Forall₂ (fun qc pc => qc = '-' ∨ qc = pc) q p

/-- Value of a string of binary digits, most significant first. -/
def decode : List Char → Nat
  | [] => 0
  | c :: s => (if c = '1' then 2 ^ s.length else 0) + decode s

/-- What the loop `coveredSet` computes when the encoder raises no error. -/
def coveredPure (V : Nat) (pi : List Char) : List Int → List Int → List Int
  | [], covered => covered
  | m :: rest, covered =>
    coveredPure V pi rest (if covers pi (lowBits V m) then setInsert m covered else covered)

/-- The encoded terms `binaryTerms` of `generatePrimeImplicants`. -/
def binaryTermsOf (V : Nat) (minterms dontCares : List Int) : List (List Char) :=
  (uniqueStd (sortStd (minterms ++ dontCares))).map (lowBits V)

/-- A strictly ascending list, in the order `std::sort` and `std::set` use (for strings:
lexicographic by character code). -/
def Ascending {α : Type} [LinearOrder α] (l : List α) : Prop := l.Sorted (· < ·)

/-- What `generatePrimeImplicants` establishes on a fresh object: the inputs are untouched,
`primeImplicants` is the strictly ascending list of the prime implicants of the encoded
terms, and `implicantCoverage` maps every prime implicant that covers some minterm to
the set of minterms it covers. -/
def Generated (V : Nat) (mt dc : List Int) (q : State) : Prop :=
  q.VARIABLES = V ∧ q.mintermList = mt ∧ q.dontCareList = dc ∧
  (∀ p, p ∈ q.primeImplicants ↔ Prime V (binaryTermsOf V mt dc) p) ∧
  Ascending q.primeImplicants ∧
  (∀ pi, mapFind pi q.implicantCoverage =
    if pi ∈ q.primeImplicants ∧ coveredPure V pi mt [] ≠ [] then some (coveredPure V pi mt [])
    else none) ∧
  q.essentialPrimeImplicants = [] ∧ q.minimalSolutions = [] ∧ q.uncoveredMintermsAfterEPI = []

/-- The vector stored under key `k` of a map of vectors, empty when the key is absent. -/
def getVec {κ α : Type} [DecidableEq κ] (m : List (κ × List α)) (k : κ) : List α :=
  (mapFind k m).getD []

/-- A map of vectors in which every stored vector is non-empty, keys strictly ascending. -/
def MapOK {κ α : Type} [LinearOrder κ] (m : List (κ × List α)) : Prop :=
  (keys m).Sorted (· < ·) ∧ ∀ e ∈ m, e.2 ≠ []

/-- The vector that `findEssentialPrimeImplicants` stores in `mintermCoverage` under the
minterm `k`: each prime implicant covering `k`, in order, once per occurrence of `k` in
the minterm list. -/
def clauseOf (V : Nat) (ml : List Int) (k : Int) : List (List Char) → List (List Char)
  | [] => []
  | pi :: pis =>
    List.replicate (if covers pi (lowBits V k) then ml.count k else 0) pi ++ clauseOf V ml k pis

/-- State of the essential-implicant loop after the entries `L` of `mintermCoverage`
have been visited, `cov0` being `implicantCoverage` before the loop. -/
def SelInv (cov0 : List (List Char × List Int)) (L : List (Int × List (List Char)))
    (st : Selection) : Prop :=
  (∀ e, e ∈ st.essentialPrimeImplicants ↔ ∃ k, (k, [e]) ∈ L) ∧
  (∀ e, e ∈ st.essentialPIs ↔ ∃ k, (k, [e]) ∈ L) ∧
  (∀ e, getVec st.implicantCoverage e = getVec cov0 e) ∧
  (∀ m, m ∈ st.coveredMinterms ↔ ∃ e k, (k, [e]) ∈ L ∧ m ∈ getVec cov0 e)

/-- The arguments `remainingPIs` and `remainingCoverage` that `findEssentialPrimeImplicants`
hands to Petrick's method: the non-essential prime implicants that cover some residual
minterm, each mapped to the residual minterms it covers. -/
def Remaining (V : Nat) (pis ess : List (List Char)) (unc : List Int)
    (rp : List (List Char)) (rc : List (List Char × List Int)) : Prop :=
  (∀ p, p ∈ rp ↔ p ∈ pis ∧ p ∉ ess ∧ coveredPure V p unc [] ≠ []) ∧
  (∀ p, mapFind p rc =
    if p ∈ pis ∧ p ∉ ess ∧ coveredPure V p unc [] ≠ [] then some (coveredPure V p unc [])
    else none)

/-- The product-of-sums `mintermToPIs` of Petrick's method: one clause per residual
minterm that has a covering implicant, holding the implicants that cover it. -/
def ClauseMap (unc : List Int) (rp : List (List Char)) (rc : List (List Char × List Int))
    (L : List (Int × List (List Char))) : Prop :=
  MapOK L ∧ (∀ k t, InGroup L k t ↔ (k ∈ unc ∧ t ∈ rp ∧ k ∈ getVec rc t)) ∧
    ∀ k ∈ keys L, k ∈ unc

/-- What one call of `findEssentialPrimeImplicants` on a state `q` with a non-empty
`primeImplicants` does: `mc` is its local `mintermCoverage`, `sel` the result of the
essential-implicant loop, `q2` the state afterwards. -/
def Selected (q : State) (mc : List (Int × List (List Char))) (sel : Selection)
    (q2 : State) : Prop :=
  MapOK mc ∧
  (∀ k, getVec mc k = clauseOf q.VARIABLES q.mintermList k q.primeImplicants) ∧
  SelInv q.implicantCoverage mc sel ∧
  q2.VARIABLES = q.VARIABLES ∧ q2.mintermList = q.mintermList ∧
  q2.dontCareList = q.dontCareList ∧ q2.primeImplicants = q.primeImplicants ∧
  q2.essentialPrimeImplicants = sel.essentialPrimeImplicants ∧
  (∀ m, m ∈ q2.uncoveredMintermsAfterEPI ↔ m ∈ q.mintermList ∧ m ∉ sel.coveredMinterms) ∧
  Ascending q2.uncoveredMintermsAfterEPI ∧
  (q2.uncoveredMintermsAfterEPI = [] → q2.minimalSolutions = []) ∧
  (q2.uncoveredMintermsAfterEPI ≠ [] →
    ∃ rp rc, Remaining q.VARIABLES q.primeImplicants sel.essentialPIs
        q2.uncoveredMintermsAfterEPI rp rc ∧
      (rp = [] → q2.minimalSolutions = []) ∧
      (rp ≠ [] → ∃ k first rest,
        ClauseMap q2.uncoveredMintermsAfterEPI rp rc ((k, first) :: rest) ∧
        q2.minimalSolutions = selectMinimal (multiplyAll rest (first.map fun pi => [pi]))))

/-- The expression the specification describes for a pattern read from position `i` on:
for each position the letter `'A' + i` followed by an apostrophe for `0`, the letter alone
for `1`, nothing for any other symbol. -/
def literalsOf : Nat → List Char → List Char
  | _, [] => []
  | i, c :: rest =>
    (if c = '0' then [Char.ofNat (65 + i), apostrophe]
     else if c = '1' then [Char.ofNat (65 + i)] else []) ++ literalsOf (i + 1) rest

/-- The multiplication loop of Petrick's method as the specification describes it when the
early exit is left out: the clause of every residual minterm is multiplied in. -/
def multiplyAllClauses :
    List (Int × List (List Char)) → List (List (List Char)) → List (List (List Char))
  | [], solutions => solutions
  | (_, clause) :: rest, solutions =>
    multiplyAllClauses rest (multiplyClause clause solutions [])

/-- `petricksMethod` with `multiplyAllClauses` in place of the loop with the early exit;
everything else as in the source. -/
def petricksMethodAllClauses (q : State) (remainingPIs : List (List Char))
    (remainingCoverage : List (List Char × List Int)) (uncoveredMinterms : List Int) :
    Except QMError State :=
  if remainingPIs = [] ∨ uncoveredMinterms = [] then .ok { q with minimalSolutions := [] }
  else
    match buildClauses remainingPIs remainingCoverage uncoveredMinterms [] with
    | .error e => .error e
    | .ok [] => .error .undefined_behaviour
    | .ok ((_, firstClause) :: rest) =>
      .ok { q with
        minimalSolutions :=
          selectMinimal (multiplyAllClauses rest (firstClause.map fun pi => [pi])) }

/-- The successive values of `currentPIs` in the loop `while (changed)` of
`QM::generatePrimeImplicants`, one per executed pass (the source rebuilds `groups` from
`currentPIs` before each pass); at most `fuel` passes are followed. -/
def combineRounds : Nat → List (List Char) → List (List (List Char))
  | 0, _ => []
  | fuel + 1, currentPIs =>
    currentPIs ::
      (if (compareAdjacent (groupByOnes currentPIs [])
            { nextPIs := [], marked := [], changed := false }).changed
        then combineRounds fuel
          (compareAdjacent (groupByOnes currentPIs [])
            { nextPIs := [], marked := [], changed := false }).nextPIs
        else [])

/-- A subset `S` of `remainingPIs`, as a strictly ascending list, that covers every
residual minterm according to `remainingCoverage`. -/
def IsCover (rp : List (List Char)) (rc : List (List Char × List Int)) (unc : List Int)
    (S : List (List Char)) : Prop :=
  Ascending S ∧ (∀ p ∈ S, p ∈ rp) ∧ ∀ m ∈ unc, ∃ p ∈ S, m ∈ getVec rc p

/-- A cover with the least number of implicants among all subsets of `remainingPIs`
that cover every residual minterm. -/
def IsMinimumCover (rp : List (List Char)) (rc : List (List Char × List Int))
    (unc : List Int) (S : List (List Char)) : Prop :=
  IsCover rp rc unc S ∧
    ∀ T : Finset (List Char), (∀ p ∈ T, p ∈ rp) →
      (∀ m ∈ unc, ∃ p ∈ T, m ∈ getVec rc p) → S.length ≤ T.card

/-! ## The term encoder -/

theorem bitsetToString_length (n : Int) : (bitsetToString n).length = 20 := by
  simp [bitsetToString]

theorem lowBits_eq_map (V : Nat) (hV : V ≤ 20) (n : Int) :
    lowBits V n = (List.range V).map
      (fun i => if ((n % 2 ^ 20).toNat).testBit (V - 1 - i) then '1' else '0') := by
  apply List.ext_getElem
  · simp [lowBits, bitsetToString]; omega
  · intro i h1 h2
    simp [lowBits, bitsetToString] at h1 h2 ⊢
    have : 19 - (20 - V + i) = V - 1 - i := by omega
    rw [this]

theorem decToBin_eq_ok (V : Nat) (hV : V ≤ 20) (n : Int) : decToBin V n = .ok (lowBits V n) := by
  unfold decToBin
  split
  · next h => subst h; simp [lowBits, bitsetToString]
  · next h =>
    have h1 : (0:Int) ≤ 20 - (V:Int) ∧ 20 - (V:Int) ≤ ((bitsetToString n).length : Int) := by
      rw [bitsetToString_length]; omega
    have h2 : (20 - (V:Int)).toNat = 20 - V := by omega
    simp [substr, h1, h2, lowBits]

theorem lowBits_length (V : Nat) (hV : V ≤ 20) (n : Int) : (lowBits V n).length = V := by
  rw [lowBits_eq_map V hV]; simp

theorem lowBits_binary (V : Nat) (hV : V ≤ 20) (n : Int) : IsBinary V (lowBits V n) := by
  refine ⟨lowBits_length V hV n, ?_⟩
  rw [lowBits_eq_map V hV]
  intro c hc
  simp only [List.mem_map] at hc
  obtain ⟨i, _, rfl⟩ := hc
  split <;> simp

theorem lowBits_getElem? (V : Nat) (hV : V ≤ 20) (n : Int) (i : Nat) (hi : i < V) :
    (lowBits V n)[i]? =
      some (if ((n % 2 ^ 20).toNat).testBit (V - 1 - i) then '1' else '0') := by
  rw [lowBits_eq_map V hV]
  simp [List.getElem?_map, List.getElem?_range hi]

theorem inRange_toNat (V : Nat) (hV : V ≤ 20) (t : Int) (ht : InRange V t) :
    (t % 2 ^ 20).toNat = t.toNat ∧ t.toNat < 2 ^ V ∧ (t.toNat : Int) = t := by
  obtain ⟨h0, h1⟩ := ht
  have hpow : (2:Int) ^ V ≤ 2 ^ 20 := pow_le_pow_right₀ (by norm_num) hV
  have h2 : t % 2 ^ 20 = t := Int.emod_eq_of_lt h0 (by omega)
  have h3 : (t.toNat : Int) = t := Int.toNat_of_nonneg h0
  refine ⟨by rw [h2], ?_, h3⟩
  have : ((t.toNat : Nat) : Int) < ((2 ^ V : Nat) : Int) := by push_cast; omega
  exact_mod_cast this

theorem testBit_int (n : Nat) (j : Nat) :
    n.testBit j = decide (((n : Int) / 2 ^ j) % 2 = 1) := by
  rw [Nat.testBit_to_div_mod]
  congr 1
  apply propext
  constructor
  · intro h; have : (((n / 2 ^ j % 2 : Nat)) : Int) = 1 := by rw [h]; rfl
    push_cast at this; exact this
  · intro h; have : (((n / 2 ^ j % 2 : Nat)) : Int) = 1 := by push_cast; exact h
    exact_mod_cast this

theorem bitChar_inj (a b : Bool) (h : (if a then '1' else '0') = (if b then '1' else ('0' : Char))) :
    a = b := by
  cases a <;> cases b <;> simp at h <;> rfl

theorem lowBits_injective (V : Nat) (hV : V ≤ 20) (t u : Int) (ht : InRange V t)
    (hu : InRange V u) (h : lowBits V t = lowBits V u) : t = u := by
  obtain ⟨ht1, ht2, ht3⟩ := inRange_toNat V hV t ht
  obtain ⟨hu1, hu2, hu3⟩ := inRange_toNat V hV u hu
  have key : t.toNat = u.toNat := by
    apply Nat.eq_of_testBit_eq
    intro j
    by_cases hj : j < V
    · have e1 := lowBits_getElem? V hV t (V - 1 - j) (by omega)
      have e2 := lowBits_getElem? V hV u (V - 1 - j) (by omega)
      rw [h, e2] at e1
      have hh : V - 1 - (V - 1 - j) = j := by omega
      rw [hh, ht1, hu1] at e1
      exact (bitChar_inj _ _ (Option.some.inj e1)).symm
    · have h1 : t.toNat < 2 ^ j := lt_of_lt_of_le ht2 (Nat.pow_le_pow_right (by norm_num) (by omega))
      have h2 : u.toNat < 2 ^ j := lt_of_lt_of_le hu2 (Nat.pow_le_pow_right (by norm_num) (by omega))
      rw [Nat.testBit_lt_two_pow h1, Nat.testBit_lt_two_pow h2]
  rw [← ht3, ← hu3, key]

/-- C8: for `V` in 1..20 and a term `t` of `[0, 2^V - 1]`, `decToBin` returns a string of
exactly `V` characters, each `0` or `1`, whose character at position `i` is `1` exactly
when bit `V - 1 - i` of `t` is set; no other in-range term has the same encoding. -/
theorem decToBin_encoding (V : Nat) (t : Int) (hV : 1 ≤ V ∧ V ≤ 20) (ht : InRange V t) :
    ∃ s, decToBin V t = .ok s ∧ s.length = V ∧ (∀ c ∈ s, c = '0' ∨ c = '1') ∧
      (∀ i, i < V → s[i]? = some (if t / 2 ^ (V - 1 - i) % 2 = 1 then '1' else '0')) ∧
      ∀ u, InRange V u → u ≠ t → decToBin V u ≠ .ok s := by
  refine ⟨lowBits V t, decToBin_eq_ok V hV.2 t, lowBits_length V hV.2 t,
    (lowBits_binary V hV.2 t).2, ?_, ?_⟩
  · intro i hi
    obtain ⟨h1, _, h3⟩ := inRange_toNat V hV.2 t ht
    rw [lowBits_getElem? V hV.2 t i hi, h1, testBit_int, h3]
    simp
  · intro u hu hne h
    rw [decToBin_eq_ok V hV.2 u] at h
    exact hne (lowBits_injective V hV.2 u t hu ht (Except.ok.inj h))

theorem decToBin_encoding_witness :
    ∃ s, decToBin 3 5 = .ok s ∧ s.length = 3 ∧ (∀ c ∈ s, c = '0' ∨ c = '1') ∧
      (∀ i, i < 3 → s[i]? = some (if (5 : Int) / 2 ^ (3 - 1 - i) % 2 = 1 then '1' else '0')) ∧
      ∀ u, InRange 3 u → u ≠ 5 → decToBin 3 u ≠ .ok s :=
  decToBin_encoding 3 5 (by decide) (by unfold InRange; decide)

/-! ## Coverage -/

@[simp] theorem covers_nil_nil : covers [] [] = true := by simp [covers, coversLoop]

@[simp] theorem covers_nil_cons (d : Char) (s : List Char) : covers [] (d :: s) = false := by
  simp [covers]

@[simp] theorem covers_cons_nil (c : Char) (p : List Char) : covers (c :: p) [] = false := by
  simp [covers]

theorem covers_cons_cons (c d : Char) (p s : List Char) :
    covers (c :: p) (d :: s) = (decide (c = '-' ∨ c = d) && covers p s) := by
  by_cases h : c = '-' ∨ c = d
  · have h2 : ¬ (¬ c = '-' ∧ ¬ c = d) := by tauto
    simp [covers, coversLoop, h, h2]
  · have h2 : (¬ c = '-' ∧ ¬ c = d) := by tauto
    simp [covers, coversLoop, h, h2]

theorem covers_length {p s : List Char} (h : covers p s = true) : p.length = s.length := by
  unfold covers at h
  split at h
  · simp at h
  · next hl => simpa using hl

theorem covers_self (s : List Char) : covers s s = true := by
  induction s with
  | nil => simp
  | cons c s ih => simp [covers_cons_cons, ih]

theorem covers_mismatch (p s : List Char) (i : Nat) (c d : Char) (hp : p[i]? = some c)
    (hs : s[i]? = some d) (h1 : c ≠ '-') (h2 : c ≠ d) : covers p s = false := by
  induction p generalizing s i with
  | nil => simp at hp
  | cons a p ih =>
    cases s with
    | nil => simp
    | cons b s =>
      rw [covers_cons_cons]
      cases i with
      | zero =>
        simp at hp hs
        subst hp; subst hs
        simp [h1, h2]
      | succ i =>
        simp at hp hs
        simp [ih s i hp hs]

theorem coversInt_eq_ok (V : Nat) (hV : V ≤ 20) (p : List Char) (t : Int) :
    coversInt V p t = .ok (covers p (lowBits V t)) := by
  simp [coversInt, decToBin_eq_ok V hV, Except.map]

/-- C9: for `V` in 1..20 and a term `t` of `[0, 2^V - 1]`, the encoding of `t` covers `t`;
and a pattern of length `V` that has, at some position, a symbol other than `-` that
differs from the corresponding bit of `t` does not cover `t`. -/
theorem covers_roundtrip (V : Nat) (t : Int) (hV : 1 ≤ V ∧ V ≤ 20) (ht : InRange V t) :
    (∃ s, decToBin V t = .ok s ∧ coversInt V s t = .ok true) ∧
    ∀ p : List Char, p.length = V →
      (∃ i c, i < V ∧ p[i]? = some c ∧ c ≠ '-' ∧
        c ≠ (if t / 2 ^ (V - 1 - i) % 2 = 1 then '1' else '0')) →
      coversInt V p t = .ok false := by
  constructor
  · exact ⟨lowBits V t, decToBin_eq_ok V hV.2 t, by
      rw [coversInt_eq_ok V hV.2, covers_self]⟩
  · rintro p - ⟨i, c, hi, hp, h1, h2⟩
    rw [coversInt_eq_ok V hV.2]
    obtain ⟨e1, _, e3⟩ := inRange_toNat V hV.2 t ht
    have hs := lowBits_getElem? V hV.2 t i hi
    rw [e1, testBit_int, e3] at hs
    simp only [decide_eq_true_eq] at hs
    rw [covers_mismatch p (lowBits V t) i c _ hp hs h1 h2]

theorem covers_roundtrip_witness :
    (∃ s, decToBin 3 5 = .ok s ∧ coversInt 3 s 5 = .ok true) ∧
    ∀ p : List Char, p.length = 3 →
      (∃ i c, i < 3 ∧ p[i]? = some c ∧ c ≠ '-' ∧
        c ≠ (if (5 : Int) / 2 ^ (3 - 1 - i) % 2 = 1 then '1' else '0')) →
      coversInt 3 p 5 = .ok false :=
  covers_roundtrip 3 5 (by decide) (by unfold InRange; decide)

/-! ## The encoder has no range check -/

/-- C10 (counterexample): with one variable the out-of-range term 2 is encoded as `0`,
and the negative term -1 as `1`; no range error is raised. -/
theorem decToBin_out_of_range_counterexample :
    (2 : Int) > 2 ^ 1 - 1 ∧ decToBin 1 2 = .ok ['0'] ∧
      (-1 : Int) < 0 ∧ decToBin 1 (-1) = .ok ['1'] := by
  decide

theorem lowBits_emod (V : Nat) (hV : V ≤ 20) (n : Int) : lowBits V (n % 2 ^ V) = lowBits V n := by
  rw [lowBits_eq_map V hV, lowBits_eq_map V hV]
  apply List.map_congr_left
  intro i hi
  have hi2 : i < V := by simpa using hi
  have hpos : (0 : Int) < 2 ^ V := by positivity
  have hpow : (2:Int) ^ V ≤ 2 ^ 20 := pow_le_pow_right₀ (by norm_num) hV
  have h0 : 0 ≤ n % 2 ^ V := Int.emod_nonneg n (ne_of_gt hpos)
  have h1 : n % 2 ^ V < 2 ^ V := Int.emod_lt_of_pos n hpos
  have e1 : n % 2 ^ V % 2 ^ 20 = n % 2 ^ V := Int.emod_eq_of_lt h0 (by omega)
  have hdvd : ((2:Int) ^ V) ∣ 2 ^ 20 := pow_dvd_pow 2 hV
  have e2 : (n % 2 ^ 20) % 2 ^ V = n % 2 ^ V := Int.emod_emod_of_dvd n hdvd
  have h20 : 0 ≤ n % 2 ^ 20 := Int.emod_nonneg n (by norm_num)
  have e3 : (n % 2 ^ V).toNat = (n % 2 ^ 20).toNat % 2 ^ V := by
    apply Int.ofNat_inj.mp
    rw [Int.toNat_of_nonneg h0]
    rw [Int.natCast_mod, Int.toNat_of_nonneg h20]
    push_cast
    exact e2.symm
  rw [e1, e3, Nat.testBit_mod_two_pow]
  have : V - 1 - i < V := by omega
  simp [this]

/-- C10 (amended): for `V` in 1..20 and every integer `n`, in range or not, `decToBin`
raises no error: it returns a string of `V` binary digits, the encoding of the
in-range term `n mod 2^V`. -/
theorem decToBin_total (V : Nat) (n : Int) (hV : 1 ≤ V ∧ V ≤ 20) :
    ∃ s, decToBin V n = .ok s ∧ IsBinary V s ∧
      InRange V (n % 2 ^ V) ∧ decToBin V (n % 2 ^ V) = .ok s := by
  refine ⟨lowBits V n, decToBin_eq_ok V hV.2 n, lowBits_binary V hV.2 n, ?_, ?_⟩
  · have hpos : (0 : Int) < 2 ^ V := by positivity
    have h0 : 0 ≤ n % 2 ^ V := Int.emod_nonneg n (ne_of_gt hpos)
    have h1 : n % 2 ^ V < 2 ^ V := Int.emod_lt_of_pos n hpos
    exact ⟨h0, by omega⟩
  · rw [decToBin_eq_ok V hV.2, lowBits_emod V hV.2]

theorem decToBin_total_witness :
    ∃ s, decToBin 1 2 = .ok s ∧ IsBinary 1 s ∧
      InRange 1 (2 % 2 ^ 1) ∧ decToBin 1 (2 % 2 ^ 1) = .ok s :=
  decToBin_total 1 2 (by decide)

/-! ## Containers -/

theorem mem_sortStd {α : Type} [LinearOrder α] (x : α) (l : List α) : x ∈ sortStd l ↔ x ∈ l := by
  unfold sortStd
  exact (List.perm_insertionSort (· ≤ ·) l).mem_iff

theorem sorted_sortStd {α : Type} [LinearOrder α] (l : List α) : (sortStd l).Sorted (· ≤ ·) := by
  unfold sortStd
  exact List.sorted_insertionSort (· ≤ ·) l

theorem mem_uniqueStd_cons {α : Type} [DecidableEq α] (x : α) (l : List α) (a : α) :
    x ∈ uniqueStd (a :: l) ↔ x = a ∨ x ∈ l := by
  induction l generalizing a with
  | nil => simp [uniqueStd]
  | cons b l ih =>
    by_cases h : a = b
    · subst h
      rw [uniqueStd, if_pos rfl, ih]; simp
    · rw [uniqueStd, if_neg h, List.mem_cons, ih]; simp

theorem mem_uniqueStd {α : Type} [DecidableEq α] (x : α) (l : List α) :
    x ∈ uniqueStd l ↔ x ∈ l := by
  cases l with
  | nil => simp [uniqueStd]
  | cons a l => rw [mem_uniqueStd_cons]; simp

theorem sorted_uniqueStd_cons {α : Type} [LinearOrder α] [DecidableEq α] (l : List α) (a : α)
    (h : (a :: l).Sorted (· ≤ ·)) : (uniqueStd (a :: l)).Sorted (· < ·) := by
  induction l generalizing a with
  | nil => simp [uniqueStd]
  | cons b l ih =>
    have h1 : (b :: l).Sorted (· ≤ ·) := List.Sorted.of_cons h
    by_cases hab : a = b
    · subst hab
      rw [uniqueStd, if_pos rfl]
      exact ih a h1
    · rw [uniqueStd, if_neg hab]
      refine List.pairwise_cons.mpr ⟨?_, ih b h1⟩
      intro y hy
      rw [mem_uniqueStd] at hy
      have hab2 : a ≤ b := List.rel_of_sorted_cons h b (List.mem_cons_self _ _)
      have hby : b ≤ y := by
        rcases List.mem_cons.mp hy with rfl | hy2
        · exact le_refl _
        · exact List.rel_of_sorted_cons h1 y hy2
      exact lt_of_lt_of_le (lt_of_le_of_ne hab2 hab) hby

theorem sorted_uniqueStd_sortStd {α : Type} [LinearOrder α] [DecidableEq α] (l : List α) :
    (uniqueStd (sortStd l)).Sorted (· < ·) := by
  have h := sorted_sortStd l
  cases hs : sortStd l with
  | nil => simp [uniqueStd]
  | cons a l2 => rw [hs] at h; exact sorted_uniqueStd_cons l2 a h

theorem mem_setInsert {α : Type} [LinearOrder α] (x y : α) (l : List α) :
    y ∈ setInsert x l ↔ y = x ∨ y ∈ l := by
  induction l with
  | nil => simp [setInsert]
  | cons z l ih =>
    unfold setInsert
    split
    · simp
    · split
      · next h => subst h; simp
      · simp [ih]; tauto

theorem inGroup_nil {κ α : Type} (k : κ) (t : α) : ¬ InGroup ([] : List (κ × List α)) k t := by
  simp [InGroup]

theorem inGroup_cons {κ α : Type} (k1 : κ) (vs : List α) (m : List (κ × List α)) (k : κ) (t : α) :
    InGroup ((k1, vs) :: m) k t ↔ (k = k1 ∧ t ∈ vs) ∨ InGroup m k t := by
  simp only [InGroup, List.mem_cons, Prod.mk.injEq]
  constructor
  · rintro ⟨g, (⟨rfl, rfl⟩ | hg), ht⟩
    · exact Or.inl ⟨rfl, ht⟩
    · exact Or.inr ⟨g, hg, ht⟩
  · rintro (⟨rfl, ht⟩ | ⟨g, hg, ht⟩)
    · exact ⟨vs, Or.inl ⟨rfl, rfl⟩, ht⟩
    · exact ⟨g, Or.inr hg, ht⟩

theorem inGroup_mapPushBack {κ α : Type} [LinearOrder κ] (k : κ) (v : α)
    (m : List (κ × List α)) (k2 : κ) (t : α) :
    InGroup (mapPushBack k v m) k2 t ↔ (k2 = k ∧ t = v) ∨ InGroup m k2 t := by
  induction m with
  | nil => simp [mapPushBack, inGroup_cons, inGroup_nil]
  | cons e m ih =>
    obtain ⟨k1, vs⟩ := e
    unfold mapPushBack
    split
    · simp [inGroup_cons]
    · split
      · next h =>
        subst h
        simp only [inGroup_cons, List.mem_append, List.mem_singleton]
        tauto
      · rw [inGroup_cons, ih, inGroup_cons]; tauto

theorem keys_mapPushBack {κ α : Type} [LinearOrder κ] (k : κ) (v : α)
    (m : List (κ × List α)) (k2 : κ) :
    k2 ∈ keys (mapPushBack k v m) ↔ k2 = k ∨ k2 ∈ keys m := by
  induction m with
  | nil => simp [mapPushBack, keys]
  | cons e m ih =>
    obtain ⟨k1, vs⟩ := e
    unfold mapPushBack
    split
    · simp [keys]
    · split
      · next h => subst h; simp [keys]
      · simp only [keys, List.map_cons, List.mem_cons] at ih ⊢
        rw [ih]; tauto

theorem sorted_mapPushBack {κ α : Type} [LinearOrder κ] (k : κ) (v : α)
    (m : List (κ × List α)) (h : (keys m).Sorted (· < ·)) :
    (keys (mapPushBack k v m)).Sorted (· < ·) := by
  induction m with
  | nil => simp [mapPushBack, keys]
  | cons e m ih =>
    obtain ⟨k1, vs⟩ := e
    have h1 : (keys m).Sorted (· < ·) := List.Sorted.of_cons h
    have h2 : ∀ y ∈ keys m, k1 < y := fun y hy => List.rel_of_sorted_cons h y hy
    unfold mapPushBack
    split
    · next hlt =>
      refine List.pairwise_cons.mpr ⟨?_, h⟩
      intro y hy
      rcases List.mem_cons.mp hy with rfl | hy2
      · exact hlt
      · exact lt_trans hlt (h2 y hy2)
    · split
      · next hne heq => subst heq; exact h
      · next hnlt hne =>
        refine List.pairwise_cons.mpr ⟨?_, ih h1⟩
        intro y hy
        have hy' : y ∈ keys (mapPushBack k v m) := hy
        rw [keys_mapPushBack] at hy'
        rcases hy' with rfl | hy2
        · exact lt_of_le_of_ne (not_lt.mp hnlt) (Ne.symm hne)
        · exact h2 y hy2

theorem inGroup_key {κ α : Type} (m : List (κ × List α)) (k : κ) (t : α) (h : InGroup m k t) :
    k ∈ keys m := by
  obtain ⟨g, hg, _⟩ := h
  exact List.mem_map.mpr ⟨(k, g), hg, rfl⟩

theorem inGroup_groupByOnes (cur : List (List Char)) (acc : List (Nat × List (List Char)))
    (k : Nat) (t : List Char) :
    InGroup (groupByOnes cur acc) k t ↔ InGroup acc k t ∨ (t ∈ cur ∧ t.count '1' = k) := by
  induction cur generalizing acc with
  | nil => simp [groupByOnes]
  | cons c cur ih =>
    rw [groupByOnes, ih, inGroup_mapPushBack, List.mem_cons]
    constructor
    · rintro ((⟨rfl, rfl⟩ | h) | ⟨h1, h2⟩)
      · exact Or.inr ⟨Or.inl rfl, rfl⟩
      · exact Or.inl h
      · exact Or.inr ⟨Or.inr h1, h2⟩
    · rintro (h | ⟨(rfl | h1), h2⟩)
      · exact Or.inl (Or.inr h)
      · exact Or.inl (Or.inl ⟨h2.symm, rfl⟩)
      · exact Or.inr ⟨h1, h2⟩

theorem sorted_groupByOnes (cur : List (List Char)) (acc : List (Nat × List (List Char)))
    (h : (keys acc).Sorted (· < ·)) : (keys (groupByOnes cur acc)).Sorted (· < ·) := by
  induction cur generalizing acc with
  | nil => simpa [groupByOnes] using h
  | cons c cur ih => rw [groupByOnes]; exact ih _ (sorted_mapPushBack _ _ _ h)

theorem adjPair_inGroup {κ α : Type} [LinearOrder κ] (m : List (κ × List α))
    (h : (keys m).Sorted (· < ·)) (a b : α) (hab : AdjPair m a b) :
    ∃ k k2, k < k2 ∧ InGroup m k a ∧ InGroup m k2 b := by
  induction m with
  | nil => simp [AdjPair] at hab
  | cons e m ih =>
    obtain ⟨k0, g0⟩ := e
    cases m with
    | nil => simp [AdjPair] at hab
    | cons e1 rest =>
      obtain ⟨k1, g1⟩ := e1
      have h1 : (keys ((k1, g1) :: rest)).Sorted (· < ·) := List.Sorted.of_cons h
      rcases hab with ⟨ha, hb⟩ | hab
      · refine ⟨k0, k1, ?_, ?_, ?_⟩
        · exact List.rel_of_sorted_cons h k1 (by simp [keys])
        · exact (inGroup_cons ..).mpr (Or.inl ⟨rfl, ha⟩)
        · exact (inGroup_cons ..).mpr (Or.inr ((inGroup_cons ..).mpr (Or.inl ⟨rfl, hb⟩)))
      · obtain ⟨k, k2, hlt, hka, hkb⟩ := ih h1 hab
        exact ⟨k, k2, hlt, (inGroup_cons ..).mpr (Or.inr hka), (inGroup_cons ..).mpr (Or.inr hkb)⟩

theorem adjPair_of_succ {α : Type} (m : List (Nat × List α))
    (h : (keys m).Sorted (· < ·)) (a b : α) (k : Nat) (ha : InGroup m k a)
    (hb : InGroup m (k + 1) b) : AdjPair m a b := by
  induction m with
  | nil => exact absurd ha (inGroup_nil k a)
  | cons e m ih =>
    obtain ⟨k0, g0⟩ := e
    have hlt : ∀ y ∈ keys m, k0 < y := fun y hy => List.rel_of_sorted_cons h y hy
    cases m with
    | nil =>
      rw [inGroup_cons] at ha hb
      rcases ha with ⟨rfl, _⟩ | ha
      · rcases hb with ⟨hk, _⟩ | hb
        · omega
        · exact absurd hb (inGroup_nil _ _)
      · exact absurd ha (inGroup_nil _ _)
    | cons e1 rest =>
      obtain ⟨k1, g1⟩ := e1
      have h1 : (keys ((k1, g1) :: rest)).Sorted (· < ·) := List.Sorted.of_cons h
      have hlt1 : ∀ y ∈ keys rest, k1 < y := fun y hy => List.rel_of_sorted_cons h1 y hy
      have h01 : k0 < k1 := hlt k1 (by simp [keys])
      rw [inGroup_cons] at ha hb
      rcases ha with ⟨rfl, ha⟩ | ha
      · rcases hb with ⟨hk, _⟩ | hb
        · omega
        · rw [inGroup_cons] at hb
          rcases hb with ⟨_, hb⟩ | hb
          · exact Or.inl ⟨ha, hb⟩
          · have := hlt1 _ (inGroup_key _ _ _ hb)
            omega
      · rcases hb with ⟨hk, _⟩ | hb
        · have := hlt _ (inGroup_key _ _ _ ha)
          omega
        · exact Or.inr (ih h1 ha hb)

theorem extends_refl (st : Pass) (R : List Char → List Char → Prop) (h : ∀ a b, ¬ R a b) :
    Extends st st R := by
  refine ⟨fun c => ?_, fun m => ?_, ?_⟩
  · constructor
    · exact Or.inl
    · rintro (h1 | ⟨a, b, h2, _⟩)
      · exact h1
      · exact absurd h2 (h a b)
  · constructor
    · exact Or.inl
    · rintro (h1 | ⟨a, b, h2, _⟩)
      · exact h1
      · exact absurd h2 (h a b)
  · constructor
    · exact Or.inl
    · rintro (h1 | ⟨a, b, h2, _⟩)
      · exact h1
      · exact absurd h2 (h a b)

theorem extends_trans (st st1 st2 : Pass) (R R1 R2 : List Char → List Char → Prop)
    (h1 : Extends st st1 R1) (h2 : Extends st1 st2 R2) (hR : ∀ a b, R a b ↔ R1 a b ∨ R2 a b) :
    Extends st st2 R := by
  obtain ⟨a1, b1, c1⟩ := h1
  obtain ⟨a2, b2, c2⟩ := h2
  refine ⟨fun c => ?_, fun m => ?_, ?_⟩
  · rw [a2, a1]
    constructor
    · rintro ((h | ⟨a, b, h, hg⟩) | ⟨a, b, h, hg⟩)
      · exact Or.inl h
      · exact Or.inr ⟨a, b, (hR a b).mpr (Or.inl h), hg⟩
      · exact Or.inr ⟨a, b, (hR a b).mpr (Or.inr h), hg⟩
    · rintro (h | ⟨a, b, h, hg⟩)
      · exact Or.inl (Or.inl h)
      · rcases (hR a b).mp h with h | h
        · exact Or.inl (Or.inr ⟨a, b, h, hg⟩)
        · exact Or.inr ⟨a, b, h, hg⟩
  · rw [b2, b1]
    constructor
    · rintro ((h | ⟨a, b, h, hg⟩) | ⟨a, b, h, hg⟩)
      · exact Or.inl h
      · exact Or.inr ⟨a, b, (hR a b).mpr (Or.inl h), hg⟩
      · exact Or.inr ⟨a, b, (hR a b).mpr (Or.inr h), hg⟩
    · rintro (h | ⟨a, b, h, hg⟩)
      · exact Or.inl (Or.inl h)
      · rcases (hR a b).mp h with h | h
        · exact Or.inl (Or.inr ⟨a, b, h, hg⟩)
        · exact Or.inr ⟨a, b, h, hg⟩
  · rw [c2, c1]
    constructor
    · rintro ((h | ⟨a, b, h, hg⟩) | ⟨a, b, h, hg⟩)
      · exact Or.inl h
      · exact Or.inr ⟨a, b, (hR a b).mpr (Or.inl h), hg⟩
      · exact Or.inr ⟨a, b, (hR a b).mpr (Or.inr h), hg⟩
    · rintro (h | ⟨a, b, h, hg⟩)
      · exact Or.inl (Or.inl h)
      · rcases (hR a b).mp h with h | h
        · exact Or.inl (Or.inr ⟨a, b, h, hg⟩)
        · exact Or.inr ⟨a, b, h, hg⟩

theorem extends_step (st : Pass) (t1 t2 : List Char) :
    Extends st
      (if isGreyCode t1 t2 then
        { nextPIs :=
            if combineTerms t1 t2 ∈ st.nextPIs then st.nextPIs
            else st.nextPIs ++ [combineTerms t1 t2]
          marked := setInsert t2 (setInsert t1 st.marked)
          changed := true }
       else st) (fun a b => a = t1 ∧ b = t2) := by
  by_cases hg : isGreyCode t1 t2 = true
  · rw [if_pos hg]
    refine ⟨fun c => ?_, fun m => ?_, ?_⟩
    · by_cases hc : combineTerms t1 t2 ∈ st.nextPIs
      · simp only [if_pos hc]
        constructor
        · exact Or.inl
        · rintro (h | ⟨a, b, ⟨rfl, rfl⟩, _, rfl⟩)
          · exact h
          · exact hc
      · simp only [if_neg hc, List.mem_append, List.mem_singleton]
        constructor
        · rintro (h | rfl)
          · exact Or.inl h
          · exact Or.inr ⟨t1, t2, ⟨rfl, rfl⟩, hg, rfl⟩
        · rintro (h | ⟨a, b, ⟨rfl, rfl⟩, _, rfl⟩)
          · exact Or.inl h
          · exact Or.inr rfl
    · simp only [mem_setInsert]
      constructor
      · rintro (rfl | rfl | h)
        · exact Or.inr ⟨t1, m, ⟨rfl, rfl⟩, hg, Or.inr rfl⟩
        · exact Or.inr ⟨m, t2, ⟨rfl, rfl⟩, hg, Or.inl rfl⟩
        · exact Or.inl h
      · rintro (h | ⟨a, b, ⟨rfl, rfl⟩, _, (rfl | rfl)⟩)
        · exact Or.inr (Or.inr h)
        · exact Or.inr (Or.inl rfl)
        · exact Or.inl rfl
    · simp only [true_iff]
      exact Or.inr ⟨t1, t2, ⟨rfl, rfl⟩, hg⟩
  · rw [if_neg hg]
    refine ⟨fun c => ?_, fun m => ?_, ?_⟩
    · constructor
      · exact Or.inl
      · rintro (h | ⟨a, b, ⟨rfl, rfl⟩, h2, _⟩)
        · exact h
        · exact absurd h2 hg
    · constructor
      · exact Or.inl
      · rintro (h | ⟨a, b, ⟨rfl, rfl⟩, h2, _⟩)
        · exact h
        · exact absurd h2 hg
    · constructor
      · exact Or.inl
      · rintro (h | ⟨a, b, ⟨rfl, rfl⟩, h2⟩)
        · exact h
        · exact absurd h2 hg

theorem compareTerm_extends (t1 : List Char) (g2 : List (List Char)) (st : Pass) :
    Extends st (compareTerm t1 g2 st) (fun a b => a = t1 ∧ b ∈ g2) := by
  induction g2 generalizing st with
  | nil => exact extends_refl st _ (by simp)
  | cons t2 g2 ih =>
    have hs := extends_step st t1 t2
    unfold compareTerm
    by_cases hg : isGreyCode t1 t2 = true
    · rw [if_pos hg] at hs ⊢
      refine extends_trans _ _ _ _ _ _ hs (ih _) ?_
      intro a b; simp only [List.mem_cons]; tauto
    · rw [if_neg hg] at hs ⊢
      refine extends_trans _ _ _ _ _ _ hs (ih _) ?_
      intro a b; simp only [List.mem_cons]; tauto

theorem compareGroup_extends (g1 g2 : List (List Char)) (st : Pass) :
    Extends st (compareGroup g1 g2 st) (fun a b => a ∈ g1 ∧ b ∈ g2) := by
  induction g1 generalizing st with
  | nil => exact extends_refl st _ (by simp)
  | cons t1 g1 ih =>
    unfold compareGroup
    refine extends_trans _ _ _ _ _ _ (compareTerm_extends t1 g2 st) (ih _) ?_
    intro a b; simp only [List.mem_cons]; tauto

theorem compareAdjacent_extends (m : List (Nat × List (List Char))) (st : Pass) :
    Extends st (compareAdjacent m st) (AdjPair m) := by
  induction m generalizing st with
  | nil => exact extends_refl st _ (by simp [AdjPair])
  | cons e m ih =>
    obtain ⟨k0, g0⟩ := e
    cases m with
    | nil => exact extends_refl st _ (by simp [AdjPair])
    | cons e1 rest =>
      obtain ⟨k1, g1⟩ := e1
      unfold compareAdjacent
      refine extends_trans _ _ _ _ _ _ (compareGroup_extends g0 g1 st) (ih _) ?_
      intro a b; simp only [AdjPair]

theorem mem_addUnmarked (marked cur acc : List (List Char)) (p : List Char) :
    p ∈ addUnmarked marked cur acc ↔ p ∈ acc ∨ (p ∈ cur ∧ p ∉ marked) := by
  induction cur generalizing acc with
  | nil => simp [addUnmarked]
  | cons t cur ih =>
    unfold addUnmarked
    by_cases h : t ∈ marked
    · rw [if_pos h, ih, List.mem_cons]
      constructor
      · rintro (h1 | ⟨h1, h2⟩)
        · exact Or.inl h1
        · exact Or.inr ⟨Or.inr h1, h2⟩
      · rintro (h1 | ⟨(rfl | h1), h2⟩)
        · exact Or.inl h1
        · exact absurd h h2
        · exact Or.inr ⟨h1, h2⟩
    · rw [if_neg h]
      by_cases h3 : t ∈ acc
      · rw [if_pos h3, ih, List.mem_cons]
        constructor
        · rintro (h1 | ⟨h1, h2⟩)
          · exact Or.inl h1
          · exact Or.inr ⟨Or.inr h1, h2⟩
        · rintro (h1 | ⟨(rfl | h1), h2⟩)
          · exact Or.inl h1
          · exact Or.inl h3
          · exact Or.inr ⟨h1, h2⟩
      · rw [if_neg h3, ih, List.mem_append, List.mem_singleton, List.mem_cons]
        constructor
        · rintro ((h1 | rfl) | ⟨h1, h2⟩)
          · exact Or.inl h1
          · exact Or.inr ⟨Or.inl rfl, h⟩
          · exact Or.inr ⟨Or.inr h1, h2⟩
        · rintro (h1 | ⟨(rfl | h1), h2⟩)
          · exact Or.inl (Or.inl h1)
          · exact Or.inl (Or.inr rfl)
          · exact Or.inr ⟨h1, h2⟩

/-! ## Adjacency and merging -/

theorem isGreyCodeLoop_one (a b : List Char) (h : a.length = b.length) :
    isGreyCodeLoop a b 1 = true ↔ a = b := by
  induction a generalizing b with
  | nil =>
    cases b with
    | nil => simp [isGreyCodeLoop]
    | cons y b => simp at h
  | cons x a ih =>
    cases b with
    | nil => simp at h
    | cons y b =>
      have hl : a.length = b.length := by simpa using h
      by_cases hxy : x = y
      · subst hxy
        simp [isGreyCodeLoop, ih b hl]
      · simp [isGreyCodeLoop, hxy]

theorem adjacent_cons (x y : Char) (a b : List Char) :
    Adjacent (x :: a) (y :: b) ↔ (x ≠ y ∧ a = b) ∨ (x = y ∧ Adjacent a b) := by
  constructor
  · rintro ⟨pre, u, v, post, h1, h2, huv⟩
    cases pre with
    | nil =>
      simp at h1 h2
      obtain ⟨rfl, rfl⟩ := h1
      obtain ⟨rfl, rfl⟩ := h2
      exact Or.inl ⟨huv, rfl⟩
    | cons z pre =>
      simp at h1 h2
      obtain ⟨rfl, rfl⟩ := h1
      obtain ⟨rfl, rfl⟩ := h2
      exact Or.inr ⟨rfl, pre, u, v, post, rfl, rfl, huv⟩
  · rintro (⟨hxy, rfl⟩ | ⟨rfl, pre, u, v, post, rfl, rfl, huv⟩)
    · exact ⟨[], x, y, a, rfl, rfl, hxy⟩
    · exact ⟨x :: pre, u, v, post, rfl, rfl, huv⟩

theorem isGreyCodeLoop_zero (a b : List Char) (h : a.length = b.length) :
    isGreyCodeLoop a b 0 = true ↔ Adjacent a b := by
  induction a generalizing b with
  | nil =>
    cases b with
    | nil =>
      simp only [isGreyCodeLoop]
      constructor
      · intro h; simp at h
      · rintro ⟨pre, u, v, post, h1, _⟩; simp at h1
    | cons y b => simp at h
  | cons x a ih =>
    cases b with
    | nil => simp at h
    | cons y b =>
      have hl : a.length = b.length := by simpa using h
      rw [adjacent_cons]
      by_cases hxy : x = y
      · subst hxy
        simp [isGreyCodeLoop, ih b hl]
      · simp [isGreyCodeLoop, hxy, isGreyCodeLoop_one a b hl]

theorem adjacent_length {a b : List Char} (h : Adjacent a b) : a.length = b.length := by
  obtain ⟨pre, u, v, post, rfl, rfl, _⟩ := h
  simp

theorem isGreyCode_iff (a b : List Char) : isGreyCode a b = true ↔ Adjacent a b := by
  unfold isGreyCode
  by_cases h : a.length = b.length
  · simp [h, isGreyCodeLoop_zero a b h]
  · simp only [ne_eq, h, not_false_eq_true, ↓reduceIte, Bool.false_eq_true, false_iff]
    exact fun hadj => h (adjacent_length hadj)

theorem adjacent_symm {a b : List Char} (h : Adjacent a b) : Adjacent b a := by
  obtain ⟨pre, u, v, post, h1, h2, huv⟩ := h
  exact ⟨pre, v, u, post, h2, h1, Ne.symm huv⟩

theorem combineTerms_self (l : List Char) : combineTerms l l = l := by
  induction l with
  | nil => rfl
  | cons c l ih => simp [combineTerms, ih]

theorem combineTerms_split (pre post : List Char) (x y : Char) (h : x ≠ y) :
    combineTerms (pre ++ x :: post) (pre ++ y :: post) = pre ++ '-' :: post := by
  induction pre with
  | nil => simp [combineTerms, h, combineTerms_self]
  | cons c pre ih => simp [combineTerms, ih]

theorem covers_widen (pre post : List Char) (x : Char) (s : List Char)
    (h : covers (pre ++ x :: post) s = true) : covers (pre ++ '-' :: post) s = true := by
  induction pre generalizing s with
  | nil =>
    cases s with
    | nil => simp at h
    | cons d s =>
      simp only [List.nil_append, covers_cons_cons, Bool.and_eq_true, decide_eq_true_eq] at h ⊢
      exact ⟨Or.inl trivial, h.2⟩
  | cons c pre ih =>
    cases s with
    | nil => simp at h
    | cons d s =>
      simp only [List.cons_append, covers_cons_cons, Bool.and_eq_true, decide_eq_true_eq] at h ⊢
      exact ⟨h.1, ih s h.2⟩

theorem covers_dash_split (pre post : List Char) (s : List Char)
    (hs : ∀ d ∈ s, d = '0' ∨ d = '1') (h : covers (pre ++ '-' :: post) s = true) :
    covers (pre ++ '0' :: post) s = true ∨ covers (pre ++ '1' :: post) s = true := by
  induction pre generalizing s with
  | nil =>
    cases s with
    | nil => simp at h
    | cons d s =>
      simp only [List.nil_append, covers_cons_cons, Bool.and_eq_true, decide_eq_true_eq] at h ⊢
      rcases hs d (List.mem_cons_self _ _) with rfl | rfl
      · exact Or.inl ⟨Or.inr rfl, h.2⟩
      · exact Or.inr ⟨Or.inr rfl, h.2⟩
  | cons c pre ih =>
    cases s with
    | nil => simp at h
    | cons d s =>
      simp only [List.cons_append, covers_cons_cons, Bool.and_eq_true, decide_eq_true_eq] at h ⊢
      rcases ih s (fun e he => hs e (List.mem_cons_of_mem _ he)) h.2 with h2 | h2
      · exact Or.inl ⟨h.1, h2⟩
      · exact Or.inr ⟨h.1, h2⟩

theorem isPattern_split (V : Nat) (pre post : List Char) (x : Char) :
    IsPattern V (pre ++ x :: post) ↔
      pre.length + post.length + 1 = V ∧ (x = '0' ∨ x = '1' ∨ x = '-') ∧
        (∀ c ∈ pre, c = '0' ∨ c = '1' ∨ c = '-') ∧ (∀ c ∈ post, c = '0' ∨ c = '1' ∨ c = '-') := by
  unfold IsPattern
  simp only [List.length_append, List.length_cons, List.mem_append, List.mem_cons]
  constructor
  · rintro ⟨h1, h2⟩
    exact ⟨by omega, h2 x (Or.inr (Or.inl rfl)), fun c hc => h2 c (Or.inl hc),
      fun c hc => h2 c (Or.inr (Or.inr hc))⟩
  · rintro ⟨h1, h2, h3, h4⟩
    refine ⟨by omega, ?_⟩
    rintro c (hc | rfl | hc)
    · exact h3 c hc
    · exact h2
    · exact h4 c hc

theorem dashes_split (pre post : List Char) (x : Char) :
    dashes (pre ++ x :: post) = dashes pre + dashes post + (if x = '-' then 1 else 0) := by
  unfold dashes
  rw [List.count_append, List.count_cons]
  by_cases h : x = '-'
  · subst h; simp; omega
  · have : (x == '-') = false := by simpa using h
    simp [this, h]

theorem ones_split (pre post : List Char) (x : Char) :
    (pre ++ x :: post).count '1' =
      pre.count '1' + post.count '1' + (if x = '1' then 1 else 0) := by
  rw [List.count_append, List.count_cons]
  by_cases h : x = '1'
  · subst h; simp; omega
  · have : (x == '1') = false := by simpa using h
    simp [this, h]

theorem dashes_le_length (p : List Char) : dashes p ≤ p.length := List.count_le_length _ _

/-- Two adjacent patterns with the same number of wildcards differ in a binary digit:
one has `0` and the other `1` at the differing position. -/
theorem adjacent_same_dashes (V : Nat) (a b : List Char) (ha : IsPattern V a)
    (hb : IsPattern V b) (hd : dashes a = dashes b) (h : Adjacent a b) :
    ∃ pre post, (a = pre ++ '0' :: post ∧ b = pre ++ '1' :: post) ∨
      (a = pre ++ '1' :: post ∧ b = pre ++ '0' :: post) := by
  obtain ⟨pre, x, y, post, rfl, rfl, hxy⟩ := h
  rw [dashes_split, dashes_split] at hd
  have hx := ((isPattern_split V pre post x).mp ha).2.1
  have hy := ((isPattern_split V pre post y).mp hb).2.1
  refine ⟨pre, post, ?_⟩
  rcases hx with rfl | rfl | rfl <;> rcases hy with rfl | rfl | rfl <;>
    first
    | exact absurd rfl hxy
    | exact Or.inl ⟨rfl, rfl⟩
    | exact Or.inr ⟨rfl, rfl⟩
    | (simp at hd)

/-! ## Containment of patterns -/

theorem covers_of_contains (q p s : List Char) (h : Contains q p) (hc : covers p s = true) :
    covers q s = true := by
  induction h generalizing s with
  | nil => exact hc
  | @cons qc pc q p hqp _ ih =>
    cases s with
    | nil => simp at hc
    | cons d s =>
      simp only [covers_cons_cons, Bool.and_eq_true, decide_eq_true_eq] at hc ⊢
      refine ⟨?_, ih s hc.2⟩
      rcases hqp with rfl | rfl
      · exact Or.inl rfl
      · rcases hc.1 with h1 | h1
        · exact Or.inl h1
        · exact Or.inr h1

/-- Every pattern covers some binary string. -/
theorem exists_covered (V : Nat) (p : List Char) (hp : IsPattern V p) :
    ∃ s, IsBinary V s ∧ covers p s = true := by
  induction p generalizing V with
  | nil => exact ⟨[], ⟨hp.1, by simp⟩, by simp⟩
  | cons c p ih =>
    obtain ⟨hl, hc⟩ := hp
    have hp2 : IsPattern p.length p := ⟨rfl, fun d hd => hc d (List.mem_cons_of_mem _ hd)⟩
    obtain ⟨s, ⟨hs1, hs2⟩, hs3⟩ := ih p.length hp2
    rcases hc c (List.mem_cons_self _ _) with rfl | rfl | rfl
    · refine ⟨'0' :: s, ⟨by simp [hs1] at hl ⊢; exact hl, ?_⟩, by simp [covers_cons_cons, hs3]⟩
      intro d hd
      rcases List.mem_cons.mp hd with rfl | hd
      · exact Or.inl rfl
      · exact hs2 d hd
    · refine ⟨'1' :: s, ⟨by simp [hs1] at hl ⊢; exact hl, ?_⟩, by simp [covers_cons_cons, hs3]⟩
      intro d hd
      rcases List.mem_cons.mp hd with rfl | hd
      · exact Or.inr rfl
      · exact hs2 d hd
    · refine ⟨'0' :: s, ⟨by simp [hs1] at hl ⊢; exact hl, ?_⟩, by simp [covers_cons_cons, hs3]⟩
      intro d hd
      rcases List.mem_cons.mp hd with rfl | hd
      · exact Or.inl rfl
      · exact hs2 d hd

theorem isBinary_cons (V : Nat) (d : Char) (s : List Char) :
    IsBinary (V + 1) (d :: s) ↔ (d = '0' ∨ d = '1') ∧ IsBinary V s := by
  unfold IsBinary
  simp only [List.length_cons, List.mem_cons, forall_eq_or_imp]
  constructor
  · rintro ⟨h1, h2, h3⟩; exact ⟨h2, by omega, h3⟩
  · rintro ⟨h2, h1, h3⟩; exact ⟨by omega, h2, h3⟩

theorem isPattern_cons (V : Nat) (c : Char) (p : List Char) :
    IsPattern (V + 1) (c :: p) ↔ (c = '0' ∨ c = '1' ∨ c = '-') ∧ IsPattern V p := by
  unfold IsPattern
  simp only [List.length_cons, List.mem_cons, forall_eq_or_imp]
  constructor
  · rintro ⟨h1, h2, h3⟩; exact ⟨h2, by omega, h3⟩
  · rintro ⟨h2, h1, h3⟩; exact ⟨by omega, h2, h3⟩

theorem contains_of_within (V : Nat) (p q : List Char) (hp : IsPattern V p)
    (hq : IsPattern V q) (h : Within V p q) : Contains q p := by
  induction p generalizing V q with
  | nil =>
    have : q = [] := by
      apply List.eq_nil_of_length_eq_zero
      rw [hq.1, ← hp.1]; rfl
    subst this
    exact List.Forall₂.nil
  | cons pc p ih =>
    cases q with
    | nil =>
      have h1 := hp.1; have h2 := hq.1
      simp at h1 h2; omega
    | cons qc q =>
      obtain ⟨W, rfl⟩ : ∃ W, V = W + 1 := ⟨p.length, by have := hp.1; simpa using this.symm⟩
      rw [isPattern_cons] at hp hq
      obtain ⟨s0, hs0, hc0⟩ := exists_covered W p hp.2
      have step : ∀ d, (d = '0' ∨ d = '1') → (pc = '-' ∨ pc = d) → ∀ s, IsBinary W s →
          covers p s = true → (qc = '-' ∨ qc = d) ∧ covers q s = true := by
        intro d hd hpc s hs hcs
        have := h (d :: s) ((isBinary_cons W d s).mpr ⟨hd, hs⟩)
          (by simp [covers_cons_cons, hcs, hpc])
        simpa [covers_cons_cons] using this
      refine List.Forall₂.cons ?_ (ih W q hp.2 hq.2 ?_)
      · by_cases hqc : qc = '-'
        · exact Or.inl hqc
        · right
          rcases hp.1 with rfl | rfl | rfl
          · have := (step '0' (Or.inl rfl) (Or.inr rfl) s0 hs0 hc0).1
            tauto
          · have := (step '1' (Or.inr rfl) (Or.inr rfl) s0 hs0 hc0).1
            tauto
          · have h0 := (step '0' (Or.inl rfl) (Or.inl rfl) s0 hs0 hc0).1
            have h1 := (step '1' (Or.inr rfl) (Or.inl rfl) s0 hs0 hc0).1
            rcases h0 with h0 | h0
            · exact absurd h0 hqc
            · rcases h1 with h1 | h1
              · exact absurd h1 hqc
              · rw [h0] at h1; exact absurd h1 (by decide)
      · intro s hs hcs
        rcases hp.1 with rfl | rfl | rfl
        · exact (step '0' (Or.inl rfl) (Or.inr rfl) s hs hcs).2
        · exact (step '1' (Or.inr rfl) (Or.inr rfl) s hs hcs).2
        · exact (step '0' (Or.inl rfl) (Or.inl rfl) s hs hcs).2

/-- A pattern strictly contained in `q` has an adjacent pattern, with as many wildcards,
that `q` contains as well. -/
theorem exists_adjacent_in (V : Nat) (p q : List Char) (hp : IsPattern V p)
    (h : Contains q p) (hne : q ≠ p) :
    ∃ b, Adjacent p b ∧ Contains q b ∧ dashes b = dashes p ∧ IsPattern V b := by
  induction h generalizing V with
  | nil => exact absurd rfl hne
  | @cons qc pc q p hqp hrest ih =>
    obtain ⟨W, rfl⟩ : ∃ W, V = W + 1 := ⟨p.length, by have := hp.1; simpa using this.symm⟩
    rw [isPattern_cons] at hp
    by_cases hc : qc = pc
    · subst hc
      have hne2 : q ≠ p := fun e => hne (by rw [e])
      obtain ⟨b, hb1, hb2, hb3, hb4⟩ := ih W hp.2 hne2
      refine ⟨qc :: b, (adjacent_cons _ _ _ _).mpr (Or.inr ⟨rfl, hb1⟩),
        List.Forall₂.cons hqp hb2, ?_, (isPattern_cons W qc b).mpr ⟨hp.1, hb4⟩⟩
      unfold dashes at hb3 ⊢
      rw [List.count_cons, List.count_cons, hb3]
    · have hq : qc = '-' := by tauto
      subst hq
      rcases hp.1 with rfl | rfl | rfl
      · refine ⟨'1' :: p, (adjacent_cons _ _ _ _).mpr (Or.inl ⟨by decide, rfl⟩),
          List.Forall₂.cons (Or.inl rfl) hrest, ?_,
          (isPattern_cons W _ p).mpr ⟨Or.inr (Or.inl rfl), hp.2⟩⟩
        unfold dashes
        rw [List.count_cons, List.count_cons]; rfl
      · refine ⟨'0' :: p, (adjacent_cons _ _ _ _).mpr (Or.inl ⟨by decide, rfl⟩),
          List.Forall₂.cons (Or.inl rfl) hrest, ?_,
          (isPattern_cons W _ p).mpr ⟨Or.inl rfl, hp.2⟩⟩
        unfold dashes
        rw [List.count_cons, List.count_cons]; rfl
      · exact absurd rfl hc

/-! ## Levels of the combining loop -/

theorem level_merge (V : Nat) (S : List (List Char)) (r : Nat) (a b : List Char)
    (ha : Level V S r a) (hb : Level V S r b) (h : Adjacent a b) :
    Level V S (r + 1) (combineTerms a b) ∧ combineTerms a b ≠ a ∧
      Within V a (combineTerms a b) ∧
      (a.count '1' + 1 = b.count '1' ∨ b.count '1' + 1 = a.count '1') := by
  obtain ⟨pre, post, hab⟩ := adjacent_same_dashes V a b ha.1 hb.1 (ha.2.1.trans hb.2.1.symm) h
  have key : ∀ x y : Char, x ≠ '-' → (x = '0' ∧ y = '1' ∨ x = '1' ∧ y = '0') →
      Level V S r (pre ++ x :: post) → Level V S r (pre ++ y :: post) →
      Level V S (r + 1) (pre ++ '-' :: post) ∧ pre ++ '-' :: post ≠ pre ++ x :: post ∧
        Within V (pre ++ x :: post) (pre ++ '-' :: post) := by
    intro x y hx hxy hax hby
    refine ⟨⟨?_, ?_, ?_⟩, ?_, ?_⟩
    · have h1 := (isPattern_split V pre post x).mp hax.1
      exact (isPattern_split V pre post '-').mpr ⟨h1.1, Or.inr (Or.inr rfl), h1.2.2⟩
    · have := hax.2.1
      rw [dashes_split] at this
      rw [dashes_split]
      simp only [hx, if_false] at this
      simp only [if_true]
      omega
    · intro s hs hc
      rcases covers_dash_split pre post s hs.2 hc with h0 | h1
      · rcases hxy with ⟨rfl, rfl⟩ | ⟨rfl, rfl⟩
        · exact hax.2.2 s hs h0
        · exact hby.2.2 s hs h0
      · rcases hxy with ⟨rfl, rfl⟩ | ⟨rfl, rfl⟩
        · exact hby.2.2 s hs h1
        · exact hax.2.2 s hs h1
    · intro e
      have := List.append_cancel_left e
      simp at this
      exact hx this.symm
    · intro s _ hc
      exact covers_widen pre post x s hc
  rcases hab with ⟨rfl, rfl⟩ | ⟨rfl, rfl⟩
  · rw [combineTerms_split pre post _ _ (by decide)]
    obtain ⟨k1, k2, k3⟩ := key '0' '1' (by decide) (Or.inl ⟨rfl, rfl⟩) ha hb
    refine ⟨k1, k2, k3, Or.inl ?_⟩
    rw [ones_split, ones_split]; simp
  · rw [combineTerms_split pre post _ _ (by decide)]
    obtain ⟨k1, k2, k3⟩ := key '1' '0' (by decide) (Or.inr ⟨rfl, rfl⟩) ha hb
    refine ⟨k1, k2, k3, Or.inr ?_⟩
    rw [ones_split, ones_split]; simp

theorem level_split (V : Nat) (S : List (List Char)) (r : Nat) (c : List Char)
    (hc : Level V S (r + 1) c) :
    ∃ a b, Level V S r a ∧ Level V S r b ∧ Adjacent a b ∧
      a.count '1' + 1 = b.count '1' ∧ c = combineTerms a b := by
  obtain ⟨hp, hd, hi⟩ := hc
  have hmem : '-' ∈ c := by
    apply List.count_pos_iff.mp
    unfold dashes at hd
    omega
  obtain ⟨pre, post, rfl⟩ := List.append_of_mem hmem
  have hsub : ∀ x : Char, (x = '0' ∨ x = '1') → Level V S r (pre ++ x :: post) := by
    intro x hx
    have hx2 : x ≠ '-' := by rcases hx with rfl | rfl <;> decide
    refine ⟨?_, ?_, ?_⟩
    · have h1 := (isPattern_split V pre post '-').mp hp
      exact (isPattern_split V pre post x).mpr ⟨h1.1, by tauto, h1.2.2⟩
    · rw [dashes_split] at hd
      rw [dashes_split]
      simp only [if_true] at hd
      simp only [hx2, if_false]
      omega
    · intro s hs hcs
      exact hi s hs (covers_widen pre post x s hcs)
  refine ⟨pre ++ '0' :: post, pre ++ '1' :: post, hsub '0' (Or.inl rfl), hsub '1' (Or.inr rfl),
    ⟨pre, '0', '1', post, rfl, rfl, by decide⟩, ?_, ?_⟩
  · rw [ones_split, ones_split]; simp
  · rw [combineTerms_split pre post _ _ (by decide)]

theorem level_nonempty_down (V : Nat) (S : List (List Char)) (r k : Nat) (p : List Char)
    (hp : Level V S (r + k) p) : ∃ a, Level V S r a := by
  induction k generalizing p with
  | zero => exact ⟨p, hp⟩
  | succ k ih =>
    obtain ⟨a, _, ha, _⟩ := level_split V S (r + k) p hp
    exact ih a ha

/-- Inside a level, a pattern is a prime implicant exactly when no pattern of the level is
adjacent to it. -/
theorem prime_iff_unmerged (V : Nat) (S : List (List Char)) (r : Nat) (p : List Char)
    (hp : Level V S r p) :
    Prime V S p ↔ ¬ ∃ b, Level V S r b ∧ Adjacent p b := by
  constructor
  · rintro ⟨_, _, hmax⟩ ⟨b, hb, hadj⟩
    obtain ⟨h1, h2, h3, _⟩ := level_merge V S r p b hp hb hadj
    exact hmax _ h1.1 h2 h1.2.2 h3
  · intro hno
    refine ⟨hp.1, hp.2.2, ?_⟩
    intro q hq hne hqi hw
    have hcont := contains_of_within V p q hp.1 hq hw
    obtain ⟨b, hb1, hb2, hb3, hb4⟩ := exists_adjacent_in V p q hp.1 hcont hne
    refine hno ⟨b, ⟨hb4, hb3.trans hp.2.1, ?_⟩, hb1⟩
    intro s hs hcs
    exact hqi s hs (covers_of_contains q b s hb2 hcs)

theorem level_bound (V : Nat) (S : List (List Char)) (r : Nat) (p : List Char)
    (hp : Level V S r p) : r ≤ V := by
  have := dashes_le_length p
  rw [hp.2.1, hp.1.1] at this
  exact this

theorem extends_init (st2 : Pass) (R : List Char → List Char → Prop)
    (h : Extends { nextPIs := [], marked := [], changed := false } st2 R) :
    (∀ c, c ∈ st2.nextPIs ↔ ∃ a b, R a b ∧ isGreyCode a b = true ∧ c = combineTerms a b) ∧
    (∀ m, m ∈ st2.marked ↔ ∃ a b, R a b ∧ isGreyCode a b = true ∧ (m = a ∨ m = b)) ∧
    (st2.changed = true ↔ ∃ a b, R a b ∧ isGreyCode a b = true) := by
  obtain ⟨h1, h2, h3⟩ := h
  refine ⟨fun c => ?_, fun m => ?_, ?_⟩
  · rw [h1]; simp
  · rw [h2]; simp
  · rw [h3]; simp

theorem adjPair_groupByOnes (cur : List (List Char)) (a b : List Char) :
    (AdjPair (groupByOnes cur []) a b → a ∈ cur ∧ b ∈ cur) ∧
    (a ∈ cur → b ∈ cur → a.count '1' + 1 = b.count '1' → AdjPair (groupByOnes cur []) a b) := by
  have hs : (keys (groupByOnes cur [])).Sorted (· < ·) :=
    sorted_groupByOnes cur [] (by simp [keys])
  have hg : ∀ k t, InGroup (groupByOnes cur []) k t ↔ (t ∈ cur ∧ t.count '1' = k) := by
    intro k t
    rw [inGroup_groupByOnes]
    simp [inGroup_nil]
  constructor
  · intro h
    obtain ⟨k, k2, _, h1, h2⟩ := adjPair_inGroup _ hs a b h
    exact ⟨((hg k a).mp h1).1, ((hg k2 b).mp h2).1⟩
  · intro ha hb hw
    exact adjPair_of_succ _ hs a b (a.count '1') ((hg _ a).mpr ⟨ha, rfl⟩)
      ((hg _ b).mpr ⟨hb, hw.symm⟩)

/-- One pass of the combining loop over the patterns of level `r`: the merged list
is level `r + 1`, and a pattern is marked exactly when it has an adjacent pattern. -/
theorem pass_spec (V : Nat) (S : List (List Char)) (r : Nat) (cur : List (List Char))
    (hcur : ∀ p, p ∈ cur ↔ Level V S r p) :
    (∀ c, c ∈ (compareAdjacent (groupByOnes cur [])
        { nextPIs := [], marked := [], changed := false }).nextPIs ↔ Level V S (r + 1) c) ∧
    (∀ m, m ∈ cur → (m ∈ (compareAdjacent (groupByOnes cur [])
        { nextPIs := [], marked := [], changed := false }).marked ↔
        ∃ b, Level V S r b ∧ Adjacent m b)) ∧
    ((compareAdjacent (groupByOnes cur [])
        { nextPIs := [], marked := [], changed := false }).changed = true ↔
        ∃ c, Level V S (r + 1) c) := by
  obtain ⟨h1, h2, h3⟩ := extends_init _ _ (compareAdjacent_extends (groupByOnes cur [])
    { nextPIs := [], marked := [], changed := false })
  have hnext : ∀ c, (∃ a b, AdjPair (groupByOnes cur []) a b ∧ isGreyCode a b = true ∧
      c = combineTerms a b) ↔ Level V S (r + 1) c := by
    intro c
    constructor
    · rintro ⟨a, b, hab, hg, rfl⟩
      obtain ⟨ha, hb⟩ := (adjPair_groupByOnes cur a b).1 hab
      exact (level_merge V S r a b ((hcur a).mp ha) ((hcur b).mp hb)
        ((isGreyCode_iff a b).mp hg)).1
    · intro hc
      obtain ⟨a, b, ha, hb, hadj, hw, rfl⟩ := level_split V S r c hc
      exact ⟨a, b, (adjPair_groupByOnes cur a b).2 ((hcur a).mpr ha) ((hcur b).mpr hb) hw,
        (isGreyCode_iff a b).mpr hadj, rfl⟩
  refine ⟨fun c => ?_, fun m hm => ?_, ?_⟩
  · rw [h1, hnext]
  · rw [h2]
    constructor
    · rintro ⟨a, b, hab, hg, (rfl | rfl)⟩
      · obtain ⟨_, hb⟩ := (adjPair_groupByOnes cur m b).1 hab
        exact ⟨b, (hcur b).mp hb, (isGreyCode_iff m b).mp hg⟩
      · obtain ⟨ha, _⟩ := (adjPair_groupByOnes cur a m).1 hab
        exact ⟨a, (hcur a).mp ha, adjacent_symm ((isGreyCode_iff a m).mp hg)⟩
    · rintro ⟨b, hb, hadj⟩
      have hm2 := (hcur m).mp hm
      rcases (level_merge V S r m b hm2 hb hadj).2.2.2 with hw | hw
      · exact ⟨m, b, (adjPair_groupByOnes cur m b).2 hm ((hcur b).mpr hb) hw,
          (isGreyCode_iff m b).mpr hadj, Or.inl rfl⟩
      · exact ⟨b, m, (adjPair_groupByOnes cur b m).2 ((hcur b).mpr hb) hm hw,
          (isGreyCode_iff b m).mpr (adjacent_symm hadj), Or.inr rfl⟩
  · rw [h3]
    constructor
    · rintro ⟨a, b, hab, hg⟩
      exact ⟨_, (hnext _).mp ⟨a, b, hab, hg, rfl⟩⟩
    · rintro ⟨c, hc⟩
      obtain ⟨a, b, hab, hg, _⟩ := (hnext c).mpr hc
      exact ⟨a, b, hab, hg⟩

/-- The combining loop, started on the patterns of level `r` with the prime implicants of
fewer wildcards already collected, returns exactly the prime implicants of `S`, provided
the fuel covers the `V + 1 - r` passes that may remain. -/
theorem combineLoop_spec (V : Nat) (S : List (List Char)) (fuel : Nat) :
    ∀ (r : Nat) (cur acc : List (List Char)),
      (∀ p, p ∈ cur ↔ Level V S r p) → cur ≠ [] →
      (∀ p, p ∈ acc ↔ Prime V S p ∧ dashes p < r) → V + 1 ≤ fuel + r →
      ∃ res, combineLoop fuel (groupByOnes cur []) cur acc = .ok res ∧
        (∀ p, p ∈ res ↔ Prime V S p) ∧ res ≠ [] := by
  induction fuel with
  | zero =>
    intro r cur acc hcur hne _ hfuel
    obtain ⟨p, hp⟩ := List.exists_mem_of_ne_nil cur hne
    have := level_bound V S r p ((hcur p).mp hp)
    omega
  | succ fuel ih =>
    intro r cur acc hcur hne hacc hfuel
    obtain ⟨h1, h2, h3⟩ := pass_spec V S r cur hcur
    have hadd : ∀ p, p ∈ addUnmarked (compareAdjacent (groupByOnes cur [])
        { nextPIs := [], marked := [], changed := false }).marked cur acc ↔
        Prime V S p ∧ dashes p < r + 1 := by
      intro p
      rw [mem_addUnmarked, hacc]
      constructor
      · rintro (⟨hp, hd⟩ | ⟨hp, hm⟩)
        · exact ⟨hp, by omega⟩
        · have hl := (hcur p).mp hp
          rw [h2 p hp] at hm
          exact ⟨(prime_iff_unmerged V S r p hl).mpr hm, by rw [hl.2.1]; omega⟩
      · rintro ⟨hp, hd⟩
        by_cases hlt : dashes p < r
        · exact Or.inl ⟨hp, hlt⟩
        · have hl : Level V S r p := ⟨hp.1, by omega, hp.2.1⟩
          have hpc := (hcur p).mpr hl
          refine Or.inr ⟨hpc, ?_⟩
          rw [h2 p hpc]
          exact (prime_iff_unmerged V S r p hl).mp hp
    unfold combineLoop
    simp only
    by_cases hch : (compareAdjacent (groupByOnes cur [])
        { nextPIs := [], marked := [], changed := false }).changed = true
    · rw [if_pos hch]
      obtain ⟨c, hc⟩ := h3.mp hch
      refine ih (r + 1) _ _ h1 ?_ hadd (by omega)
      exact List.ne_nil_of_mem ((h1 c).mpr hc)
    · rw [if_neg hch]
      have hnone : ¬ ∃ c, Level V S (r + 1) c := fun h => hch (h3.mpr h)
      refine ⟨_, rfl, fun p => ?_, ?_⟩
      · rw [hadd]
        constructor
        · exact fun h => h.1
        · intro hp
          refine ⟨hp, ?_⟩
          by_contra hge
          obtain ⟨k, hk⟩ : ∃ k, dashes p = r + 1 + k := ⟨dashes p - (r + 1), by omega⟩
          exact hnone (level_nonempty_down V S (r + 1) k p ⟨hp.1, hk, hp.2.1⟩)
      · obtain ⟨p, hp⟩ := List.exists_mem_of_ne_nil cur hne
        have hl := (hcur p).mp hp
        have hprime : Prime V S p := by
          rw [prime_iff_unmerged V S r p hl]
          rintro ⟨b, hb, hadj⟩
          exact hnone ⟨_, (level_merge V S r p b hl hb hadj).1⟩
        exact List.ne_nil_of_mem ((hadd p).mpr ⟨hprime, by rw [hl.2.1]; omega⟩)

/-! ## Encoded terms -/

theorem encodeAll_eq_ok (V : Nat) (hV : V ≤ 20) (l : List Int) :
    encodeAll V l = .ok (l.map (lowBits V)) := by
  induction l with
  | nil => rfl
  | cons t l ih => simp [encodeAll, decToBin_eq_ok V hV, ih]

theorem decode_lt (s : List Char) : decode s < 2 ^ s.length := by
  induction s with
  | nil => simp [decode]
  | cons c s ih =>
    simp only [decode, List.length_cons, pow_succ]
    split <;> omega

theorem testBit_decode (s : List Char) (i : Nat) (hi : i < s.length) :
    (decode s).testBit (s.length - 1 - i) = decide (s[i]? = some '1') := by
  induction s generalizing i with
  | nil => simp at hi
  | cons c s ih =>
    have hlt := decode_lt s
    cases i with
    | zero =>
      simp only [decode, List.length_cons, Nat.add_sub_cancel, Nat.sub_zero,
        List.getElem?_cons_zero, Option.some.injEq]
      by_cases hc : c = '1'
      · simp only [hc, if_true, decide_True]
        rw [Nat.testBit_two_pow_add_eq, Nat.testBit_lt_two_pow hlt]; rfl
      · simp only [hc, if_false, Nat.zero_add, decide_False]
        exact Nat.testBit_lt_two_pow hlt
    | succ i =>
      have hi2 : i < s.length := by simpa using hi
      have e : (c :: s).length - 1 - (i + 1) = s.length - 1 - i := by
        simp only [List.length_cons]; omega
      rw [e, List.getElem?_cons_succ, ← ih i hi2]
      simp only [decode]
      by_cases hc : c = '1'
      · simp only [hc, if_true]
        exact Nat.testBit_two_pow_add_gt (by omega) _
      · simp only [hc, if_false, Nat.zero_add]

/-- Every string of `V` binary digits is the encoding of a term of `[0, 2^V - 1]`. -/
theorem lowBits_decode (V : Nat) (hV : V ≤ 20) (s : List Char) (hs : IsBinary V s) :
    InRange V (decode s) ∧ lowBits V (decode s) = s := by
  obtain ⟨hl, hb⟩ := hs
  have hlt : decode s < 2 ^ V := by rw [← hl]; exact decode_lt s
  have hr : InRange V (decode s) := by
    refine ⟨by positivity, ?_⟩
    have : ((decode s : Nat) : Int) < ((2 ^ V : Nat) : Int) := by exact_mod_cast hlt
    push_cast at this
    omega
  refine ⟨hr, ?_⟩
  obtain ⟨e1, _, _⟩ := inRange_toNat V hV _ hr
  have e2 : ((decode s : Nat) : Int).toNat = decode s := by simp
  apply List.ext_getElem?
  intro i
  by_cases hi : i < V
  · rw [lowBits_getElem? V hV _ i hi, e1, e2]
    have hi2 : i < s.length := by omega
    have := testBit_decode s i hi2
    rw [hl] at this
    rw [this]
    have hsi : s[i]? = some s[i] := List.getElem?_eq_getElem hi2
    rcases hb s[i] (List.getElem_mem hi2) with h0 | h1
    · rw [hsi, h0]; simp
    · rw [hsi, h1]; simp
  · have h1 : (lowBits V ((decode s : Nat) : Int)).length ≤ i := by
      rw [lowBits_length V hV]; omega
    have h2 : s.length ≤ i := by omega
    rw [List.getElem?_eq_none h1, List.getElem?_eq_none h2]

theorem covers_binary_eq (p s : List Char) (hp : ∀ c ∈ p, c = '0' ∨ c = '1')
    (h : covers p s = true) : p = s := by
  induction p generalizing s with
  | nil =>
    cases s with
    | nil => rfl
    | cons d s => simp at h
  | cons c p ih =>
    cases s with
    | nil => simp at h
    | cons d s =>
      simp only [covers_cons_cons, Bool.and_eq_true, decide_eq_true_eq] at h
      have hc : c ≠ '-' := by
        rcases hp c (List.mem_cons_self _ _) with rfl | rfl <;> decide
      have h1 : c = d := by tauto
      rw [h1, ih s (fun e he => hp e (List.mem_cons_of_mem _ he)) h.2]

theorem isBinary_iff (V : Nat) (p : List Char) :
    IsBinary V p ↔ IsPattern V p ∧ dashes p = 0 := by
  unfold IsBinary IsPattern dashes
  rw [List.count_eq_zero]
  constructor
  · rintro ⟨h1, h2⟩
    refine ⟨⟨h1, fun c hc => by rcases h2 c hc with h | h <;> tauto⟩, ?_⟩
    intro hm
    rcases h2 _ hm with h | h <;> exact absurd h (by decide)
  · rintro ⟨⟨h1, h2⟩, h3⟩
    refine ⟨h1, fun c hc => ?_⟩
    rcases h2 c hc with h | h | h
    · exact Or.inl h
    · exact Or.inr h
    · subst h; exact absurd hc h3

theorem level_zero (V : Nat) (S : List (List Char)) (hS : ∀ s ∈ S, IsBinary V s)
    (p : List Char) : p ∈ S ↔ Level V S 0 p := by
  constructor
  · intro hp
    have hb := hS p hp
    obtain ⟨h1, h2⟩ := (isBinary_iff V p).mp hb
    refine ⟨h1, h2, ?_⟩
    intro s _ hc
    rw [← covers_binary_eq p s hb.2 hc]
    exact hp
  · rintro ⟨h1, h2, h3⟩
    exact h3 p ((isBinary_iff V p).mpr ⟨h1, h2⟩) (covers_self p)

theorem binaryTermsOf_binary (V : Nat) (hV : V ≤ 20) (mt dc : List Int) :
    ∀ s ∈ binaryTermsOf V mt dc, IsBinary V s := by
  intro s hs
  unfold binaryTermsOf at hs
  obtain ⟨t, _, rfl⟩ := List.mem_map.mp hs
  exact lowBits_binary V hV t

theorem mem_binaryTermsOf (V : Nat) (mt dc : List Int) (s : List Char) :
    s ∈ binaryTermsOf V mt dc ↔ ∃ t, (t ∈ mt ∨ t ∈ dc) ∧ lowBits V t = s := by
  unfold binaryTermsOf
  simp only [List.mem_map, mem_uniqueStd, mem_sortStd, List.mem_append]

/-! ## Coverage maps -/

theorem mapFind_mapAssign {κ β : Type} [LinearOrder κ] [DecidableEq κ] (k k2 : κ) (v : β)
    (m : List (κ × β)) :
    mapFind k (mapAssign k2 v m) = if k = k2 then some v else mapFind k m := by
  induction m with
  | nil => simp [mapAssign, mapFind]
  | cons e m ih =>
    obtain ⟨k1, w⟩ := e
    unfold mapAssign
    by_cases h1 : k2 < k1
    · rw [if_pos h1]
      by_cases hk : k = k2
      · simp [mapFind, hk]
      · simp [mapFind, hk]
    · rw [if_neg h1]
      by_cases h2 : k2 = k1
      · rw [if_pos h2]
        subst h2
        by_cases hk : k = k2
        · simp [mapFind, hk]
        · simp [mapFind, hk]
      · rw [if_neg h2]
        by_cases hk : k = k2
        · subst hk
          simp [mapFind, h2, ih]
        · by_cases hk1 : k = k1
          · subst hk1
            simp [mapFind, hk]
          · simp [mapFind, hk1, hk, ih]

theorem coveredSet_eq_ok (V : Nat) (hV : V ≤ 20) (pi : List Char) (l acc : List Int) :
    coveredSet V pi l acc = .ok (coveredPure V pi l acc) := by
  induction l generalizing acc with
  | nil => rfl
  | cons m l ih =>
    simp only [coveredSet, coversInt_eq_ok V hV, coveredPure]
    exact ih _

theorem mem_coveredPure (V : Nat) (pi : List Char) (l acc : List Int) (m : Int) :
    m ∈ coveredPure V pi l acc ↔ m ∈ acc ∨ (m ∈ l ∧ covers pi (lowBits V m) = true) := by
  induction l generalizing acc with
  | nil => simp [coveredPure]
  | cons t l ih =>
    rw [coveredPure, ih]
    by_cases hc : covers pi (lowBits V t) = true
    · rw [if_pos hc, mem_setInsert, List.mem_cons]
      constructor
      · rintro ((rfl | h) | ⟨h1, h2⟩)
        · exact Or.inr ⟨Or.inl rfl, hc⟩
        · exact Or.inl h
        · exact Or.inr ⟨Or.inr h1, h2⟩
      · rintro (h | ⟨(rfl | h1), h2⟩)
        · exact Or.inl (Or.inr h)
        · exact Or.inl (Or.inl rfl)
        · exact Or.inr ⟨h1, h2⟩
    · rw [if_neg hc, List.mem_cons]
      constructor
      · rintro (h | ⟨h1, h2⟩)
        · exact Or.inl h
        · exact Or.inr ⟨Or.inr h1, h2⟩
      · rintro (h | ⟨(rfl | h1), h2⟩)
        · exact Or.inl h
        · exact absurd h2 hc
        · exact Or.inr ⟨h1, h2⟩

theorem buildCoverage_ok (V : Nat) (hV : V ≤ 20) (ml : List Int) (pis : List (List Char))
    (acc : List (List Char × List Int)) :
    ∃ cov, buildCoverage V ml pis acc = .ok cov ∧
      ∀ pi, mapFind pi cov =
        if pi ∈ pis ∧ coveredPure V pi ml [] ≠ [] then some (coveredPure V pi ml [])
        else mapFind pi acc := by
  induction pis generalizing acc with
  | nil => exact ⟨acc, rfl, fun pi => by simp⟩
  | cons p pis ih =>
    simp only [buildCoverage, coveredSet_eq_ok V hV]
    obtain ⟨cov, h1, h2⟩ := ih
      (if coveredPure V p ml [] ≠ [] then mapAssign p (coveredPure V p ml []) acc else acc)
    refine ⟨cov, h1, fun pi => ?_⟩
    rw [h2 pi]
    by_cases hin : pi ∈ pis ∧ coveredPure V pi ml [] ≠ []
    · have : pi ∈ p :: pis ∧ coveredPure V pi ml [] ≠ [] := ⟨List.mem_cons_of_mem _ hin.1, hin.2⟩
      rw [if_pos hin, if_pos this]
    · rw [if_neg hin]
      by_cases hp : pi = p
      · subst hp
        by_cases hc : coveredPure V pi ml [] ≠ []
        · rw [if_pos hc, mapFind_mapAssign, if_pos rfl, if_pos ⟨List.mem_cons_self _ _, hc⟩]
        · rw [if_neg hc, if_neg (fun h => hc h.2)]
      · have hnot : ¬ (pi ∈ p :: pis ∧ coveredPure V pi ml [] ≠ []) := by
          rintro ⟨h3, h4⟩
          rcases List.mem_cons.mp h3 with h5 | h5
          · exact hp h5
          · exact hin ⟨h5, h4⟩
        rw [if_neg hnot]
        by_cases hc : coveredPure V p ml [] ≠ []
        · rw [if_pos hc, mapFind_mapAssign, if_neg hp]
        · rw [if_neg hc]

/-! ## The generator returns the prime implicants -/

theorem not_prime_nil (V : Nat) (p : List Char) : ¬ Prime V [] p := by
  rintro ⟨hp, hi, _⟩
  obtain ⟨s, hs, hc⟩ := exists_covered V p hp
  exact absurd (hi s hs hc) (List.not_mem_nil s)

theorem generatePrimeImplicants_spec (V : Nat) (hV : V ≤ 20) (mt dc : List Int) (fuel : Nat)
    (hfuel : V + 1 ≤ fuel) :
    ∃ q, generatePrimeImplicants fuel (fresh V mt dc) = .ok q ∧ Generated V mt dc q := by
  unfold generatePrimeImplicants
  simp only [fresh, encodeAll_eq_ok V hV]
  have hS : (uniqueStd (sortStd (mt ++ dc))).map (lowBits V) = binaryTermsOf V mt dc := rfl
  rw [hS]
  by_cases hempty : binaryTermsOf V mt dc = []
  · rw [if_pos hempty]
    refine ⟨_, rfl, rfl, rfl, rfl, ?_, ?_, ?_, rfl, rfl, rfl⟩
    · intro p
      rw [hempty]
      simp only [List.not_mem_nil, false_iff]
      exact not_prime_nil V p
    · exact List.sorted_nil
    · intro pi
      simp [mapFind]
  · rw [if_neg hempty]
    obtain ⟨res, hres, hmem, hne⟩ := combineLoop_spec V (binaryTermsOf V mt dc) fuel 0
      (binaryTermsOf V mt dc) []
      (level_zero V _ (binaryTermsOf_binary V hV mt dc)) hempty
      (fun p => by simp) (by omega)
    rw [hres]
    simp only [if_neg hne]
    obtain ⟨cov, hcov, hfind⟩ := buildCoverage_ok V hV mt (uniqueStd (sortStd res)) []
    rw [hcov]
    refine ⟨_, rfl, rfl, rfl, rfl, ?_, ?_, ?_, rfl, rfl, rfl⟩
    · intro p
      simp only [mem_uniqueStd, mem_sortStd]
      exact hmem p
    · exact sorted_uniqueStd_sortStd res
    · intro pi
      rw [hfind pi]
      simp [mapFind]

/-! ## Prime implicants in terms of terms -/

theorem coversInt_true_iff (V : Nat) (hV : V ≤ 20) (p : List Char) (t : Int) :
    coversInt V p t = .ok true ↔ covers p (lowBits V t) = true := by
  rw [coversInt_eq_ok V hV]
  constructor
  · intro h; exact Except.ok.inj h
  · intro h; rw [h]

theorem implicant_iff_terms (V : Nat) (mt dc : List Int) (hv : ValidInput V mt dc)
    (p : List Char) :
    Implicant V (binaryTermsOf V mt dc) p ↔
      ∀ t, InRange V t → coversInt V p t = .ok true → t ∈ mt ∨ t ∈ dc := by
  obtain ⟨⟨_, hV⟩, hmt, hdc, _⟩ := hv
  constructor
  · intro h t ht hc
    rw [coversInt_true_iff V hV] at hc
    have := h _ (lowBits_binary V hV t) hc
    rw [mem_binaryTermsOf] at this
    obtain ⟨u, hu, he⟩ := this
    have hur : InRange V u := by
      rcases hu with hu | hu
      · exact hmt u hu
      · exact hdc u hu
    rw [← lowBits_injective V hV u t hur ht he]
    exact hu
  · intro h s hs hc
    obtain ⟨hr, he⟩ := lowBits_decode V hV s hs
    rw [mem_binaryTermsOf]
    refine ⟨_, h _ hr ?_, he⟩
    rw [coversInt_true_iff V hV, he]
    exact hc

theorem within_iff_terms (V : Nat) (hV : V ≤ 20) (p q : List Char) :
    Within V p q ↔
      ∀ t, InRange V t → coversInt V p t = .ok true → coversInt V q t = .ok true := by
  constructor
  · intro h t _ hc
    rw [coversInt_true_iff V hV] at hc ⊢
    exact h _ (lowBits_binary V hV t) hc
  · intro h s hs hc
    obtain ⟨hr, he⟩ := lowBits_decode V hV s hs
    have := h _ hr (by rw [coversInt_true_iff V hV, he]; exact hc)
    rw [coversInt_true_iff V hV, he] at this
    exact this

/-- C2: for every valid input, on a fresh object and with fuel for `V + 1` passes,
`generatePrimeImplicants` returns, and a pattern `P` is in `primeImplicants` exactly when
`P` has length `V` over `0`, `1`, `-`, every term of `[0, 2^V - 1]` covered by `P` is a
minterm or a don't-care, and no different pattern `Q` whose covered terms are all
minterms or don't-cares covers every term that `P` covers. -/
theorem generatePrimeImplicants_reference (V : Nat) (mt dc : List Int) (fuel : Nat)
    (hv : ValidInput V mt dc) (hfuel : V + 1 ≤ fuel) :
    ∃ q, generatePrimeImplicants fuel (fresh V mt dc) = .ok q ∧
      ∀ P, P ∈ q.primeImplicants ↔
        (IsPattern V P ∧
          (∀ t, InRange V t → coversInt V P t = .ok true → t ∈ mt ∨ t ∈ dc) ∧
          ¬ ∃ Q, IsPattern V Q ∧ Q ≠ P ∧
            (∀ t, InRange V t → coversInt V Q t = .ok true → t ∈ mt ∨ t ∈ dc) ∧
            ∀ t, InRange V t → coversInt V P t = .ok true → coversInt V Q t = .ok true) := by
  have hV := hv.1.2
  obtain ⟨q, hq, hgen⟩ := generatePrimeImplicants_spec V hV mt dc fuel hfuel
  refine ⟨q, hq, fun P => ?_⟩
  rw [hgen.2.2.2.1 P]
  unfold Prime
  rw [implicant_iff_terms V mt dc hv P]
  constructor
  · rintro ⟨h1, h2, h3⟩
    refine ⟨h1, h2, ?_⟩
    rintro ⟨Q, hQ1, hQ2, hQ3, hQ4⟩
    exact h3 Q hQ1 hQ2 ((implicant_iff_terms V mt dc hv Q).mpr hQ3)
      ((within_iff_terms V hV P Q).mpr hQ4)
  · rintro ⟨h1, h2, h3⟩
    refine ⟨h1, h2, ?_⟩
    intro Q hQ1 hQ2 hQ3 hQ4
    exact h3 ⟨Q, hQ1, hQ2, (implicant_iff_terms V mt dc hv Q).mp hQ3,
      (within_iff_terms V hV P Q).mp hQ4⟩

theorem generatePrimeImplicants_reference_witness :
    ∃ q, generatePrimeImplicants 4 (fresh 3 [0, 1, 2, 5, 6, 7] []) = .ok q ∧
      ∀ P, P ∈ q.primeImplicants ↔
        (IsPattern 3 P ∧
          (∀ t, InRange 3 t → coversInt 3 P t = .ok true →
            t ∈ ([0, 1, 2, 5, 6, 7] : List Int) ∨ t ∈ ([] : List Int)) ∧
          ¬ ∃ Q, IsPattern 3 Q ∧ Q ≠ P ∧
            (∀ t, InRange 3 t → coversInt 3 Q t = .ok true →
              t ∈ ([0, 1, 2, 5, 6, 7] : List Int) ∨ t ∈ ([] : List Int)) ∧
            ∀ t, InRange 3 t → coversInt 3 P t = .ok true → coversInt 3 Q t = .ok true) :=
  generatePrimeImplicants_reference 3 [0, 1, 2, 5, 6, 7] [] 4
    (by unfold ValidInput InRange; decide) (by decide)

/-! ## Maps of vectors -/

theorem mapFind_none_of_lt {κ β : Type} [LinearOrder κ] [DecidableEq κ] (k : κ)
    (m : List (κ × β)) (h : ∀ y ∈ keys m, k < y) : mapFind k m = none := by
  induction m with
  | nil => rfl
  | cons e m ih =>
    obtain ⟨k1, w⟩ := e
    have h1 : k < k1 := h k1 (by simp [keys])
    have h2 : ∀ y ∈ keys m, k < y := fun y hy => h y (by simp [keys] at hy ⊢; exact Or.inr hy)
    simp [mapFind, ne_of_lt h1, ih h2]

theorem getVec_mapPushBack {κ α : Type} [LinearOrder κ] [DecidableEq κ] (k : κ) (v : α)
    (m : List (κ × List α)) (hs : (keys m).Sorted (· < ·)) (k2 : κ) :
    getVec (mapPushBack k v m) k2 = if k2 = k then getVec m k ++ [v] else getVec m k2 := by
  induction m with
  | nil =>
    by_cases h : k2 = k
    · simp [mapPushBack, getVec, mapFind, h]
    · simp [mapPushBack, getVec, mapFind, h]
  | cons e m ih =>
    obtain ⟨k1, vs⟩ := e
    have h1 : (keys m).Sorted (· < ·) := List.Sorted.of_cons hs
    have hlt : ∀ y ∈ keys m, k1 < y := fun y hy => List.rel_of_sorted_cons hs y hy
    unfold mapPushBack
    by_cases hk : k < k1
    · rw [if_pos hk]
      have hnone : mapFind k m = none :=
        mapFind_none_of_lt k m (fun y hy => lt_trans hk (hlt y hy))
      by_cases h : k2 = k
      · subst h
        simp [getVec, mapFind, ne_of_lt hk, hnone]
      · simp [getVec, mapFind, h]
    · rw [if_neg hk]
      by_cases hk1 : k = k1
      · rw [if_pos hk1]
        subst hk1
        by_cases h : k2 = k
        · subst h
          simp [getVec, mapFind]
        · simp [getVec, mapFind, h]
      · rw [if_neg hk1]
        have ih2 := ih h1
        unfold getVec at ih2 ⊢
        by_cases h : k2 = k
        · subst h
          simp only [mapFind, if_neg hk1, if_pos rfl] at ih2 ⊢
          exact ih2
        · by_cases h2 : k2 = k1
          · subst h2
            simp [mapFind, h]
          · simp only [mapFind, if_neg h2, if_neg h] at ih2 ⊢
            exact ih2

theorem mapOK_mapPushBack {κ α : Type} [LinearOrder κ] (k : κ) (v : α)
    (m : List (κ × List α)) (h : MapOK m) : MapOK (mapPushBack k v m) := by
  refine ⟨sorted_mapPushBack k v m h.1, ?_⟩
  have h2 := h.2
  clear h
  induction m with
  | nil => simp [mapPushBack]
  | cons e m ih =>
    obtain ⟨k1, vs⟩ := e
    have hm : ∀ e ∈ m, e.2 ≠ [] := fun e he => h2 e (List.mem_cons_of_mem _ he)
    have hv : vs ≠ [] := h2 (k1, vs) (List.mem_cons_self _ _)
    unfold mapPushBack
    split
    · intro e he
      rcases List.mem_cons.mp he with rfl | he
      · simp
      · exact h2 e he
    · split
      · intro e he
        rcases List.mem_cons.mp he with rfl | he
        · simp
        · exact hm e he
      · intro e he
        rcases List.mem_cons.mp he with rfl | he
        · exact hv
        · exact ih hm e he

theorem mem_iff_getVec {κ α : Type} [LinearOrder κ] [DecidableEq κ] (m : List (κ × List α))
    (h : MapOK m) (k : κ) (g : List α) : (k, g) ∈ m ↔ g ≠ [] ∧ getVec m k = g := by
  induction m with
  | nil => simp [getVec, mapFind]
  | cons e m ih =>
    obtain ⟨k1, vs⟩ := e
    have hs : (keys m).Sorted (· < ·) := List.Sorted.of_cons h.1
    have hlt : ∀ y ∈ keys m, k1 < y := fun y hy => List.rel_of_sorted_cons h.1 y hy
    have hm : MapOK m := ⟨hs, fun e he => h.2 e (List.mem_cons_of_mem _ he)⟩
    have hv : vs ≠ [] := h.2 (k1, vs) (List.mem_cons_self _ _)
    rw [List.mem_cons, ih hm]
    by_cases hk : k = k1
    · subst hk
      have hnone : mapFind k m = none := mapFind_none_of_lt k m hlt
      simp only [getVec, mapFind, if_pos rfl, Option.getD_some, hnone, Option.getD_none,
        Prod.mk.injEq, true_and]
      constructor
      · rintro (rfl | ⟨h1, h2⟩)
        · exact ⟨hv, rfl⟩
        · exact absurd h2.symm h1
      · rintro ⟨_, rfl⟩
        exact Or.inl rfl
    · simp [getVec, mapFind, hk]

/-! ## The selector: coverage index -/

theorem coverageRow_ok (V : Nat) (hV : V ≤ 20) (pi : List Char) (l : List Int)
    (mc : List (Int × List (List Char))) (hmc : MapOK mc) :
    ∃ mc2, coverageRow V pi l mc = .ok mc2 ∧ MapOK mc2 ∧
      ∀ k, getVec mc2 k = getVec mc k ++
        List.replicate (if covers pi (lowBits V k) then l.count k else 0) pi := by
  induction l generalizing mc with
  | nil => exact ⟨mc, rfl, hmc, fun k => by simp⟩
  | cons m l ih =>
    simp only [coverageRow, coversInt_eq_ok V hV]
    by_cases hc : covers pi (lowBits V m) = true
    · simp only [hc, if_true]
      obtain ⟨mc2, h1, h2, h3⟩ := ih (mapPushBack m pi mc) (mapOK_mapPushBack m pi mc hmc)
      refine ⟨mc2, h1, h2, fun k => ?_⟩
      rw [h3 k, getVec_mapPushBack m pi mc hmc.1 k]
      by_cases hk : k = m
      · subst hk
        simp only [hc, if_true, List.count_cons_self, List.append_assoc]
        rw [List.replicate_succ]
        rfl
      · have hk2 : m ≠ k := fun e => hk e.symm
        have hcnt : List.count k (m :: l) = List.count k l := by
          simp [List.count_cons, hk2]
        simp only [hk, if_false, hcnt]
    · have hc2 : covers pi (lowBits V m) = false := by simpa using hc
      simp only [hc2, Bool.false_eq_true, if_false]
      obtain ⟨mc2, h1, h2, h3⟩ := ih mc hmc
      refine ⟨mc2, h1, h2, fun k => ?_⟩
      rw [h3 k]
      by_cases hk : k = m
      · subst hk
        simp [hc2]
      · have hk2 : m ≠ k := fun e => hk e.symm
        have hcnt : List.count k (m :: l) = List.count k l := by
          simp [List.count_cons, hk2]
        rw [hcnt]

theorem buildMintermCoverage_ok (V : Nat) (hV : V ≤ 20) (ml : List Int)
    (pis : List (List Char)) (mc : List (Int × List (List Char))) (hmc : MapOK mc) :
    ∃ mc2, buildMintermCoverage V ml pis mc = .ok mc2 ∧ MapOK mc2 ∧
      ∀ k, getVec mc2 k = getVec mc k ++ clauseOf V ml k pis := by
  induction pis generalizing mc with
  | nil => exact ⟨mc, rfl, hmc, fun k => by simp [clauseOf]⟩
  | cons pi pis ih =>
    obtain ⟨mc1, h1, h2, h3⟩ := coverageRow_ok V hV pi ml mc hmc
    obtain ⟨mc2, h4, h5, h6⟩ := ih mc1 h2
    simp only [buildMintermCoverage, h1]
    refine ⟨mc2, h4, h5, fun k => ?_⟩
    rw [h6 k, h3 k, clauseOf, List.append_assoc]

theorem mapOK_nil {κ α : Type} [LinearOrder κ] : MapOK ([] : List (κ × List α)) :=
  ⟨by simp [keys], by simp⟩

theorem mem_clauseOf (V : Nat) (ml : List Int) (k : Int) (pis : List (List Char))
    (p : List Char) :
    p ∈ clauseOf V ml k pis ↔ p ∈ pis ∧ covers p (lowBits V k) = true ∧ k ∈ ml := by
  induction pis with
  | nil => simp [clauseOf]
  | cons pi pis ih =>
    rw [clauseOf, List.mem_append, ih, List.mem_replicate, List.mem_cons]
    constructor
    · rintro (⟨h1, rfl⟩ | ⟨h1, h2⟩)
      · by_cases hc : covers p (lowBits V k) = true
        · simp only [hc, if_true] at h1
          exact ⟨Or.inl rfl, hc, List.count_pos_iff.mp (Nat.pos_of_ne_zero h1)⟩
        · simp [hc] at h1
      · exact ⟨Or.inr h1, h2⟩
    · rintro ⟨(rfl | h1), h2, h3⟩
      · left
        refine ⟨?_, rfl⟩
        simp only [h2, if_true]
        exact Nat.pos_iff_ne_zero.mp (List.count_pos_iff.mpr h3)
      · exact Or.inr ⟨h1, h2, h3⟩

/-- With a duplicate-free minterm list, the vector of a minterm is the list of the
prime implicants that cover it. -/
theorem clauseOf_nodup (V : Nat) (ml : List Int) (hml : ml.Nodup) (k : Int) (hk : k ∈ ml)
    (pis : List (List Char)) :
    clauseOf V ml k pis = pis.filter (fun pi => covers pi (lowBits V k)) := by
  have hcount : ml.count k = 1 := List.count_eq_one_of_mem hml hk
  induction pis with
  | nil => simp [clauseOf]
  | cons pi pis ih =>
    rw [clauseOf, ih, hcount]
    by_cases hc : covers pi (lowBits V k) = true
    · simp [hc, List.filter_cons]
    · simp [hc, List.filter_cons]

/-! ## The selector: essential implicants -/

theorem mapFind_inst {κ β : Type} (i1 i2 : DecidableEq κ) (k : κ) (m : List (κ × β)) :
    @mapFind κ β i1 k m = @mapFind κ β i2 k m := by
  have : i1 = i2 := Subsingleton.elim _ _
  rw [this]

theorem mapIndex_fst {κ α : Type} [LinearOrder κ] [i : DecidableEq κ] (m : List (κ × List α))
    (k : κ) : (mapIndex m k).1 = getVec m k := by
  unfold mapIndex getVec
  rw [mapFind_inst _ i]
  cases mapFind k m <;> rfl

theorem getVec_mapIndex {κ α : Type} [LinearOrder κ] [i : DecidableEq κ]
    (m : List (κ × List α)) (k k2 : κ) : getVec (mapIndex m k).2 k2 = getVec m k2 := by
  unfold mapIndex
  rw [mapFind_inst _ i]
  cases h : mapFind k m with
  | some w => rfl
  | none =>
    simp only [getVec]
    rw [mapFind_mapAssign]
    by_cases hk : k2 = k
    · subst hk; simp [h]
    · simp [hk]

theorem mem_insertAll (l acc : List Int) (m : Int) :
    m ∈ insertAll l acc ↔ m ∈ l ∨ m ∈ acc := by
  induction l generalizing acc with
  | nil => simp [insertAll]
  | cons t l ih =>
    rw [insertAll, ih, mem_setInsert, List.mem_cons]
    tauto

theorem selectEssential_inv (cov0 : List (List Char × List Int))
    (L2 : List (Int × List (List Char))) :
    ∀ (L1 : List (Int × List (List Char))) (st : Selection), SelInv cov0 L1 st →
      SelInv cov0 (L1 ++ L2) (selectEssential L2 st) := by
  induction L2 with
  | nil => intro L1 st h; simpa [selectEssential] using h
  | cons x L2 ih =>
    intro L1 st h
    have happ : L1 ++ x :: L2 = (L1 ++ [x]) ++ L2 := by simp
    rw [happ]
    obtain ⟨k, g⟩ := x
    obtain ⟨h1, h2, h3, h4⟩ := h
    have hskip : (∀ e, (k, g) ≠ (k, [e])) ∨ (∃ e, g = [e] ∧ e ∈ st.essentialPIs) →
        SelInv cov0 (L1 ++ [(k, g)]) st := by
      intro hcase
      have hE : ∀ e, (∃ k2, (k2, [e]) ∈ L1 ++ [(k, g)]) ↔ ∃ k2, (k2, [e]) ∈ L1 := by
        intro e
        constructor
        · rintro ⟨k2, hk2⟩
          rcases List.mem_append.mp hk2 with hk2 | hk2
          · exact ⟨k2, hk2⟩
          · simp only [List.mem_singleton, Prod.mk.injEq] at hk2
            obtain ⟨rfl, rfl⟩ := hk2
            rcases hcase with hc | ⟨e2, he2, hin⟩
            · exact absurd rfl (hc e)
            · have : e = e2 := by simpa using he2
              subst this
              exact (h2 e).mp hin
        · rintro ⟨k2, hk2⟩
          exact ⟨k2, List.mem_append_left _ hk2⟩
      refine ⟨fun e => by rw [h1, hE], fun e => by rw [h2, hE], h3, fun m => ?_⟩
      rw [h4]
      constructor
      · rintro ⟨e, k2, hk2, hm⟩
        exact ⟨e, k2, List.mem_append_left _ hk2, hm⟩
      · rintro ⟨e, k2, hk2, hm⟩
        obtain ⟨k3, hk3⟩ := (hE e).mp ⟨k2, hk2⟩
        exact ⟨e, k3, hk3, hm⟩
    rcases g with _ | ⟨e, _ | ⟨e2, g⟩⟩
    · rw [selectEssential]
      · exact ih _ st (hskip (Or.inl (by simp)))
      · simp
    · by_cases hin : e ∈ st.essentialPIs
      · rw [selectEssential, if_pos hin]
        exact ih _ st (hskip (Or.inr ⟨e, rfl, hin⟩))
      · rw [selectEssential, if_neg hin]
        apply ih
        have hE : ∀ e2, (∃ k2, (k2, [e2]) ∈ L1 ++ [(k, [e])]) ↔
            e2 = e ∨ ∃ k2, (k2, [e2]) ∈ L1 := by
          intro e2
          constructor
          · rintro ⟨k2, hk2⟩
            rcases List.mem_append.mp hk2 with hk2 | hk2
            · exact Or.inr ⟨k2, hk2⟩
            · simp only [List.mem_singleton, Prod.mk.injEq, List.cons.injEq, and_true] at hk2
              exact Or.inl hk2.2
          · rintro (rfl | ⟨k2, hk2⟩)
            · exact ⟨k, List.mem_append_right _ (by simp)⟩
            · exact ⟨k2, List.mem_append_left _ hk2⟩
        refine ⟨fun e2 => ?_, fun e2 => ?_, fun e2 => ?_, fun m => ?_⟩
        · show e2 ∈ st.essentialPrimeImplicants ++ [e] ↔ _
          rw [hE, List.mem_append, List.mem_singleton, h1]; tauto
        · show e2 ∈ setInsert e st.essentialPIs ↔ _
          rw [hE, mem_setInsert, h2]
        · simp only
          rw [getVec_mapIndex, h3]
        · simp only
          rw [mem_insertAll, mapIndex_fst, h3, h4]
          constructor
          · rintro (hm | ⟨e2, k2, hk2, hm⟩)
            · exact ⟨e, k, List.mem_append_right _ (by simp), hm⟩
            · exact ⟨e2, k2, List.mem_append_left _ hk2, hm⟩
          · rintro ⟨e2, k2, hk2, hm⟩
            rcases List.mem_append.mp hk2 with hk2 | hk2
            · exact Or.inr ⟨e2, k2, hk2, hm⟩
            · simp only [List.mem_singleton, Prod.mk.injEq, List.cons.injEq, and_true] at hk2
              rw [hk2.2] at hm
              exact Or.inl hm
    · rw [selectEssential]
      · exact ih _ st (hskip (Or.inl (by simp)))
      · simp

/-! ## The selector: residual minterms and remaining implicants -/

theorem mem_collectUncovered (cov l acc : List Int) (m : Int) :
    m ∈ collectUncovered cov l acc ↔ m ∈ acc ∨ (m ∈ l ∧ m ∉ cov) := by
  induction l generalizing acc with
  | nil => simp [collectUncovered]
  | cons t l ih =>
    rw [collectUncovered, ih]
    by_cases ht : t ∈ cov
    · rw [if_pos ht, List.mem_cons]
      constructor
      · rintro (h | ⟨h1, h2⟩)
        · exact Or.inl h
        · exact Or.inr ⟨Or.inr h1, h2⟩
      · rintro (h | ⟨(rfl | h1), h2⟩)
        · exact Or.inl h
        · exact absurd ht h2
        · exact Or.inr ⟨h1, h2⟩
    · rw [if_neg ht, mem_setInsert, List.mem_cons]
      constructor
      · rintro ((rfl | h) | ⟨h1, h2⟩)
        · exact Or.inr ⟨Or.inl rfl, ht⟩
        · exact Or.inl h
        · exact Or.inr ⟨Or.inr h1, h2⟩
      · rintro (h | ⟨(rfl | h1), h2⟩)
        · exact Or.inl (Or.inr h)
        · exact Or.inl (Or.inl rfl)
        · exact Or.inr ⟨h1, h2⟩

theorem sorted_setInsert {α : Type} [LinearOrder α] (x : α) (l : List α)
    (h : l.Sorted (· < ·)) : (setInsert x l).Sorted (· < ·) := by
  induction l with
  | nil => simp [setInsert]
  | cons y l ih =>
    have h1 : l.Sorted (· < ·) := List.Sorted.of_cons h
    have h2 : ∀ z ∈ l, y < z := fun z hz => List.rel_of_sorted_cons h z hz
    unfold setInsert
    by_cases hxy : x < y
    · rw [if_pos hxy]
      refine List.pairwise_cons.mpr ⟨?_, h⟩
      intro z hz
      rcases List.mem_cons.mp hz with rfl | hz
      · exact hxy
      · exact lt_trans hxy (h2 z hz)
    · rw [if_neg hxy]
      by_cases he : x = y
      · rw [if_pos he]; exact h
      · rw [if_neg he]
        refine List.pairwise_cons.mpr ⟨?_, ih h1⟩
        intro z hz
        rcases (mem_setInsert x z l).mp hz with rfl | hz
        · exact lt_of_le_of_ne (not_lt.mp hxy) (fun e => he e.symm)
        · exact h2 z hz

theorem sorted_collectUncovered (cov l acc : List Int) (h : acc.Sorted (· < ·)) :
    (collectUncovered cov l acc).Sorted (· < ·) := by
  induction l generalizing acc with
  | nil => simpa [collectUncovered] using h
  | cons t l ih =>
    rw [collectUncovered]
    by_cases ht : t ∈ cov
    · rw [if_pos ht]; exact ih acc h
    · rw [if_neg ht]; exact ih _ (sorted_setInsert t acc h)

theorem collectRemaining_ok (V : Nat) (hV : V ≤ 20) (ess : List (List Char)) (unc : List Int)
    (pis : List (List Char)) (acc : List (List Char) × List (List Char × List Int)) :
    ∃ r, collectRemaining V ess unc pis acc = .ok r ∧
      (∀ p, p ∈ r.1 ↔ p ∈ acc.1 ∨ (p ∈ pis ∧ p ∉ ess ∧ coveredPure V p unc [] ≠ [])) ∧
      (∀ p, mapFind p r.2 =
        if p ∈ pis ∧ p ∉ ess ∧ coveredPure V p unc [] ≠ [] then some (coveredPure V p unc [])
        else mapFind p acc.2) := by
  induction pis generalizing acc with
  | nil => exact ⟨acc, rfl, fun p => by simp, fun p => by simp⟩
  | cons pi pis ih =>
    unfold collectRemaining
    by_cases hin : pi ∈ ess
    · rw [if_pos hin]
      obtain ⟨r, h1, h2, h3⟩ := ih acc
      refine ⟨r, h1, fun p => ?_, fun p => ?_⟩
      · rw [h2 p, List.mem_cons]
        constructor
        · rintro (h | ⟨h4, h5⟩)
          · exact Or.inl h
          · exact Or.inr ⟨Or.inr h4, h5⟩
        · rintro (h | ⟨(rfl | h4), h5⟩)
          · exact Or.inl h
          · exact absurd hin h5.1
          · exact Or.inr ⟨h4, h5⟩
      · rw [h3 p]
        have : (p ∈ pi :: pis ∧ p ∉ ess ∧ coveredPure V p unc [] ≠ []) ↔
            (p ∈ pis ∧ p ∉ ess ∧ coveredPure V p unc [] ≠ []) := by
          rw [List.mem_cons]
          constructor
          · rintro ⟨(rfl | h4), h5⟩
            · exact absurd hin h5.1
            · exact ⟨h4, h5⟩
          · rintro ⟨h4, h5⟩
            exact ⟨Or.inr h4, h5⟩
        simp only [this]
    · rw [if_neg hin]
      simp only [coveredSet_eq_ok V hV]
      by_cases hc : coveredPure V pi unc [] ≠ []
      · rw [if_pos hc]
        obtain ⟨r, h1, h2, h3⟩ := ih (acc.1 ++ [pi], mapAssign pi (coveredPure V pi unc []) acc.2)
        refine ⟨r, h1, fun p => ?_, fun p => ?_⟩
        · rw [h2 p, List.mem_cons, List.mem_append, List.mem_singleton]
          constructor
          · rintro ((h | rfl) | ⟨h4, h5⟩)
            · exact Or.inl h
            · exact Or.inr ⟨Or.inl rfl, hin, hc⟩
            · exact Or.inr ⟨Or.inr h4, h5⟩
          · rintro (h | ⟨(rfl | h4), h5⟩)
            · exact Or.inl (Or.inl h)
            · exact Or.inl (Or.inr rfl)
            · exact Or.inr ⟨h4, h5⟩
        · rw [h3 p]
          by_cases hp : p ∈ pis ∧ p ∉ ess ∧ coveredPure V p unc [] ≠ []
          · rw [if_pos hp, if_pos ⟨List.mem_cons_of_mem _ hp.1, hp.2⟩]
          · rw [if_neg hp]
            simp only
            rw [mapFind_mapAssign]
            by_cases hpp : p = pi
            · subst hpp
              rw [if_pos rfl, if_pos ⟨List.mem_cons_self _ _, hin, hc⟩]
            · rw [if_neg hpp]
              have : ¬ (p ∈ pi :: pis ∧ p ∉ ess ∧ coveredPure V p unc [] ≠ []) := by
                rintro ⟨h4, h5⟩
                rcases List.mem_cons.mp h4 with h6 | h6
                · exact hpp h6
                · exact hp ⟨h6, h5⟩
              rw [if_neg this]
      · rw [if_neg hc]
        obtain ⟨r, h1, h2, h3⟩ := ih acc
        refine ⟨r, h1, fun p => ?_, fun p => ?_⟩
        · rw [h2 p, List.mem_cons]
          constructor
          · rintro (h | ⟨h4, h5⟩)
            · exact Or.inl h
            · exact Or.inr ⟨Or.inr h4, h5⟩
          · rintro (h | ⟨(rfl | h4), h5⟩)
            · exact Or.inl h
            · exact absurd h5.2 hc
            · exact Or.inr ⟨h4, h5⟩
        · rw [h3 p]
          have : (p ∈ pi :: pis ∧ p ∉ ess ∧ coveredPure V p unc [] ≠ []) ↔
              (p ∈ pis ∧ p ∉ ess ∧ coveredPure V p unc [] ≠ []) := by
            rw [List.mem_cons]
            constructor
            · rintro ⟨(rfl | h4), h5⟩
              · exact absurd h5.2 hc
              · exact ⟨h4, h5⟩
            · rintro ⟨h4, h5⟩
              exact ⟨Or.inr h4, h5⟩
          simp only [this]

/-! ## Petrick's method: the clauses -/

theorem clauseRow_ok (rc : List (List Char × List Int)) (m : Int) (l : List (List Char))
    (hall : ∀ pi ∈ l, ∃ cov, mapFind pi rc = some cov)
    (mtp : List (Int × List (List Char))) (hm : MapOK mtp) :
    ∃ mtp2, clauseRow rc m l mtp = .ok mtp2 ∧ MapOK mtp2 ∧
      (∀ k t, InGroup mtp2 k t ↔ InGroup mtp k t ∨ (k = m ∧ t ∈ l ∧ m ∈ getVec rc t)) ∧
      (∀ k, k ∈ keys mtp2 → k ∈ keys mtp ∨ k = m) := by
  induction l generalizing mtp with
  | nil => exact ⟨mtp, rfl, hm, fun k t => by simp, fun k hk => Or.inl hk⟩
  | cons pi l ih =>
    obtain ⟨cov, hcov⟩ := hall pi (List.mem_cons_self _ _)
    have hall2 : ∀ p ∈ l, ∃ cov, mapFind p rc = some cov :=
      fun p hp => hall p (List.mem_cons_of_mem _ hp)
    have hvec : getVec rc pi = cov := by simp [getVec, hcov]
    simp only [clauseRow, mapAt, hcov]
    by_cases hin : m ∈ cov
    · rw [if_pos hin]
      obtain ⟨mtp2, h1, h2, h3, h4⟩ := ih hall2 _ (mapOK_mapPushBack m pi mtp hm)
      refine ⟨mtp2, h1, h2, fun k t => ?_, fun k hk => ?_⟩
      · rw [h3, inGroup_mapPushBack, List.mem_cons]
        constructor
        · rintro ((⟨rfl, rfl⟩ | h) | ⟨rfl, h5, h6⟩)
          · exact Or.inr ⟨rfl, Or.inl rfl, by rw [hvec]; exact hin⟩
          · exact Or.inl h
          · exact Or.inr ⟨rfl, Or.inr h5, h6⟩
        · rintro (h | ⟨rfl, (rfl | h5), h6⟩)
          · exact Or.inl (Or.inr h)
          · exact Or.inl (Or.inl ⟨rfl, rfl⟩)
          · exact Or.inr ⟨rfl, h5, h6⟩
      · rcases h4 k hk with h | h
        · rcases (keys_mapPushBack m pi mtp k).mp h with h | h
          · exact Or.inr h
          · exact Or.inl h
        · exact Or.inr h
    · rw [if_neg hin]
      obtain ⟨mtp2, h1, h2, h3, h4⟩ := ih hall2 mtp hm
      refine ⟨mtp2, h1, h2, fun k t => ?_, h4⟩
      rw [h3, List.mem_cons]
      constructor
      · rintro (h | ⟨rfl, h5, h6⟩)
        · exact Or.inl h
        · exact Or.inr ⟨rfl, Or.inr h5, h6⟩
      · rintro (h | ⟨rfl, (rfl | h5), h6⟩)
        · exact Or.inl h
        · rw [hvec] at h6; exact absurd h6 hin
        · exact Or.inr ⟨rfl, h5, h6⟩

theorem buildClauses_ok (rp : List (List Char)) (rc : List (List Char × List Int))
    (hall : ∀ pi ∈ rp, ∃ cov, mapFind pi rc = some cov) (unc : List Int)
    (mtp : List (Int × List (List Char))) (hm : MapOK mtp) :
    ∃ mtp2, buildClauses rp rc unc mtp = .ok mtp2 ∧ MapOK mtp2 ∧
      (∀ k t, InGroup mtp2 k t ↔ InGroup mtp k t ∨ (k ∈ unc ∧ t ∈ rp ∧ k ∈ getVec rc t)) ∧
      (∀ k, k ∈ keys mtp2 → k ∈ keys mtp ∨ k ∈ unc) := by
  induction unc generalizing mtp with
  | nil => exact ⟨mtp, rfl, hm, fun k t => by simp, fun k hk => Or.inl hk⟩
  | cons m unc ih =>
    obtain ⟨mtp1, h1, h2, h3, h4⟩ := clauseRow_ok rc m rp hall mtp hm
    obtain ⟨mtp2, h5, h6, h7, h8⟩ := ih mtp1 h2
    simp only [buildClauses, h1]
    refine ⟨mtp2, h5, h6, fun k t => ?_, fun k hk => ?_⟩
    · rw [h7, h3, List.mem_cons]
      constructor
      · rintro ((h | ⟨rfl, h9, h10⟩) | ⟨h9, h10⟩)
        · exact Or.inl h
        · exact Or.inr ⟨Or.inl rfl, h9, h10⟩
        · exact Or.inr ⟨Or.inr h9, h10⟩
      · rintro (h | ⟨(rfl | h9), h10⟩)
        · exact Or.inl (Or.inl h)
        · exact Or.inl (Or.inr ⟨rfl, h10⟩)
        · exact Or.inr ⟨h9, h10⟩
    · rcases h8 k hk with h | h
      · rcases h4 k h with h | h
        · exact Or.inl h
        · exact Or.inr (by rw [h]; exact List.mem_cons_self _ _)
      · exact Or.inr (List.mem_cons_of_mem _ h)

theorem entry_inGroup {κ α : Type} [LinearOrder κ] (m : List (κ × List α)) (hm : MapOK m)
    (k : κ) (g : List α) (hkg : (k, g) ∈ m) (t : α) : InGroup m k t ↔ t ∈ g := by
  classical
  constructor
  · rintro ⟨g2, hg2, ht⟩
    have e1 := (mem_iff_getVec m hm k g).mp hkg
    have e2 := (mem_iff_getVec m hm k g2).mp hg2
    rw [← e1.2, e2.2]
    exact ht
  · intro ht
    exact ⟨g, hkg, ht⟩

/-! ## Petrick's method: the product -/

theorem mem_multiplySol (sol clause : List (List Char)) (acc : List (List (List Char)))
    (s : List (List Char)) :
    s ∈ multiplySol sol clause acc ↔
      s ∈ acc ∨ ∃ pi ∈ clause, s = uniqueStd (sortStd (if pi ∈ sol then sol else sol ++ [pi])) := by
  induction clause generalizing acc with
  | nil => simp [multiplySol]
  | cons pi clause ih =>
    rw [multiplySol, ih]
    by_cases hin : uniqueStd (sortStd (if pi ∈ sol then sol else sol ++ [pi])) ∈ acc
    · rw [if_pos hin]
      constructor
      · rintro (h | ⟨p, hp, rfl⟩)
        · exact Or.inl h
        · exact Or.inr ⟨p, List.mem_cons_of_mem _ hp, rfl⟩
      · rintro (h | ⟨p, hp, rfl⟩)
        · exact Or.inl h
        · rcases List.mem_cons.mp hp with rfl | hp
          · exact Or.inl hin
          · exact Or.inr ⟨p, hp, rfl⟩
    · rw [if_neg hin, List.mem_append, List.mem_singleton]
      constructor
      · rintro ((h | rfl) | ⟨p, hp, rfl⟩)
        · exact Or.inl h
        · exact Or.inr ⟨pi, List.mem_cons_self _ _, rfl⟩
        · exact Or.inr ⟨p, List.mem_cons_of_mem _ hp, rfl⟩
      · rintro (h | ⟨p, hp, rfl⟩)
        · exact Or.inl (Or.inl h)
        · rcases List.mem_cons.mp hp with rfl | hp
          · exact Or.inl (Or.inr rfl)
          · exact Or.inr ⟨p, hp, rfl⟩

theorem mem_multiplyClause (clause : List (List Char)) (sols acc : List (List (List Char)))
    (s : List (List Char)) :
    s ∈ multiplyClause clause sols acc ↔
      s ∈ acc ∨ ∃ sol ∈ sols, ∃ pi ∈ clause,
        s = uniqueStd (sortStd (if pi ∈ sol then sol else sol ++ [pi])) := by
  induction sols generalizing acc with
  | nil => simp [multiplyClause]
  | cons sol sols ih =>
    rw [multiplyClause, ih, mem_multiplySol]
    constructor
    · rintro ((h | ⟨p, hp, rfl⟩) | ⟨sl, hsl, p, hp, rfl⟩)
      · exact Or.inl h
      · exact Or.inr ⟨sol, List.mem_cons_self _ _, p, hp, rfl⟩
      · exact Or.inr ⟨sl, List.mem_cons_of_mem _ hsl, p, hp, rfl⟩
    · rintro (h | ⟨sl, hsl, p, hp, rfl⟩)
      · exact Or.inl (Or.inl h)
      · rcases List.mem_cons.mp hsl with rfl | hsl
        · exact Or.inl (Or.inr ⟨p, hp, rfl⟩)
        · exact Or.inr ⟨sl, hsl, p, hp, rfl⟩

theorem mem_extend (sol : List (List Char)) (pi p : List Char) :
    p ∈ uniqueStd (sortStd (if pi ∈ sol then sol else sol ++ [pi])) ↔ p ∈ sol ∨ p = pi := by
  rw [mem_uniqueStd, mem_sortStd]
  by_cases h : pi ∈ sol
  · rw [if_pos h]
    constructor
    · exact Or.inl
    · rintro (h1 | rfl)
      · exact h1
      · exact h
  · rw [if_neg h, List.mem_append, List.mem_singleton]

theorem multiplyClause_hits (clause : List (List Char)) (sols : List (List (List Char)))
    (T : List Char → Prop) (hc : ∃ p ∈ clause, T p) (hs : ∃ sol ∈ sols, ∀ p ∈ sol, T p) :
    ∃ sol ∈ multiplyClause clause sols [], ∀ p ∈ sol, T p := by
  obtain ⟨pi, hpi, hT⟩ := hc
  obtain ⟨sol, hsol, hall⟩ := hs
  refine ⟨_, (mem_multiplyClause clause sols [] _).mpr (Or.inr ⟨sol, hsol, pi, hpi, rfl⟩), ?_⟩
  intro p hp
  rcases (mem_extend sol pi p).mp hp with h | rfl
  · exact hall p h
  · exact hT

theorem multiplyAll_hits (rest : List (Int × List (List Char))) :
    ∀ (sols : List (List (List Char))) (T : List Char → Prop),
      (∀ e ∈ rest, ∃ p ∈ e.2, T p) → (∃ sol ∈ sols, ∀ p ∈ sol, T p) →
      ∃ sol ∈ multiplyAll rest sols, ∀ p ∈ sol, T p := by
  induction rest with
  | nil => intro sols T _ h; simpa [multiplyAll] using h
  | cons e rest ih =>
    intro sols T hT hs
    obtain ⟨k, clause⟩ := e
    have h1 := multiplyClause_hits clause sols T (hT (k, clause) (List.mem_cons_self _ _)) hs
    rw [multiplyAll]
    split
    · exact h1
    · exact ih _ T (fun e he => hT e (List.mem_cons_of_mem _ he)) h1

theorem multiplyClause_ascending (clause : List (List Char)) (sols : List (List (List Char))) :
    ∀ sol ∈ multiplyClause clause sols [], Ascending sol := by
  intro s hs
  rcases (mem_multiplyClause clause sols [] s).mp hs with h | ⟨sol, _, pi, _, rfl⟩
  · simp at h
  · exact sorted_uniqueStd_sortStd _

theorem multiplyAll_ascending (rest : List (Int × List (List Char))) :
    ∀ (sols : List (List (List Char))), (∀ sol ∈ sols, Ascending sol) →
      ∀ sol ∈ multiplyAll rest sols, Ascending sol := by
  induction rest with
  | nil => intro sols h; simpa [multiplyAll] using h
  | cons e rest ih =>
    intro sols _
    obtain ⟨k, clause⟩ := e
    rw [multiplyAll]
    split
    · exact multiplyClause_ascending clause sols
    · exact ih _ (multiplyClause_ascending clause sols)

theorem minSizeLoop_le (l : List (List (List Char))) (n : Nat) :
    minSizeLoop l n ≤ n ∧ ∀ sol ∈ l, minSizeLoop l n ≤ sol.length := by
  induction l generalizing n with
  | nil => simp [minSizeLoop]
  | cons s l ih =>
    rw [minSizeLoop]
    by_cases hlt : s.length < n
    · rw [if_pos hlt]
      obtain ⟨h1, h2⟩ := ih s.length
      refine ⟨by omega, fun sol hsol => ?_⟩
      rcases List.mem_cons.mp hsol with rfl | hsol
      · exact h1
      · exact h2 sol hsol
    · rw [if_neg hlt]
      obtain ⟨h1, h2⟩ := ih n
      refine ⟨h1, fun sol hsol => ?_⟩
      rcases List.mem_cons.mp hsol with rfl | hsol
      · omega
      · exact h2 sol hsol

theorem minSizeLoop_attained (l : List (List (List Char))) (n : Nat) :
    minSizeLoop l n = n ∨ ∃ sol ∈ l, minSizeLoop l n = sol.length := by
  induction l generalizing n with
  | nil => simp [minSizeLoop]
  | cons s l ih =>
    rw [minSizeLoop]
    by_cases hlt : s.length < n
    · rw [if_pos hlt]
      rcases ih s.length with h | ⟨sol, hsol, h⟩
      · exact Or.inr ⟨s, List.mem_cons_self _ _, h⟩
      · exact Or.inr ⟨sol, List.mem_cons_of_mem _ hsol, h⟩
    · rw [if_neg hlt]
      rcases ih n with h | ⟨sol, hsol, h⟩
      · exact Or.inl h
      · exact Or.inr ⟨sol, List.mem_cons_of_mem _ hsol, h⟩

/-- The final selection keeps exactly the candidates of least size. -/
theorem mem_selectMinimal (sols : List (List (List Char))) (S : List (List Char)) :
    S ∈ selectMinimal sols ↔ S ∈ sols ∧ ∀ sol ∈ sols, S.length ≤ sol.length := by
  cases sols with
  | nil => simp [selectMinimal]
  | cons first rest =>
    simp only [selectMinimal, List.mem_filter, beq_iff_eq]
    obtain ⟨h1, h2⟩ := minSizeLoop_le (first :: rest) first.length
    constructor
    · rintro ⟨hS, he⟩
      exact ⟨hS, fun sol hsol => by rw [he]; exact h2 sol hsol⟩
    · rintro ⟨hS, hmin⟩
      refine ⟨hS, le_antisymm ?_ (h2 S hS)⟩
      rcases minSizeLoop_attained (first :: rest) first.length with h | ⟨sol, hsol, h⟩
      · rw [h]; exact hmin first (List.mem_cons_self _ _)
      · rw [h]; exact hmin sol hsol

theorem ascending_nodup {α : Type} [LinearOrder α] (l : List α) (h : Ascending l) : l.Nodup :=
  List.Sorted.nodup h

/-! ## Petrick's method as a whole -/

theorem petricksMethod_ok (q1 : State) (rp : List (List Char))
    (rc : List (List Char × List Int)) (unc : List Int) (hrp : rp ≠ []) (hunc : unc ≠ [])
    (hall : ∀ pi ∈ rp, ∃ cov, mapFind pi rc = some cov)
    (hcov : ∃ p ∈ rp, ∃ k ∈ unc, k ∈ getVec rc p) :
    ∃ k first rest, MapOK ((k, first) :: rest) ∧
      (∀ k2 t, InGroup ((k, first) :: rest) k2 t ↔ (k2 ∈ unc ∧ t ∈ rp ∧ k2 ∈ getVec rc t)) ∧
      (∀ k2 ∈ keys ((k, first) :: rest), k2 ∈ unc) ∧
      petricksMethod q1 rp rc unc = .ok { q1 with
        minimalSolutions := selectMinimal (multiplyAll rest (first.map fun pi => [pi])) } := by
  obtain ⟨mtp, h1, h2, h3, h4⟩ := buildClauses_ok rp rc hall unc [] mapOK_nil
  have h3b : ∀ k2 t, InGroup mtp k2 t ↔ (k2 ∈ unc ∧ t ∈ rp ∧ k2 ∈ getVec rc t) := by
    intro k2 t
    rw [h3]
    simp [inGroup_nil]
  have h4b : ∀ k2 ∈ keys mtp, k2 ∈ unc := by
    intro k2 hk2
    rcases h4 k2 hk2 with h | h
    · simp [keys] at h
    · exact h
  cases hm : mtp with
  | nil =>
    obtain ⟨p, hp, k, hk, hkp⟩ := hcov
    have := (h3b k p).mpr ⟨hk, hp, hkp⟩
    rw [hm] at this
    exact absurd this (inGroup_nil k p)
  | cons e rest =>
    obtain ⟨k, first⟩ := e
    rw [hm] at h1 h2 h3b h4b
    refine ⟨k, first, rest, h2, h3b, h4b, ?_⟩
    unfold petricksMethod
    have hcond : ¬ (rp = [] ∨ unc = []) := by tauto
    rw [if_neg hcond, h1]

theorem petricks_bound (rp : List (List Char)) (rc : List (List Char × List Int))
    (unc : List Int) (k : Int) (first : List (List Char)) (rest : List (Int × List (List Char)))
    (hok : MapOK ((k, first) :: rest))
    (hgrp : ∀ k2 t, InGroup ((k, first) :: rest) k2 t ↔ (k2 ∈ unc ∧ t ∈ rp ∧ k2 ∈ getVec rc t))
    (hkeys : ∀ k2 ∈ keys ((k, first) :: rest), k2 ∈ unc)
    (T : List Char → Prop) (hT : ∀ k2 ∈ unc, ∃ p, T p ∧ p ∈ rp ∧ k2 ∈ getVec rc p)
    (S : List (List Char))
    (hS : S ∈ selectMinimal (multiplyAll rest (first.map fun pi => [pi]))) :
    ∃ sol, Ascending sol ∧ (∀ p ∈ sol, T p) ∧ S.length ≤ sol.length := by
  have hhit : ∀ e ∈ (k, first) :: rest, ∃ p ∈ e.2, T p := by
    intro e he
    obtain ⟨k2, g⟩ := e
    have hk2 : k2 ∈ unc := hkeys k2 (List.mem_map.mpr ⟨(k2, g), he, rfl⟩)
    obtain ⟨p, hTp, hp, hkp⟩ := hT k2 hk2
    have hin := (hgrp k2 p).mpr ⟨hk2, hp, hkp⟩
    exact ⟨p, (entry_inGroup _ hok k2 g he p).mp hin, hTp⟩
  obtain ⟨p0, hp0, hTp0⟩ := hhit (k, first) (List.mem_cons_self _ _)
  have hinit : ∃ sol ∈ first.map (fun pi => [pi]), ∀ p ∈ sol, T p := by
    refine ⟨[p0], List.mem_map.mpr ⟨p0, hp0, rfl⟩, ?_⟩
    intro p hp
    rw [List.mem_singleton] at hp
    rw [hp]; exact hTp0
  obtain ⟨sol, hsol, hsub⟩ := multiplyAll_hits rest _ T
    (fun e he => hhit e (List.mem_cons_of_mem _ he)) hinit
  have hasc : Ascending sol := by
    refine multiplyAll_ascending rest _ ?_ sol hsol
    intro s hs
    obtain ⟨pi, _, rfl⟩ := List.mem_map.mp hs
    exact List.sorted_singleton pi
  exact ⟨sol, hasc, hsub, ((mem_selectMinimal _ S).mp hS).2 sol hsol⟩

/-! ## The selector as a whole -/

theorem selInv_init (cov0 : List (List Char × List Int)) :
    SelInv cov0 []
      { essentialPrimeImplicants := [], essentialPIs := [], coveredMinterms := [],
        implicantCoverage := cov0 } := by
  refine ⟨fun e => by simp, fun e => by simp, fun e => rfl, fun m => by simp⟩

theorem findEssentialPrimeImplicants_run (q : State) (hV : q.VARIABLES ≤ 20)
    (hne : q.primeImplicants ≠ []) :
    ∃ mc sel q2, findEssentialPrimeImplicants q = .ok q2 ∧ Selected q mc sel q2 ∧
      buildMintermCoverage q.VARIABLES q.mintermList q.primeImplicants [] = .ok mc ∧
      sel = selectEssential mc
        { essentialPrimeImplicants := [], essentialPIs := [], coveredMinterms := [],
          implicantCoverage := q.implicantCoverage } := by
  obtain ⟨mc, hmc1, hmc2, hmc3⟩ :=
    buildMintermCoverage_ok q.VARIABLES hV q.mintermList q.primeImplicants [] mapOK_nil
  have hvec : ∀ k, getVec mc k = clauseOf q.VARIABLES q.mintermList k q.primeImplicants := by
    intro k
    rw [hmc3 k]
    simp [getVec, mapFind]
  have hsel := selectEssential_inv q.implicantCoverage mc [] _ (selInv_init q.implicantCoverage)
  rw [List.nil_append] at hsel
  unfold findEssentialPrimeImplicants
  rw [if_neg hne, hmc1]
  simp only
  generalize hseleq : selectEssential mc
      { essentialPrimeImplicants := [], essentialPIs := [], coveredMinterms := [],
        implicantCoverage := q.implicantCoverage } = sel at hsel ⊢
  have hunc : ∀ m, m ∈ collectUncovered sel.coveredMinterms q.mintermList [] ↔
      m ∈ q.mintermList ∧ m ∉ sel.coveredMinterms := by
    intro m
    rw [mem_collectUncovered]
    simp
  have hasc : Ascending (collectUncovered sel.coveredMinterms q.mintermList []) :=
    sorted_collectUncovered _ _ [] List.sorted_nil
  generalize collectUncovered sel.coveredMinterms q.mintermList [] = unc at hunc hasc ⊢
  by_cases hu : unc = []
  · rw [if_pos hu]
    exact ⟨mc, sel, _, rfl, ⟨hmc2, hvec, hsel, rfl, rfl, rfl, rfl, rfl, hunc, hasc,
      fun _ => rfl, fun h => absurd hu h⟩, rfl, hseleq.symm⟩
  · rw [if_neg hu]
    obtain ⟨r, hr1, hr2, hr3⟩ :=
      collectRemaining_ok q.VARIABLES hV sel.essentialPIs unc q.primeImplicants ([], [])
    obtain ⟨rp, rc⟩ := r
    have hrem : Remaining q.VARIABLES q.primeImplicants sel.essentialPIs unc rp rc := by
      refine ⟨fun p => ?_, fun p => ?_⟩
      · rw [hr2 p]; simp
      · rw [hr3 p]; simp [mapFind]
    rw [hr1]
    simp only
    by_cases hrp : rp = []
    · rw [if_pos hrp]
      exact ⟨mc, sel, _, rfl, ⟨hmc2, hvec, hsel, rfl, rfl, rfl, rfl, rfl, hunc, hasc,
        fun h => absurd h hu, fun _ => ⟨rp, rc, hrem, fun _ => rfl, fun h => absurd hrp h⟩⟩,
        rfl, hseleq.symm⟩
    · rw [if_neg hrp]
      have hall : ∀ pi ∈ rp, ∃ cov, mapFind pi rc = some cov := by
        intro pi hpi
        refine ⟨coveredPure q.VARIABLES pi unc [], ?_⟩
        rw [hrem.2 pi, if_pos ((hrem.1 pi).mp hpi)]
      have hcov : ∃ p ∈ rp, ∃ k ∈ unc, k ∈ getVec rc p := by
        obtain ⟨p, hp⟩ := List.exists_mem_of_ne_nil rp hrp
        have hp2 := (hrem.1 p).mp hp
        obtain ⟨k, hk⟩ := List.exists_mem_of_ne_nil _ hp2.2.2
        have hk2 := (mem_coveredPure q.VARIABLES p unc [] k).mp hk
        simp only [List.not_mem_nil, false_or] at hk2
        refine ⟨p, hp, k, hk2.1, ?_⟩
        simp only [getVec, hrem.2 p, if_pos hp2, Option.getD_some]
        exact hk
      obtain ⟨k, first, rest, h1, h2, h3, h4⟩ := petricksMethod_ok
        { q with
          essentialPrimeImplicants := sel.essentialPrimeImplicants
          implicantCoverage := sel.implicantCoverage
          uncoveredMintermsAfterEPI := unc } rp rc unc hrp hu hall hcov
      rw [h4]
      exact ⟨mc, sel, _, rfl, ⟨hmc2, hvec, hsel, rfl, rfl, rfl, rfl, rfl, hunc, hasc,
        fun h => absurd h hu,
        fun _ => ⟨rp, rc, hrem, fun h => absurd h hrp,
          fun _ => ⟨k, first, rest, ⟨h1, h2, h3⟩, rfl⟩⟩⟩, rfl, hseleq.symm⟩

/-! ## Consequences for a generated state -/

theorem essential_mem_prime (q : State) (mc : List (Int × List (List Char))) (sel : Selection)
    (q2 : State) (hsel : Selected q mc sel q2) (e : List Char) (he : e ∈ sel.essentialPIs) :
    e ∈ q.primeImplicants := by
  obtain ⟨hok, hvec, hinv, _⟩ := hsel
  obtain ⟨k, hk⟩ := (hinv.2.1 e).mp he
  have h1 := ((mem_iff_getVec mc hok k [e]).mp hk).2
  rw [hvec k] at h1
  have : e ∈ clauseOf q.VARIABLES q.mintermList k q.primeImplicants := by rw [h1]; simp
  exact ((mem_clauseOf _ _ _ _ _).mp this).1

/-- After generation, the set stored in `implicantCoverage` for a prime implicant is the
set of minterms it covers. -/
theorem generated_getVec (V : Nat) (mt dc : List Int) (q : State) (hgen : Generated V mt dc q)
    (p : List Char) (hp : p ∈ q.primeImplicants) (m : Int) :
    m ∈ getVec q.implicantCoverage p ↔ m ∈ mt ∧ covers p (lowBits V m) = true := by
  have h := hgen.2.2.2.2.2.1 p
  unfold getVec
  rw [h]
  by_cases hc : coveredPure V p mt [] ≠ []
  · rw [if_pos ⟨hp, hc⟩, Option.getD_some, mem_coveredPure]
    simp
  · rw [if_neg (fun h => hc h.2), Option.getD_none]
    have hnil : coveredPure V p mt [] = [] := by simpa using hc
    constructor
    · intro h; simp at h
    · intro h
      have : m ∈ coveredPure V p mt [] := (mem_coveredPure V p mt [] m).mpr (Or.inr h)
      rw [hnil] at this
      exact this

/-- After generation and selection, the residual minterms are exactly the minterms that no
essential prime implicant covers. -/
theorem residual_iff (V : Nat) (mt dc : List Int) (q : State) (hgen : Generated V mt dc q)
    (mc : List (Int × List (List Char))) (sel : Selection) (q2 : State)
    (hsel : Selected q mc sel q2) (m : Int) :
    m ∈ q2.uncoveredMintermsAfterEPI ↔
      m ∈ mt ∧ ∀ e ∈ sel.essentialPIs, covers e (lowBits V m) = false := by
  have hsel2 := hsel
  obtain ⟨hok, hvec, hinv, _, _, _, _, _, hunc, _⟩ := hsel
  rw [hunc m, hgen.2.1, hinv.2.2.2 m]
  constructor
  · rintro ⟨h1, h2⟩
    refine ⟨h1, fun e he => ?_⟩
    by_contra hc
    have hc2 : covers e (lowBits V m) = true := by simpa using hc
    obtain ⟨k, hk⟩ := (hinv.2.1 e).mp he
    exact h2 ⟨e, k, hk, (generated_getVec V mt dc q hgen e
      (essential_mem_prime q mc sel q2 hsel2 e he) m).mpr ⟨h1, hc2⟩⟩
  · rintro ⟨h1, h2⟩
    refine ⟨h1, ?_⟩
    rintro ⟨e, k, hk, hm⟩
    have he : e ∈ sel.essentialPIs := (hinv.2.1 e).mpr ⟨k, hk⟩
    have := (generated_getVec V mt dc q hgen e
      (essential_mem_prime q mc sel q2 hsel2 e he) m).mp hm
    rw [h2 e he] at this
    exact absurd this.2 (by simp)

theorem remaining_getVec (V : Nat) (pis ess : List (List Char)) (unc : List Int)
    (rp : List (List Char)) (rc : List (List Char × List Int))
    (h : Remaining V pis ess unc rp rc) (p : List Char) (k : Int) :
    (p ∈ rp ∧ k ∈ getVec rc p) ↔
      (p ∈ pis ∧ p ∉ ess ∧ k ∈ unc ∧ covers p (lowBits V k) = true) := by
  obtain ⟨h1, h2⟩ := h
  constructor
  · rintro ⟨hp, hk⟩
    have hp2 := (h1 p).mp hp
    simp only [getVec, h2 p, if_pos hp2, Option.getD_some, mem_coveredPure, List.not_mem_nil,
      false_or] at hk
    exact ⟨hp2.1, hp2.2.1, hk⟩
  · rintro ⟨hp, he, hk, hc⟩
    have hmem : k ∈ coveredPure V p unc [] := (mem_coveredPure V p unc [] k).mpr (Or.inr ⟨hk, hc⟩)
    have hp2 : p ∈ pis ∧ p ∉ ess ∧ coveredPure V p unc [] ≠ [] :=
      ⟨hp, he, List.ne_nil_of_mem hmem⟩
    refine ⟨(h1 p).mpr hp2, ?_⟩
    simp only [getVec, h2 p, if_pos hp2, Option.getD_some]
    exact hmem

/-- Every implicant pattern lies inside a prime implicant. -/
theorem exists_prime_above (V : Nat) (S : List (List Char)) (s : List Char)
    (hs : IsBinary V s) (n : Nat) :
    ∀ (r : Nat) (p : List Char), Level V S r p → V - r ≤ n → covers p s = true →
      ∃ P, Prime V S P ∧ covers P s = true := by
  induction n with
  | zero =>
    intro r p hp hn hc
    refine ⟨p, (prime_iff_unmerged V S r p hp).mpr ?_, hc⟩
    rintro ⟨b, hb, hadj⟩
    have := level_bound V S (r + 1) _ (level_merge V S r p b hp hb hadj).1
    omega
  | succ n ih =>
    intro r p hp hn hc
    by_cases hprime : Prime V S p
    · exact ⟨p, hprime, hc⟩
    · rw [prime_iff_unmerged V S r p hp, not_not] at hprime
      obtain ⟨b, hb, hadj⟩ := hprime
      obtain ⟨h1, _, h3, _⟩ := level_merge V S r p b hp hb hadj
      have := level_bound V S (r + 1) _ h1
      exact ih (r + 1) _ h1 (by omega) (h3 s hs hc)

/-- Every minterm and every don't-care is covered by a prime implicant. -/
theorem term_covered_by_prime (V : Nat) (hV : V ≤ 20) (mt dc : List Int) (t : Int)
    (ht : t ∈ mt ∨ t ∈ dc) :
    ∃ P, Prime V (binaryTermsOf V mt dc) P ∧ covers P (lowBits V t) = true := by
  have hb := lowBits_binary V hV t
  have hmem : lowBits V t ∈ binaryTermsOf V mt dc :=
    (mem_binaryTermsOf V mt dc _).mpr ⟨t, ht, rfl⟩
  have hl := (level_zero V _ (binaryTermsOf_binary V hV mt dc) _).mp hmem
  exact exists_prime_above V _ _ hb V 0 _ hl (by omega) (covers_self _)

/-- Generation followed by selection on a fresh object returns; with a non-empty list of
prime implicants the run is described by `Selected`. -/
theorem pipeline_run (V : Nat) (hV : V ≤ 20) (mt dc : List Int) (fuel : Nat)
    (hfuel : V + 1 ≤ fuel) :
    ∃ q q2, generatePrimeImplicants fuel (fresh V mt dc) = .ok q ∧ Generated V mt dc q ∧
      findEssentialPrimeImplicants q = .ok q2 ∧
      ((q.primeImplicants = [] ∧ q2.minimalSolutions = [] ∧ q2.essentialPrimeImplicants = [] ∧
          q2.uncoveredMintermsAfterEPI = [] ∧ q2.primeImplicants = []) ∨
        (q.primeImplicants ≠ [] ∧ ∃ mc sel, Selected q mc sel q2 ∧
          buildMintermCoverage V mt q.primeImplicants [] = .ok mc ∧
          sel = selectEssential mc
            { essentialPrimeImplicants := [], essentialPIs := [], coveredMinterms := [],
              implicantCoverage := q.implicantCoverage })) := by
  obtain ⟨q, hq, hgen⟩ := generatePrimeImplicants_spec V hV mt dc fuel hfuel
  by_cases hne : q.primeImplicants = []
  · have hrun : findEssentialPrimeImplicants q =
        .ok { q with essentialPrimeImplicants := [], minimalSolutions := [] } := by
      unfold findEssentialPrimeImplicants
      rw [if_pos hne]
    exact ⟨q, _, hq, hgen, hrun, Or.inl ⟨hne, rfl, rfl, hgen.2.2.2.2.2.2.2.2, hne⟩⟩
  · have hV2 : q.VARIABLES ≤ 20 := by rw [hgen.1]; exact hV
    obtain ⟨mc, sel, q2, h1, h2, h3, h4⟩ := findEssentialPrimeImplicants_run q hV2 hne
    rw [hgen.1, hgen.2.1] at h3
    exact ⟨q, q2, hq, hgen, h1, Or.inr ⟨hne, mc, sel, h2, h3, h4⟩⟩

/-! ## Minimality of the selected covers -/

theorem minimalSolutions_bound (V : Nat) (mt dc : List Int) (q : State)
    (hgen : Generated V mt dc q) (mc : List (Int × List (List Char))) (sel : Selection)
    (q2 : State) (hsel : Selected q mc sel q2) (S : List (List Char))
    (hS : S ∈ q2.minimalSolutions) (T : List Char → Prop)
    (hT : ∀ m ∈ q2.uncoveredMintermsAfterEPI,
      ∃ p, T p ∧ p ∈ q.primeImplicants ∧ covers p (lowBits V m) = true) :
    ∃ sol, Ascending sol ∧ (∀ p ∈ sol, T p) ∧ S.length ≤ sol.length := by
  have hres := residual_iff V mt dc q hgen mc sel q2 hsel
  obtain ⟨_, _, _, _, _, _, _, _, _, _, hempty, hrest⟩ := hsel
  have hunc : q2.uncoveredMintermsAfterEPI ≠ [] := by
    intro h
    rw [hempty h] at hS
    exact absurd hS (List.not_mem_nil S)
  obtain ⟨rp, rc, hrem, hrp0, hrp1⟩ := hrest hunc
  have hrp : rp ≠ [] := by
    intro h
    rw [hrp0 h] at hS
    exact absurd hS (List.not_mem_nil S)
  obtain ⟨k, first, rest, ⟨hok, hgrp, hkeys⟩, hmin⟩ := hrp1 hrp
  rw [hmin] at hS
  refine petricks_bound rp rc _ k first rest hok hgrp hkeys T ?_ S hS
  intro m hm
  obtain ⟨p, hTp, hp, hc⟩ := hT m hm
  have hne : p ∉ sel.essentialPIs := by
    intro he
    have := ((hres m).mp hm).2 p he
    rw [hc] at this
    exact absurd this (by simp)
  rw [hgen.1] at hrem
  have := (remaining_getVec V _ _ _ rp rc hrem p m).mpr ⟨hp, hne, hm, hc⟩
  exact ⟨p, hTp, this.1, this.2⟩

theorem minimalSolutions_ascending (q : State) (mc : List (Int × List (List Char)))
    (sel : Selection) (q2 : State) (hsel : Selected q mc sel q2) (S : List (List Char))
    (hS : S ∈ q2.minimalSolutions) : Ascending S := by
  obtain ⟨_, _, _, _, _, _, _, _, _, _, hempty, hrest⟩ := hsel
  have hunc : q2.uncoveredMintermsAfterEPI ≠ [] := by
    intro h
    rw [hempty h] at hS
    exact absurd hS (List.not_mem_nil S)
  obtain ⟨rp, rc, _, hrp0, hrp1⟩ := hrest hunc
  have hrp : rp ≠ [] := by
    intro h
    rw [hrp0 h] at hS
    exact absurd hS (List.not_mem_nil S)
  obtain ⟨k, first, rest, _, hmin⟩ := hrp1 hrp
  rw [hmin] at hS
  refine multiplyAll_ascending rest _ ?_ S ((mem_selectMinimal _ S).mp hS).1
  intro s hs
  obtain ⟨pi, _, rfl⟩ := List.mem_map.mp hs
  exact List.sorted_singleton pi

/-- C4: for every valid input, generation followed by selection on a fresh object (with
fuel for `V + 1` passes) returns, and every solution `S` of `minimalSolutions` is a
duplicate-free list such that no set `T` of prime implicants that covers every residual
minterm has fewer elements than `S`. -/
theorem minimalSolutions_minimal (V : Nat) (mt dc : List Int) (fuel : Nat)
    (hv : ValidInput V mt dc) (hfuel : V + 1 ≤ fuel) :
    ∃ q q2, generatePrimeImplicants fuel (fresh V mt dc) = .ok q ∧
      findEssentialPrimeImplicants q = .ok q2 ∧
      ∀ S ∈ q2.minimalSolutions, S.Nodup ∧
        ∀ T : Finset (List Char), (∀ p ∈ T, p ∈ q2.primeImplicants) →
          (∀ m ∈ q2.uncoveredMintermsAfterEPI, ∃ p ∈ T, coversInt V p m = .ok true) →
          ¬ T.card < S.length := by
  have hV := hv.1.2
  obtain ⟨q, q2, hq, hgen, hq2, hcase⟩ := pipeline_run V hV mt dc fuel hfuel
  refine ⟨q, q2, hq, hq2, fun S hS => ?_⟩
  rcases hcase with ⟨_, hnil, _⟩ | ⟨_, mc, sel, hsel, _, _⟩
  · rw [hnil] at hS
    exact absurd hS (List.not_mem_nil S)
  · have hasc := minimalSolutions_ascending q mc sel q2 hsel S hS
    refine ⟨ascending_nodup S hasc, fun T hTp hTc => ?_⟩
    have hp2 : q2.primeImplicants = q.primeImplicants := hsel.2.2.2.2.2.2.1
    obtain ⟨sol, hsol, hsub, hle⟩ := minimalSolutions_bound V mt dc q hgen mc sel q2 hsel S hS
      (fun p => p ∈ T) (by
        intro m hm
        obtain ⟨p, hp, hc⟩ := hTc m hm
        exact ⟨p, hp, by rw [← hp2]; exact hTp p hp, (coversInt_true_iff V hV p m).mp hc⟩)
    have hcard : sol.length ≤ T.card := by
      rw [← List.toFinset_card_of_nodup (ascending_nodup sol hsol)]
      apply Finset.card_le_card
      intro p hp
      exact hsub p (List.mem_toFinset.mp hp)
    omega

theorem minimalSolutions_minimal_witness :
    ∃ q q2, generatePrimeImplicants 5 (fresh 4 [4, 8, 10, 11, 12, 15] [9, 14]) = .ok q ∧
      findEssentialPrimeImplicants q = .ok q2 ∧
      ∀ S ∈ q2.minimalSolutions, S.Nodup ∧
        ∀ T : Finset (List Char), (∀ p ∈ T, p ∈ q2.primeImplicants) →
          (∀ m ∈ q2.uncoveredMintermsAfterEPI, ∃ p ∈ T, coversInt 4 p m = .ok true) →
          ¬ T.card < S.length :=
  minimalSolutions_minimal 4 [4, 8, 10, 11, 12, 15] [9, 14] 5
    (by unfold ValidInput InRange; decide) (by decide)

/-! ## The internal-consistency branch -/

/-- C7: for every valid input, generation followed by selection on a fresh object (with
fuel for `V + 1` passes) returns; every residual minterm is covered by a prime implicant
that is not essential; and when the residual list is non-empty, the loop that collects
`remainingPIs` (run on the local variables of the call) yields a non-empty list, so the
`remainingPIs.empty()` branch is not taken. -/
theorem remainingPIs_nonempty (V : Nat) (mt dc : List Int) (fuel : Nat)
    (hv : ValidInput V mt dc) (hfuel : V + 1 ≤ fuel) :
    ∃ q q2, generatePrimeImplicants fuel (fresh V mt dc) = .ok q ∧
      findEssentialPrimeImplicants q = .ok q2 ∧
      (∀ m ∈ q2.uncoveredMintermsAfterEPI, ∃ p ∈ q2.primeImplicants,
        p ∉ q2.essentialPrimeImplicants ∧ coversInt V p m = .ok true) ∧
      (q2.uncoveredMintermsAfterEPI ≠ [] →
        ∃ mc rp rc, buildMintermCoverage V mt q.primeImplicants [] = .ok mc ∧
          collectRemaining V
            (selectEssential mc
              { essentialPrimeImplicants := [], essentialPIs := [], coveredMinterms := [],
                implicantCoverage := q.implicantCoverage }).essentialPIs
            q2.uncoveredMintermsAfterEPI q.primeImplicants ([], []) = .ok (rp, rc) ∧
          rp ≠ []) := by
  have hV := hv.1.2
  obtain ⟨q, q2, hq, hgen, hq2, hcase⟩ := pipeline_run V hV mt dc fuel hfuel
  refine ⟨q, q2, hq, hq2, ?_⟩
  rcases hcase with ⟨_, _, _, hunc, _⟩ | ⟨_, mc, sel, hsel, hmc, hseleq⟩
  · rw [hunc]
    exact ⟨fun m hm => absurd hm (List.not_mem_nil m), fun h => absurd rfl h⟩
  · have hres := residual_iff V mt dc q hgen mc sel q2 hsel
    have hp2 : q2.primeImplicants = q.primeImplicants := hsel.2.2.2.2.2.2.1
    have hess : ∀ e, e ∈ q2.essentialPrimeImplicants ↔ e ∈ sel.essentialPIs := by
      intro e
      rw [hsel.2.2.2.2.2.2.2.1, hsel.2.2.1.1 e, hsel.2.2.1.2.1 e]
    have hcov : ∀ m ∈ q2.uncoveredMintermsAfterEPI, ∃ p ∈ q.primeImplicants,
        p ∉ sel.essentialPIs ∧ covers p (lowBits V m) = true := by
      intro m hm
      obtain ⟨hmt, hno⟩ := (hres m).mp hm
      obtain ⟨P, hP, hc⟩ := term_covered_by_prime V hV mt dc m (Or.inl hmt)
      refine ⟨P, (hgen.2.2.2.1 P).mpr hP, ?_, hc⟩
      intro he
      rw [hno P he] at hc
      exact absurd hc (by simp)
    constructor
    · intro m hm
      obtain ⟨p, hp, hne, hc⟩ := hcov m hm
      exact ⟨p, by rw [hp2]; exact hp, fun h => hne ((hess p).mp h),
        (coversInt_true_iff V hV p m).mpr hc⟩
    · intro hne
      obtain ⟨r, hr1, hr2, _⟩ := collectRemaining_ok V hV sel.essentialPIs
        q2.uncoveredMintermsAfterEPI q.primeImplicants ([], [])
      obtain ⟨rp, rc⟩ := r
      refine ⟨mc, rp, rc, hmc, by rw [← hseleq]; exact hr1, ?_⟩
      obtain ⟨m, hm⟩ := List.exists_mem_of_ne_nil _ hne
      obtain ⟨p, hp, hpe, hc⟩ := hcov m hm
      have hmem : m ∈ coveredPure V p q2.uncoveredMintermsAfterEPI [] :=
        (mem_coveredPure V p _ [] m).mpr (Or.inr ⟨hm, hc⟩)
      exact List.ne_nil_of_mem ((hr2 p).mpr (Or.inr ⟨hp, hpe, List.ne_nil_of_mem hmem⟩))

theorem remainingPIs_nonempty_witness :
    ∃ q q2, generatePrimeImplicants 5 (fresh 4 [4, 8, 10, 11, 12, 15] [9, 14]) = .ok q ∧
      findEssentialPrimeImplicants q = .ok q2 ∧
      (∀ m ∈ q2.uncoveredMintermsAfterEPI, ∃ p ∈ q2.primeImplicants,
        p ∉ q2.essentialPrimeImplicants ∧ coversInt 4 p m = .ok true) ∧
      (q2.uncoveredMintermsAfterEPI ≠ [] →
        ∃ mc rp rc, buildMintermCoverage 4 [4, 8, 10, 11, 12, 15] q.primeImplicants [] = .ok mc ∧
          collectRemaining 4
            (selectEssential mc
              { essentialPrimeImplicants := [], essentialPIs := [], coveredMinterms := [],
                implicantCoverage := q.implicantCoverage }).essentialPIs
            q2.uncoveredMintermsAfterEPI q.primeImplicants ([], []) = .ok (rp, rc) ∧
          rp ≠ []) :=
  remainingPIs_nonempty 4 [4, 8, 10, 11, 12, 15] [9, 14] 5
    (by unfold ValidInput InRange; decide) (by decide)

/-! ## Essential prime implicants -/

theorem eq_singleton_of_nodup {α : Type} (l : List α) (e : α) (hnd : l.Nodup) (he : e ∈ l)
    (hall : ∀ x ∈ l, x = e) : l = [e] := by
  cases l with
  | nil => simp at he
  | cons a l =>
    have ha : a = e := hall a (List.mem_cons_self _ _)
    subst ha
    cases l with
    | nil => rfl
    | cons b l =>
      have hb : b = a := hall b (by simp)
      subst hb
      simp at hnd

theorem filter_eq_singleton_iff (pis : List (List Char)) (hnd : pis.Nodup)
    (f : List Char → Bool) (e : List Char) :
    pis.filter f = [e] ↔ e ∈ pis ∧ f e = true ∧ ∀ p ∈ pis, f p = true → p = e := by
  constructor
  · intro h
    have he : e ∈ pis.filter f := by rw [h]; simp
    rw [List.mem_filter] at he
    refine ⟨he.1, he.2, fun p hp hf => ?_⟩
    have : p ∈ pis.filter f := List.mem_filter.mpr ⟨hp, hf⟩
    rw [h] at this
    simpa using this
  · rintro ⟨h1, h2, h3⟩
    apply eq_singleton_of_nodup _ e (hnd.filter f) (List.mem_filter.mpr ⟨h1, h2⟩)
    intro x hx
    rw [List.mem_filter] at hx
    exact h3 x hx.1 hx.2

/-- C5 (counterexample): with one variable and the minterm list `[0, 0]` (the term 0 given
twice), the only prime implicant is `0` and it is the only pattern covering the minterm
0, yet `essentialPrimeImplicants` is empty: the index holds `0` twice under that minterm
and the size test `== 1` fails. -/
theorem essential_duplicate_counterexample :
    ∃ q q2, generatePrimeImplicants 2 (fresh 1 [0, 0] []) = .ok q ∧
      findEssentialPrimeImplicants q = .ok q2 ∧
      q.primeImplicants = [['0']] ∧ q.primeImplicants.Nodup ∧ (0 : Int) ∈ q.mintermList ∧
      coversInt 1 ['0'] 0 = .ok true ∧
      (∀ p ∈ q.primeImplicants, coversInt 1 p 0 = .ok true → p = ['0']) ∧
      ['0'] ∉ q2.essentialPrimeImplicants := by
  refine ⟨State.mk 1 [0, 0] [] [['0']] [] [(['0'], [0])] [] [],
    State.mk 1 [0, 0] [] [['0']] [] [(['0'], [0])] [[['0']]] [0], ?_, ?_, ?_⟩
  · decide
  · decide
  · decide

/-- C5 (amended): on an object with `VARIABLES` in 1..20 whose `primeImplicants` is
non-empty and duplicate-free and whose `mintermList` is duplicate-free,
`findEssentialPrimeImplicants` returns, and a pattern `P` is in `essentialPrimeImplicants`
exactly when `P` is in `primeImplicants` and some minterm `m` of `mintermList` is covered
by `P` and by no other pattern of `primeImplicants`. -/
theorem essential_iff_unique_cover (q : State) (hV : 1 ≤ q.VARIABLES ∧ q.VARIABLES ≤ 20)
    (hne : q.primeImplicants ≠ []) (hnd : q.primeImplicants.Nodup)
    (hml : q.mintermList.Nodup) :
    ∃ q2, findEssentialPrimeImplicants q = .ok q2 ∧
      ∀ P, P ∈ q2.essentialPrimeImplicants ↔
        (P ∈ q.primeImplicants ∧ ∃ m ∈ q.mintermList,
          coversInt q.VARIABLES P m = .ok true ∧
          ∀ p ∈ q.primeImplicants, coversInt q.VARIABLES p m = .ok true → p = P) := by
  obtain ⟨mc, sel, q2, hrun, hsel, _, _⟩ := findEssentialPrimeImplicants_run q hV.2 hne
  refine ⟨q2, hrun, fun P => ?_⟩
  obtain ⟨hok, hvec, hinv, _, _, _, _, hess, _⟩ := hsel
  rw [hess, hinv.1 P]
  have hentry : ∀ k, (k, [P]) ∈ mc ↔
      clauseOf q.VARIABLES q.mintermList k q.primeImplicants = [P] := by
    intro k
    rw [mem_iff_getVec mc hok k [P], hvec k]
    simp
  constructor
  · rintro ⟨k, hk⟩
    rw [hentry k] at hk
    have hPin : P ∈ clauseOf q.VARIABLES q.mintermList k q.primeImplicants := by
      rw [hk]; simp
    have hkml := ((mem_clauseOf _ _ _ _ _).mp hPin).2.2
    rw [clauseOf_nodup q.VARIABLES q.mintermList hml k hkml, filter_eq_singleton_iff _ hnd] at hk
    refine ⟨hk.1, k, hkml, (coversInt_true_iff _ hV.2 P k).mpr hk.2.1, fun p hp hc => ?_⟩
    exact hk.2.2 p hp ((coversInt_true_iff _ hV.2 p k).mp hc)
  · rintro ⟨hP, k, hkml, hc, hall⟩
    refine ⟨k, (hentry k).mpr ?_⟩
    rw [clauseOf_nodup q.VARIABLES q.mintermList hml k hkml, filter_eq_singleton_iff _ hnd]
    exact ⟨hP, (coversInt_true_iff _ hV.2 P k).mp hc,
      fun p hp hcp => hall p hp ((coversInt_true_iff _ hV.2 p k).mpr hcp)⟩

theorem essential_iff_unique_cover_witness :
    ∃ q2, findEssentialPrimeImplicants
        { VARIABLES := 1, mintermList := [0], dontCareList := [],
          primeImplicants := [['0']], essentialPrimeImplicants := [],
          implicantCoverage := [(['0'], [0])], minimalSolutions := [],
          uncoveredMintermsAfterEPI := [] } = .ok q2 ∧
      ∀ P, P ∈ q2.essentialPrimeImplicants ↔
        (P ∈ [['0']] ∧ ∃ m ∈ ([0] : List Int),
          coversInt 1 P m = .ok true ∧
          ∀ p ∈ [['0']], coversInt 1 p m = .ok true → p = P) :=
  essential_iff_unique_cover
    { VARIABLES := 1, mintermList := [0], dontCareList := [],
      primeImplicants := [['0']], essentialPrimeImplicants := [],
      implicantCoverage := [(['0'], [0])], minimalSolutions := [],
      uncoveredMintermsAfterEPI := [] }
    (by decide) (by decide) (by decide) (by decide)

/-! ## The early exit of Petrick's method on concrete inputs -/

/-- C1 (failing input): for `V = 4` and minterms 0, 1, 5, 7, 10, 14, 15 (no don't-cares)
the essential prime implicants are `000-` and `1-10`, the residual minterms are 5, 7, 15,
and the only solution returned is `01-1`: the product stops after the clause of minterm 7,
so minterm 15 is covered neither by an essential implicant nor by the solution. -/
theorem coverage_gap_four_variables :
    ((generatePrimeImplicants 5 (fresh 4 [0, 1, 5, 7, 10, 14, 15] [])).bind
        findEssentialPrimeImplicants).map
      (fun q => (q.essentialPrimeImplicants, q.uncoveredMintermsAfterEPI, q.minimalSolutions)) =
      .ok ([['0', '0', '0', '-'], ['1', '-', '1', '0']], [5, 7, 15],
        [[['0', '1', '-', '1']]]) ∧
    coversInt 4 ['0', '0', '0', '-'] 15 = .ok false ∧
    coversInt 4 ['1', '-', '1', '0'] 15 = .ok false ∧
    coversInt 4 ['0', '1', '-', '1'] 15 = .ok false := by
  decide

/-- C3 (failing input): Petrick's method called with the residual minterms 5, 7, 15 and
the implicants `-111`, `0-01`, `01-1`, `111-` (coverage 7 and 15; 5; 5 and 7; 15) returns
the single solution `01-1`, whose coverage does not contain 15, while no single implicant
covers the three minterms. -/
theorem petricksMethod_early_exit :
    (petricksMethod (fresh 4 [0, 1, 5, 7, 10, 14, 15] [])
        [['-', '1', '1', '1'], ['0', '-', '0', '1'], ['0', '1', '-', '1'], ['1', '1', '1', '-']]
        [(['-', '1', '1', '1'], [7, 15]), (['0', '-', '0', '1'], [5]),
          (['0', '1', '-', '1'], [5, 7]), (['1', '1', '1', '-'], [15])]
        [5, 7, 15]).map (fun q => q.minimalSolutions) =
      .ok [[['0', '1', '-', '1']]] ∧
    mapAt [(['-', '1', '1', '1'], [7, 15]), (['0', '-', '0', '1'], ([5] : List Int)),
        (['0', '1', '-', '1'], [5, 7]), (['1', '1', '1', '-'], [15])]
      ['0', '1', '-', '1'] = .ok [5, 7] := by
  decide

/-- C6 (failing input): in Scenario A (`V = 3`, minterms 0, 1, 2, 5, 6, 7) there are six
prime implicants and none is essential; the product stops after the clause of minterm 1
and the only solution is `00-`. The result is one implicant, which covers 0 and 1 only. -/
theorem scenarioA_single_implicant :
    ((generatePrimeImplicants 4 (fresh 3 [0, 1, 2, 5, 6, 7] [])).bind
        findEssentialPrimeImplicants).map
      (fun q => (q.primeImplicants, q.essentialPrimeImplicants, q.minimalSolutions)) =
      .ok ([['-', '0', '1'], ['-', '1', '0'], ['0', '-', '0'], ['0', '0', '-'],
          ['1', '-', '1'], ['1', '1', '-']], [], [[['0', '0', '-']]]) ∧
    coversInt 3 ['0', '0', '-'] 2 = .ok false ∧ coversInt 3 ['0', '0', '-'] 5 = .ok false ∧
    coversInt 3 ['0', '0', '-'] 6 = .ok false ∧ coversInt 3 ['0', '0', '-'] 7 = .ok false := by
  decide

/-! ## The maxterm converter -/

theorem complementLoop_eq (S : List Int) (l : List Nat) (acc : List Int) :
    complementLoop S l acc = acc ++ (l.map (fun i : Nat => (i : Int))).filter (fun t => t ∉ S) := by
  induction l generalizing acc with
  | nil => simp [complementLoop]
  | cons i l ih =>
    rw [complementLoop, ih]
    by_cases h : (i : Int) ∈ S
    · simp [h]
    · simp [h]

/-- C11: for `V` in 1..20 and every list of maxterms, `convertMaxtermsToMinterms` returns a
strictly ascending list (so without duplicates) whose members are exactly the integers
of `[0, 2^V - 1]` that do not occur among the maxterms; for `V = 2` and maxterms 0, 1 the
result is `[2, 3]`. -/
theorem convertMaxtermsToMinterms_complement (V : Nat) (maxterms : List Int)
    (hV : 1 ≤ V ∧ V ≤ 20) :
    Ascending (convertMaxtermsToMinterms V maxterms) ∧
    (∀ t, t ∈ convertMaxtermsToMinterms V maxterms ↔ InRange V t ∧ t ∉ maxterms) ∧
    convertMaxtermsToMinterms 2 [0, 1] = [2, 3] := by
  refine ⟨?_, fun t => ?_, by decide⟩
  · unfold convertMaxtermsToMinterms Ascending
    rw [complementLoop_eq, List.nil_append]
    apply List.Pairwise.filter
    rw [List.pairwise_map]
    exact (List.pairwise_lt_range _).imp (fun h => by exact_mod_cast h)
  · unfold convertMaxtermsToMinterms InRange
    rw [complementLoop_eq, List.nil_append, List.mem_filter, List.mem_map]
    simp only [List.mem_range, decide_eq_true_eq, mem_insertAll, List.not_mem_nil, or_false]
    constructor
    · rintro ⟨⟨i, hi, rfl⟩, hn⟩
      refine ⟨⟨by positivity, ?_⟩, hn⟩
      have : ((i : Nat) : Int) < ((2 ^ V : Nat) : Int) := by exact_mod_cast hi
      push_cast at this
      omega
    · rintro ⟨⟨h0, h1⟩, hn⟩
      refine ⟨⟨t.toNat, ?_, Int.toNat_of_nonneg h0⟩, hn⟩
      have : ((t.toNat : Nat) : Int) < ((2 ^ V : Nat) : Int) := by
        rw [Int.toNat_of_nonneg h0]; push_cast; omega
      exact_mod_cast this

theorem convertMaxtermsToMinterms_complement_witness :
    Ascending (convertMaxtermsToMinterms 3 [1, 6, 6, 9]) ∧
    (∀ t, t ∈ convertMaxtermsToMinterms 3 [1, 6, 6, 9] ↔
      InRange 3 t ∧ t ∉ ([1, 6, 6, 9] : List Int)) ∧
    convertMaxtermsToMinterms 2 [0, 1] = [2, 3] :=
  convertMaxtermsToMinterms_complement 3 [1, 6, 6, 9] (by decide)

/-! ## Input validation -/

theorem dropWhile_lt_spec {α : Type} [LinearOrder α] (a : α) (bs : List α)
    (hs : bs.Sorted (· < ·)) :
    (∀ x, x ∈ bs.dropWhile (fun b => b < a) ↔ x ∈ bs ∧ ¬ x < a) ∧
      (bs.dropWhile (fun b => b < a)).Sorted (· < ·) := by
  induction bs with
  | nil => simp
  | cons b bs ih =>
    have h1 : bs.Sorted (· < ·) := List.Sorted.of_cons hs
    have h2 : ∀ y ∈ bs, b < y := fun y hy => List.rel_of_sorted_cons hs y hy
    by_cases hb : b < a
    · rw [List.dropWhile_cons_of_pos (by simpa using hb)]
      refine ⟨fun x => ?_, (ih h1).2⟩
      rw [(ih h1).1 x, List.mem_cons]
      constructor
      · rintro ⟨h3, h4⟩; exact ⟨Or.inr h3, h4⟩
      · rintro ⟨(rfl | h3), h4⟩
        · exact absurd hb h4
        · exact ⟨h3, h4⟩
    · rw [List.dropWhile_cons_of_neg (by simpa using hb)]
      refine ⟨fun x => ?_, hs⟩
      constructor
      · intro hx
        refine ⟨hx, ?_⟩
        rcases List.mem_cons.mp hx with rfl | hx2
        · exact hb
        · exact fun h => hb (lt_trans (h2 x hx2) h)
      · exact fun h => h.1

theorem mem_setIntersection {α : Type} [LinearOrder α] (l1 : List α) :
    ∀ (l2 : List α), l1.Sorted (· < ·) → l2.Sorted (· < ·) →
      ∀ x, x ∈ setIntersection l1 l2 ↔ x ∈ l1 ∧ x ∈ l2 := by
  induction l1 with
  | nil => intro l2 _ _ x; simp [setIntersection]
  | cons a as ih =>
    intro l2 hs1 hs2 x
    have h1 : as.Sorted (· < ·) := List.Sorted.of_cons hs1
    have h2 : ∀ y ∈ as, a < y := fun y hy => List.rel_of_sorted_cons hs1 y hy
    obtain ⟨hD, hDs⟩ := dropWhile_lt_spec a l2 hs2
    rw [setIntersection]
    cases hd : l2.dropWhile (fun b => b < a) with
    | nil =>
      simp only [List.not_mem_nil, false_iff, not_and]
      intro hx hx2
      rw [hd] at hD
      have hlt : x < a := by
        by_contra hn
        exact absurd ((hD x).mpr ⟨hx2, hn⟩) (List.not_mem_nil x)
      rcases List.mem_cons.mp hx with rfl | hx3
      · exact lt_irrefl _ hlt
      · exact lt_irrefl _ (lt_trans hlt (h2 x hx3))
    | cons b rest =>
      rw [hd] at hD hDs
      have hbs : rest.Sorted (· < ·) := List.Sorted.of_cons hDs
      have hb2 : ∀ y ∈ rest, b < y := fun y hy => List.rel_of_sorted_cons hDs y hy
      have hb : b ∈ l2 ∧ ¬ b < a := (hD b).mp (List.mem_cons_self _ _)
      simp only
      by_cases hab : a < b
      · rw [if_pos hab, ih (b :: rest) h1 hDs x, hD x, List.mem_cons]
        constructor
        · rintro ⟨h3, h4, _⟩; exact ⟨Or.inr h3, h4⟩
        · rintro ⟨(rfl | h3), h4⟩
          · have := (hD x).mpr ⟨h4, lt_irrefl _⟩
            rcases List.mem_cons.mp this with rfl | h5
            · exact absurd hab (lt_irrefl _)
            · exact absurd (lt_trans hab (hb2 x h5)) (lt_irrefl _)
          · exact ⟨h3, h4, fun h => lt_irrefl _ (lt_trans h (h2 x h3))⟩
      · rw [if_neg hab]
        have heq : a = b := le_antisymm (not_lt.mp hb.2) (not_lt.mp hab)
        subst heq
        rw [List.mem_cons, ih rest h1 hbs x, List.mem_cons]
        constructor
        · rintro (rfl | ⟨h3, h4⟩)
          · exact ⟨Or.inl rfl, hb.1⟩
          · exact ⟨Or.inr h3, ((hD x).mp (List.mem_cons_of_mem _ h4)).1⟩
        · rintro ⟨(rfl | h3), h4⟩
          · exact Or.inl rfl
          · have := (hD x).mpr ⟨h4, fun h => lt_irrefl _ (lt_trans h (h2 x h3))⟩
            rcases List.mem_cons.mp this with rfl | h5
            · exact absurd (h2 x h3) (lt_irrefl _)
            · exact Or.inr ⟨h3, h5⟩

theorem checkRange_fst (maxTerm : Int) (l : List Int) (acc : Bool × List Int) :
    (checkRange maxTerm l acc).1 = true ↔
      acc.1 = true ∧ ∀ m ∈ l, 0 ≤ m ∧ m ≤ maxTerm := by
  induction l generalizing acc with
  | nil => simp [checkRange]
  | cons m l ih =>
    rw [checkRange]
    by_cases h : m < 0 ∨ m > maxTerm
    · rw [if_pos h, ih]
      simp only [Bool.false_eq_true, false_and, false_iff, not_and]
      intro _ hall
      have := hall m (List.mem_cons_self _ _)
      omega
    · rw [if_neg h, ih]
      simp only [List.mem_cons, forall_eq_or_imp]
      constructor
      · rintro ⟨h1, h2⟩; exact ⟨h1, by omega, h2⟩
      · rintro ⟨h1, _, h2⟩; exact ⟨h1, h2⟩

/-- C12: on an object with `VARIABLES` in 1..20, `validateInput` returns true exactly when
no term occurs in both `mintermList` and `dontCareList` and every term of both lists lies
in `[0, 2^V - 1]`; so an overlapping term, or an out-of-range term, makes it return
false. -/
theorem validateInput_iff (q : State) (hV : 1 ≤ q.VARIABLES ∧ q.VARIABLES ≤ 20) :
    ((validateInput q).1 = true ↔
      (∀ t ∈ q.mintermList, t ∉ q.dontCareList) ∧
      (∀ t ∈ q.mintermList, InRange q.VARIABLES t) ∧
      (∀ t ∈ q.dontCareList, InRange q.VARIABLES t)) ∧
    (∀ t, t ∈ q.mintermList → t ∈ q.dontCareList → (validateInput q).1 = false) ∧
    (∀ t, (t ∈ q.mintermList ∨ t ∈ q.dontCareList) → ¬ InRange q.VARIABLES t →
      (validateInput q).1 = false) := by
  have key : (validateInput q).1 = true ↔
      (∀ t ∈ q.mintermList, t ∉ q.dontCareList) ∧
      (∀ t ∈ q.mintermList, InRange q.VARIABLES t) ∧
      (∀ t ∈ q.dontCareList, InRange q.VARIABLES t) := by
    unfold validateInput InRange
    simp only [checkRange_fst, mem_uniqueStd, mem_sortStd]
    have hint : setIntersection (uniqueStd (sortStd q.mintermList))
        (uniqueStd (sortStd q.dontCareList)) = [] ↔ ∀ t ∈ q.mintermList, t ∉ q.dontCareList := by
      rw [List.eq_nil_iff_forall_not_mem]
      have hm := mem_setIntersection (uniqueStd (sortStd q.mintermList))
        (uniqueStd (sortStd q.dontCareList)) (sorted_uniqueStd_sortStd _)
        (sorted_uniqueStd_sortStd _)
      simp only [hm, mem_uniqueStd, mem_sortStd, not_and]
    by_cases hi : setIntersection (uniqueStd (sortStd q.mintermList))
        (uniqueStd (sortStd q.dontCareList)) = []
    · have := hint.mp hi
      simp only [hi, ne_eq, not_true_eq_false, if_false, true_and]
      tauto
    · have hno : ¬ ∀ t ∈ q.mintermList, t ∉ q.dontCareList := fun h => hi (hint.mpr h)
      simp only [ne_eq, hi, not_false_eq_true, if_true, Bool.false_eq_true, false_and]
      tauto
  refine ⟨key, fun t h1 h2 => ?_, fun t h1 h2 => ?_⟩
  · cases hv : (validateInput q).1 with
    | false => rfl
    | true => exact absurd h2 ((key.mp hv).1 t h1)
  · cases hv : (validateInput q).1 with
    | false => rfl
    | true =>
      rcases h1 with h1 | h1
      · exact absurd ((key.mp hv).2.1 t h1) h2
      · exact absurd ((key.mp hv).2.2 t h1) h2

theorem validateInput_iff_witness :
    ((validateInput (fresh 2 [3, 1, 1] [2])).1 = true ↔
      (∀ t ∈ (fresh 2 [3, 1, 1] [2]).mintermList, t ∉ (fresh 2 [3, 1, 1] [2]).dontCareList) ∧
      (∀ t ∈ (fresh 2 [3, 1, 1] [2]).mintermList, InRange (fresh 2 [3, 1, 1] [2]).VARIABLES t) ∧
      (∀ t ∈ (fresh 2 [3, 1, 1] [2]).dontCareList,
        InRange (fresh 2 [3, 1, 1] [2]).VARIABLES t)) ∧
    (∀ t, t ∈ (fresh 2 [3, 1, 1] [2]).mintermList → t ∈ (fresh 2 [3, 1, 1] [2]).dontCareList →
      (validateInput (fresh 2 [3, 1, 1] [2])).1 = false) ∧
    (∀ t, (t ∈ (fresh 2 [3, 1, 1] [2]).mintermList ∨ t ∈ (fresh 2 [3, 1, 1] [2]).dontCareList) →
      ¬ InRange (fresh 2 [3, 1, 1] [2]).VARIABLES t →
      (validateInput (fresh 2 [3, 1, 1] [2])).1 = false) :=
  validateInput_iff (fresh 2 [3, 1, 1] [2]) (by decide)

/-! ## Prime implicants that cover don't-cares only -/

/-- C13 (counterexample): for `V = 2`, minterm 0 and don't-care 3 (a valid input), the
generator returns the prime implicants `00` and `11`; `11` covers no term of the minterm
list and is still in `primeImplicants`. -/
theorem dontcare_only_implicant_counterexample :
    ValidInput 2 [0] [3] ∧
    (generatePrimeImplicants 3 (fresh 2 [0] [3])).map (fun q => q.primeImplicants) =
      .ok [['0', '0'], ['1', '1']] ∧
    ∀ m ∈ ([0] : List Int), coversInt 2 ['1', '1'] m = .ok false := by
  refine ⟨?_, ?_, ?_⟩
  · unfold ValidInput InRange; decide
  · decide
  · decide

/-- C13 (amended): for every valid input, `generatePrimeImplicants` on a fresh object (with
fuel for `V + 1` passes) returns, and `implicantCoverage` has an entry for a pattern
exactly when the pattern is in `primeImplicants` and covers at least one term of
`mintermList`; the entry is the non-empty set of the minterms the pattern covers. -/
theorem implicantCoverage_entries (V : Nat) (mt dc : List Int) (fuel : Nat)
    (hv : ValidInput V mt dc) (hfuel : V + 1 ≤ fuel) :
    ∃ q, generatePrimeImplicants fuel (fresh V mt dc) = .ok q ∧
      (∀ p, (∃ cov, mapFind p q.implicantCoverage = some cov) ↔
        (p ∈ q.primeImplicants ∧ ∃ m ∈ mt, coversInt V p m = .ok true)) ∧
      ∀ p cov, mapFind p q.implicantCoverage = some cov →
        cov ≠ [] ∧ ∀ m, m ∈ cov ↔ (m ∈ mt ∧ coversInt V p m = .ok true) := by
  have hV := hv.1.2
  obtain ⟨q, hq, hgen⟩ := generatePrimeImplicants_spec V hV mt dc fuel hfuel
  have hfind := hgen.2.2.2.2.2.1
  have hne : ∀ p, coveredPure V p mt [] ≠ [] ↔ ∃ m ∈ mt, coversInt V p m = .ok true := by
    intro p
    constructor
    · intro h
      obtain ⟨m, hm⟩ := List.exists_mem_of_ne_nil _ h
      have := (mem_coveredPure V p mt [] m).mp hm
      simp only [List.not_mem_nil, false_or] at this
      exact ⟨m, this.1, (coversInt_true_iff V hV p m).mpr this.2⟩
    · rintro ⟨m, hm, hc⟩
      exact List.ne_nil_of_mem ((mem_coveredPure V p mt [] m).mpr
        (Or.inr ⟨hm, (coversInt_true_iff V hV p m).mp hc⟩))
  refine ⟨q, hq, fun p => ?_, fun p cov hcov => ?_⟩
  · rw [hfind p]
    by_cases h : p ∈ q.primeImplicants ∧ coveredPure V p mt [] ≠ []
    · rw [if_pos h]
      exact ⟨fun _ => ⟨h.1, (hne p).mp h.2⟩, fun _ => ⟨_, rfl⟩⟩
    · rw [if_neg h]
      constructor
      · rintro ⟨cov, hc⟩; exact absurd hc (by simp)
      · rintro ⟨h1, h2⟩; exact absurd ⟨h1, (hne p).mpr h2⟩ h
  · rw [hfind p] at hcov
    by_cases h : p ∈ q.primeImplicants ∧ coveredPure V p mt [] ≠ []
    · rw [if_pos h] at hcov
      have hc : coveredPure V p mt [] = cov := Option.some.inj hcov
      rw [← hc]
      refine ⟨h.2, fun m => ?_⟩
      rw [mem_coveredPure, coversInt_true_iff V hV]
      simp
    · rw [if_neg h] at hcov
      exact absurd hcov (by simp)

theorem implicantCoverage_entries_witness :
    ∃ q, generatePrimeImplicants 3 (fresh 2 [0] [3]) = .ok q ∧
      (∀ p, (∃ cov, mapFind p q.implicantCoverage = some cov) ↔
        (p ∈ q.primeImplicants ∧ ∃ m ∈ ([0] : List Int), coversInt 2 p m = .ok true)) ∧
      ∀ p cov, mapFind p q.implicantCoverage = some cov →
        cov ≠ [] ∧ ∀ m, m ∈ cov ↔ (m ∈ ([0] : List Int) ∧ coversInt 2 p m = .ok true) :=
  implicantCoverage_entries 2 [0] [3] 3 (by unfold ValidInput InRange; decide) (by decide)

/-! ## Idempotence of the generator -/

theorem implicant_congr (V : Nat) (S1 S2 : List (List Char)) (h : ∀ s, s ∈ S1 ↔ s ∈ S2)
    (p : List Char) : Implicant V S1 p ↔ Implicant V S2 p := by
  constructor
  · intro hi s hs hc; exact (h s).mp (hi s hs hc)
  · intro hi s hs hc; exact (h s).mpr (hi s hs hc)

theorem prime_congr (V : Nat) (S1 S2 : List (List Char)) (h : ∀ s, s ∈ S1 ↔ s ∈ S2)
    (p : List Char) : Prime V S1 p ↔ Prime V S2 p := by
  unfold Prime
  rw [implicant_congr V S1 S2 h p]
  constructor
  · rintro ⟨h1, h2, h3⟩
    exact ⟨h1, h2, fun q hq hne hqi => h3 q hq hne ((implicant_congr V S1 S2 h q).mpr hqi)⟩
  · rintro ⟨h1, h2, h3⟩
    exact ⟨h1, h2, fun q hq hne hqi => h3 q hq hne ((implicant_congr V S1 S2 h q).mp hqi)⟩

theorem ascending_ext {α : Type} [LinearOrder α] (l1 l2 : List α) (h1 : Ascending l1)
    (h2 : Ascending l2) (h : ∀ x, x ∈ l1 ↔ x ∈ l2) : l1 = l2 := by
  apply List.eq_of_perm_of_sorted _ h1 h2
  exact (List.perm_ext_iff_of_nodup (ascending_nodup l1 h1) (ascending_nodup l2 h2)).mpr h

/-- C14: for every valid input, let `T` be any list whose members are exactly the terms of
`[0, 2^V - 1]` covered by some pattern of the `primeImplicants` that
`generatePrimeImplicants` produced; then `generatePrimeImplicants` on a fresh object with
minterm list `T` and no don't-cares produces the same `primeImplicants` list. -/
theorem generatePrimeImplicants_idempotent (V : Nat) (mt dc : List Int) (fuel : Nat)
    (hv : ValidInput V mt dc) (hfuel : V + 1 ≤ fuel) :
    ∃ q, generatePrimeImplicants fuel (fresh V mt dc) = .ok q ∧
      ∀ T : List Int,
        (∀ t, t ∈ T ↔ InRange V t ∧ ∃ p ∈ q.primeImplicants, coversInt V p t = .ok true) →
        ∃ q2, generatePrimeImplicants fuel (fresh V T []) = .ok q2 ∧
          q2.primeImplicants = q.primeImplicants := by
  have hV := hv.1.2
  obtain ⟨q, hq, hgen⟩ := generatePrimeImplicants_spec V hV mt dc fuel hfuel
  refine ⟨q, hq, fun T hT => ?_⟩
  obtain ⟨q2, hq2, hgen2⟩ := generatePrimeImplicants_spec V hV T [] fuel hfuel
  refine ⟨q2, hq2, ?_⟩
  have hS : ∀ s, s ∈ binaryTermsOf V T [] ↔ s ∈ binaryTermsOf V mt dc := by
    intro s
    rw [mem_binaryTermsOf, mem_binaryTermsOf]
    constructor
    · rintro ⟨t, (ht | ht), rfl⟩
      · obtain ⟨htr, p, hp, hc⟩ := (hT t).mp ht
        have hprime := (hgen.2.2.2.1 p).mp hp
        have := hprime.2.1 _ (lowBits_binary V hV t) ((coversInt_true_iff V hV p t).mp hc)
        exact (mem_binaryTermsOf V mt dc _).mp this
      · simp at ht
    · rintro ⟨t, ht, rfl⟩
      have htr : InRange V t := by
        rcases ht with ht | ht
        · exact hv.2.1 t ht
        · exact hv.2.2.1 t ht
      obtain ⟨P, hP, hc⟩ := term_covered_by_prime V hV mt dc t ht
      exact ⟨t, Or.inl ((hT t).mpr ⟨htr, P, (hgen.2.2.2.1 P).mpr hP,
        (coversInt_true_iff V hV P t).mpr hc⟩), rfl⟩
  apply ascending_ext _ _ hgen2.2.2.2.2.1 hgen.2.2.2.2.1
  intro p
  rw [hgen2.2.2.2.1 p, hgen.2.2.2.1 p]
  exact prime_congr V _ _ hS p

theorem generatePrimeImplicants_idempotent_witness :
    ∃ q, generatePrimeImplicants 3 (fresh 2 [0] [1, 3]) = .ok q ∧
      ∀ T : List Int,
        (∀ t, t ∈ T ↔ InRange 2 t ∧ ∃ p ∈ q.primeImplicants, coversInt 2 p t = .ok true) →
        ∃ q2, generatePrimeImplicants 3 (fresh 2 T []) = .ok q2 ∧
          q2.primeImplicants = q.primeImplicants :=
  generatePrimeImplicants_idempotent 2 [0] [1, 3] 3
    (by unfold ValidInput InRange; decide) (by decide)

/-! ## Ties between minimal covers -/

set_option maxRecDepth 100000

/-- C15: for `V = 4` and minterms 0, 2, 3, 4, 5, 7, 10, 11, 12 (no don't-cares, a valid
input) the essential prime implicants `-01-` and `-100` leave the residual minterms 0, 5, 7;
`minimalSolutions` is the list of the two covers `{0-00, 01-1}` and `{00-0, 01-1}`; these
are two distinct sets of two prime implicants, each of which covers every residual
minterm; and among all sets of prime implicants these two are exactly the covers of the
residual minterms of least size: every cover has at least two elements, and a cover of
two elements is one of them. -/
theorem scenarioE_two_minimal_covers :
    ValidInput 4 [0, 2, 3, 4, 5, 7, 10, 11, 12] [] ∧
    ((generatePrimeImplicants 5 (fresh 4 [0, 2, 3, 4, 5, 7, 10, 11, 12] [])).bind
        findEssentialPrimeImplicants).map
      (fun q => (q.primeImplicants, q.essentialPrimeImplicants, q.uncoveredMintermsAfterEPI,
        q.minimalSolutions)) =
      .ok ([['-', '0', '1', '-'], ['-', '1', '0', '0'], ['0', '-', '0', '0'],
          ['0', '-', '1', '1'], ['0', '0', '-', '0'], ['0', '1', '-', '1'],
          ['0', '1', '0', '-']],
        [['-', '0', '1', '-'], ['-', '1', '0', '0']], [0, 5, 7],
        [[['0', '-', '0', '0'], ['0', '1', '-', '1']],
          [['0', '0', '-', '0'], ['0', '1', '-', '1']]]) ∧
    (∀ S ∈ [[['0', '-', '0', '0'], ['0', '1', '-', '1']],
        [['0', '0', '-', '0'], ['0', '1', '-', '1']]],
      S ∈ List.sublists [['-', '0', '1', '-'], ['-', '1', '0', '0'], ['0', '-', '0', '0'],
        ['0', '-', '1', '1'], ['0', '0', '-', '0'], ['0', '1', '-', '1'],
        ['0', '1', '0', '-']] ∧
      S.length = 2 ∧
      ∀ m ∈ ([0, 5, 7] : List Int), ∃ p ∈ S, coversInt 4 p m = .ok true) ∧
    [['0', '-', '0', '0'], ['0', '1', '-', '1']] ≠
      [['0', '0', '-', '0'], ['0', '1', '-', '1']] ∧
    ∀ T ∈ List.sublists [['-', '0', '1', '-'], ['-', '1', '0', '0'], ['0', '-', '0', '0'],
        ['0', '-', '1', '1'], ['0', '0', '-', '0'], ['0', '1', '-', '1'],
        ['0', '1', '0', '-']],
      (∀ m ∈ ([0, 5, 7] : List Int), ∃ p ∈ T, coversInt 4 p m = .ok true) →
        2 ≤ T.length ∧
        (T.length = 2 → T = [['0', '-', '0', '0'], ['0', '1', '-', '1']] ∨
          T = [['0', '0', '-', '0'], ['0', '1', '-', '1']]) := by
  refine ⟨?_, ?_, ?_, ?_, ?_⟩
  · unfold ValidInput InRange; decide
  · decide
  · decide
  · decide
  · decide

/-! ## Scenarios B and C -/

/-- C16: for `V = 2` with minterms 0, 1, 2, 3 and no don't-cares, generation followed by
selection on a fresh object gives `primeImplicants = ["--"]`,
`essentialPrimeImplicants = ["--"]`, an empty residual list and an empty
`minimalSolutions`. -/
theorem scenarioB_constant_true :
    ((generatePrimeImplicants 3 (fresh 2 [0, 1, 2, 3] [])).bind
        findEssentialPrimeImplicants).map
      (fun q => (q.primeImplicants, q.essentialPrimeImplicants, q.uncoveredMintermsAfterEPI,
        q.minimalSolutions)) =
      .ok ([['-', '-']], [['-', '-']], [], []) := by
  decide

/-- C17: on an object with `VARIABLES` in 1..20 whose minterm and don't-care lists are
empty, whatever its other members hold and whatever the fuel, `generatePrimeImplicants`
followed by `findEssentialPrimeImplicants` returns and leaves `primeImplicants`,
`essentialPrimeImplicants` and `minimalSolutions` all empty. -/
theorem scenarioC_empty_input (fuel : Nat) (q : State)
    (hV : 1 ≤ q.VARIABLES ∧ q.VARIABLES ≤ 20) (hm : q.mintermList = [])
    (hd : q.dontCareList = []) :
    ∃ q1 q2, generatePrimeImplicants fuel q = .ok q1 ∧
      findEssentialPrimeImplicants q1 = .ok q2 ∧
      q2.primeImplicants = [] ∧ q2.essentialPrimeImplicants = [] ∧
      q2.minimalSolutions = [] := by
  have h1 : generatePrimeImplicants fuel q = .ok { q with primeImplicants := [] } := by
    unfold generatePrimeImplicants
    rw [hm, hd]
    simp [sortStd, uniqueStd, encodeAll]
  have h2 : findEssentialPrimeImplicants { q with primeImplicants := [] } =
      .ok { q with primeImplicants := [], essentialPrimeImplicants := [],
                   minimalSolutions := [] } := by
    unfold findEssentialPrimeImplicants
    simp
  exact ⟨_, _, h1, h2, rfl, rfl, rfl⟩

theorem scenarioC_empty_input_witness :
    ∃ q1 q2, generatePrimeImplicants 0 (fresh 2 [] []) = .ok q1 ∧
      findEssentialPrimeImplicants q1 = .ok q2 ∧
      q2.primeImplicants = [] ∧ q2.essentialPrimeImplicants = [] ∧
      q2.minimalSolutions = [] :=
  scenarioC_empty_input 0 (fresh 2 [] []) (by decide) rfl rfl

/-! ## Expression rendering -/

theorem binaryToExpressionLoop_eq (V : Nat) (rest : List Char) :
    ∀ (i : Nat) (acc : List Char), i + rest.length ≤ V →
      binaryToExpressionLoop ((List.range V).map fun i => [Char.ofNat (65 + i)]) i rest acc =
        .ok (acc ++ literalsOf i rest) := by
  induction rest with
  | nil => intro i acc _; simp [binaryToExpressionLoop, literalsOf]
  | cons c rest ih =>
    intro i acc hi
    have hlt : i < V := by simp at hi; omega
    have hle : i + 1 + rest.length ≤ V := by simp at hi; omega
    have hget : ((List.range V).map fun i => [Char.ofNat (65 + i)])[i]? =
        some [Char.ofNat (65 + i)] := by
      simp [List.getElem?_map, List.getElem?_range hlt]
    by_cases h0 : c = '0'
    · subst h0
      rw [binaryToExpressionLoop, if_pos rfl, hget]
      simp only
      rw [ih (i + 1) _ hle]
      simp [literalsOf]
    · by_cases h1 : c = '1'
      · subst h1
        rw [binaryToExpressionLoop, if_neg h0, if_pos rfl, hget]
        simp only
        rw [ih (i + 1) _ hle]
        simp [literalsOf]
      · rw [binaryToExpressionLoop, if_neg h0, if_neg h1, ih (i + 1) _ hle]
        simp [literalsOf, h0, h1]

theorem letter_isAlpha (i : Nat) (hi : i < 20) : (Char.ofNat (65 + i)).isAlpha = true := by
  interval_cases i <;> decide

theorem letters_literalsOf (rest : List Char) :
    ∀ (i : Nat), i + rest.length ≤ 20 → (∀ c ∈ rest, c = '0' ∨ c = '1' ∨ c = '-') →
      ((literalsOf i rest).filter Char.isAlpha).length =
        (rest.filter (fun c => c ≠ '-')).length := by
  induction rest with
  | nil => intro i _ _; simp [literalsOf]
  | cons c rest ih =>
    intro i hi hc
    have hlt : i < 20 := by simp at hi; omega
    have hle : i + 1 + rest.length ≤ 20 := by simp at hi; omega
    have hrest := ih (i + 1) hle (fun d hd => hc d (List.mem_cons_of_mem _ hd))
    have ha := letter_isAlpha i hlt
    have hap : apostrophe.isAlpha = false := by decide
    rw [literalsOf, List.filter_append, List.length_append, hrest]
    rcases hc c (List.mem_cons_self _ _) with rfl | rfl | rfl
    · simp [List.filter_cons, ha, hap]; omega
    · simp [List.filter_cons, ha]; omega
    · simp [List.filter_cons]

/-- C18: for `V` in 1..20 and a pattern `p` of length `V` over `0`, `1`, `-`,
`binaryToExpression` returns the concatenation, in position order, of the letter
`'A' + i` followed by an apostrophe where `p` has `0`, the letter alone where it has `1`,
and nothing where it has `-`; the number of letters of the result is the number of
positions of `p` that are not `-`. -/
theorem binaryToExpression_literals (V : Nat) (p : List Char) (hV : 1 ≤ V ∧ V ≤ 20)
    (hp : IsPattern V p) :
    binaryToExpression V p = .ok (literalsOf 0 p) ∧
      ((literalsOf 0 p).filter Char.isAlpha).length = (p.filter (fun c => c ≠ '-')).length := by
  constructor
  · unfold binaryToExpression
    have hV0 : V ≠ 0 := by omega
    rw [if_neg hV0, binaryToExpressionLoop_eq V p 0 [] (by rw [hp.1]; omega)]
    simp
  · exact letters_literalsOf p 0 (by rw [hp.1]; omega) hp.2

theorem binaryToExpression_literals_witness :
    binaryToExpression 3 ['0', '-', '1'] = .ok (literalsOf 0 ['0', '-', '1']) ∧
      ((literalsOf 0 ['0', '-', '1']).filter Char.isAlpha).length =
        (['0', '-', '1'].filter (fun c => c ≠ '-')).length :=
  binaryToExpression_literals 3 ['0', '-', '1'] (by decide) (by unfold IsPattern; decide)

/-! ## The early exit is not a mere optimization -/

/-- C19 (failing input): Petrick's method called with the residual minterms 5, 7, 15 and
the implicants `-111`, `0-01`, `01-1`, `111-` (coverage 7 and 15; 5; 5 and 7; 15) returns
`[[01-1]]` with the early exit, while the same procedure multiplying in every clause
returns the three covers `{-111, 0-01}`, `{-111, 01-1}` and `{01-1, 111-}`. -/
theorem early_exit_changes_result :
    (petricksMethod (fresh 4 [0, 1, 5, 7, 10, 14, 15] [])
        [['-', '1', '1', '1'], ['0', '-', '0', '1'], ['0', '1', '-', '1'], ['1', '1', '1', '-']]
        [(['-', '1', '1', '1'], [7, 15]), (['0', '-', '0', '1'], [5]),
          (['0', '1', '-', '1'], [5, 7]), (['1', '1', '1', '-'], [15])]
        [5, 7, 15]).map (fun q => q.minimalSolutions) =
      .ok [[['0', '1', '-', '1']]] ∧
    (petricksMethodAllClauses (fresh 4 [0, 1, 5, 7, 10, 14, 15] [])
        [['-', '1', '1', '1'], ['0', '-', '0', '1'], ['0', '1', '-', '1'], ['1', '1', '1', '-']]
        [(['-', '1', '1', '1'], [7, 15]), (['0', '-', '0', '1'], [5]),
          (['0', '1', '-', '1'], [5, 7]), (['1', '1', '1', '-'], [15])]
        [5, 7, 15]).map (fun q => q.minimalSolutions) =
      .ok [[['-', '1', '1', '1'], ['0', '-', '0', '1']],
        [['-', '1', '1', '1'], ['0', '1', '-', '1']],
        [['0', '1', '-', '1'], ['1', '1', '1', '-']]] := by
  decide

/-! ## The constant-1 report -/

/-- C20 (failing input): in Scenario A (`V = 3`, minterms 0, 1, 2, 5, 6, 7, no don't-cares,
a valid input with a non-empty minterm list) no prime implicant is essential, so the
minimized expression is reported as the constant 1, although the in-range terms 3 and 4
are neither minterms nor don't-cares. -/
theorem constant_one_unjustified :
    ValidInput 3 [0, 1, 2, 5, 6, 7] [] ∧
    ((generatePrimeImplicants 4 (fresh 3 [0, 1, 2, 5, 6, 7] [])).bind
        findEssentialPrimeImplicants).map
      (fun q => (q.essentialPrimeImplicants, minimizedExpression q)) =
      .ok ([], Report.constantOne) ∧
    InRange 3 3 ∧ (3 : Int) ∉ ([0, 1, 2, 5, 6, 7] : List Int) ∧
    InRange 3 4 ∧ (4 : Int) ∉ ([0, 1, 2, 5, 6, 7] : List Int) := by
  refine ⟨?_, ?_, ?_, ?_, ?_, ?_⟩
  · unfold ValidInput InRange; decide
  · decide
  · unfold InRange; decide
  · decide
  · unfold InRange; decide
  · decide

/-! ## Residual minterms after selection -/

/-- C21: for `V` in 1..20, when `generatePrimeImplicants` on a fresh object (with fuel for
`V + 1` passes) has produced a non-empty `primeImplicants`, `findEssentialPrimeImplicants`
returns, `uncoveredMintermsAfterEPI` is strictly ascending (so duplicate-free), its members
are exactly the minterms of `mintermList` that no pattern of `essentialPrimeImplicants`
covers, and when it is empty `minimalSolutions` is empty. -/
theorem residual_list_spec (V : Nat) (mt dc : List Int) (fuel : Nat)
    (hV : 1 ≤ V ∧ V ≤ 20) (hfuel : V + 1 ≤ fuel) :
    ∃ q, generatePrimeImplicants fuel (fresh V mt dc) = .ok q ∧
      (q.primeImplicants ≠ [] →
        ∃ q2, findEssentialPrimeImplicants q = .ok q2 ∧
          Ascending q2.uncoveredMintermsAfterEPI ∧
          (∀ m, m ∈ q2.uncoveredMintermsAfterEPI ↔
            (m ∈ mt ∧ ∀ e ∈ q2.essentialPrimeImplicants, ¬ coversInt V e m = .ok true)) ∧
          (q2.uncoveredMintermsAfterEPI = [] → q2.minimalSolutions = [])) := by
  obtain ⟨q, q2, hq, hgen, hq2, hcase⟩ := pipeline_run V hV.2 mt dc fuel hfuel
  refine ⟨q, hq, fun hne => ?_⟩
  rcases hcase with ⟨hnil, _⟩ | ⟨_, mc, sel, hsel, _, _⟩
  · exact absurd hnil hne
  · have hres := residual_iff V mt dc q hgen mc sel q2 hsel
    have hess : ∀ e, e ∈ q2.essentialPrimeImplicants ↔ e ∈ sel.essentialPIs := by
      intro e
      rw [hsel.2.2.2.2.2.2.2.1, hsel.2.2.1.1 e, hsel.2.2.1.2.1 e]
    refine ⟨q2, hq2, hsel.2.2.2.2.2.2.2.2.2.1, fun m => ?_, hsel.2.2.2.2.2.2.2.2.2.2.1⟩
    rw [hres m]
    constructor
    · rintro ⟨h1, h2⟩
      refine ⟨h1, fun e he hc => ?_⟩
      have := h2 e ((hess e).mp he)
      rw [(coversInt_true_iff V hV.2 e m).mp hc] at this
      exact absurd this (by simp)
    · rintro ⟨h1, h2⟩
      refine ⟨h1, fun e he => ?_⟩
      have := h2 e ((hess e).mpr he)
      rw [coversInt_true_iff V hV.2] at this
      simpa using this

theorem residual_list_spec_witness :
    ∃ q, generatePrimeImplicants 5 (fresh 4 [4, 8, 10, 11, 12, 15] [9, 14]) = .ok q ∧
      (q.primeImplicants ≠ [] →
        ∃ q2, findEssentialPrimeImplicants q = .ok q2 ∧
          Ascending q2.uncoveredMintermsAfterEPI ∧
          (∀ m, m ∈ q2.uncoveredMintermsAfterEPI ↔
            (m ∈ ([4, 8, 10, 11, 12, 15] : List Int) ∧
              ∀ e ∈ q2.essentialPrimeImplicants, ¬ coversInt 4 e m = .ok true)) ∧
          (q2.uncoveredMintermsAfterEPI = [] → q2.minimalSolutions = [])) :=
  residual_list_spec 4 [4, 8, 10, 11, 12, 15] [9, 14] 5 (by decide) (by decide)

/-! ## Shape of the generator's output -/

/-- C22: for every valid input, no two patterns of `primeImplicants` (after
`generatePrimeImplicants` on a fresh object, with fuel for `V + 1` passes) that contain
the same number of `-` symbols can be merged: `isGreyCode` is false on them. -/
theorem primeImplicants_unmergeable (V : Nat) (mt dc : List Int) (fuel : Nat)
    (hv : ValidInput V mt dc) (hfuel : V + 1 ≤ fuel) :
    ∃ q, generatePrimeImplicants fuel (fresh V mt dc) = .ok q ∧
      ∀ p ∈ q.primeImplicants, ∀ r ∈ q.primeImplicants,
        p.count '-' = r.count '-' → isGreyCode p r = false := by
  obtain ⟨q, hq, hgen⟩ := generatePrimeImplicants_spec V hv.1.2 mt dc fuel hfuel
  refine ⟨q, hq, fun p hp r hr hd => ?_⟩
  have hp2 := (hgen.2.2.2.1 p).mp hp
  have hr2 := (hgen.2.2.2.1 r).mp hr
  by_contra hg
  have hg2 : isGreyCode p r = true := by simpa using hg
  have hlp : Level V (binaryTermsOf V mt dc) (dashes p) p := ⟨hp2.1, rfl, hp2.2.1⟩
  have hlr : Level V (binaryTermsOf V mt dc) (dashes p) r := ⟨hr2.1, hd.symm, hr2.2.1⟩
  exact (prime_iff_unmerged V _ (dashes p) p hlp).mp hp2 ⟨r, hlr, (isGreyCode_iff p r).mp hg2⟩

theorem primeImplicants_unmergeable_witness :
    ∃ q, generatePrimeImplicants 4 (fresh 3 [0, 1, 2, 5, 6, 7] []) = .ok q ∧
      ∀ p ∈ q.primeImplicants, ∀ r ∈ q.primeImplicants,
        p.count '-' = r.count '-' → isGreyCode p r = false :=
  primeImplicants_unmergeable 3 [0, 1, 2, 5, 6, 7] [] 4
    (by unfold ValidInput InRange; decide) (by decide)

/-- C23: for every valid input, on a fresh object (with fuel for `V + 1` passes),
`primeImplicants` after `generatePrimeImplicants` is strictly ascending in the
lexicographic order of character codes, hence without duplicates, and every pattern in
it has length `V` and uses only the symbols `0`, `1` and `-`. -/
theorem primeImplicants_ascending_patterns (V : Nat) (mt dc : List Int) (fuel : Nat)
    (hv : ValidInput V mt dc) (hfuel : V + 1 ≤ fuel) :
    ∃ q, generatePrimeImplicants fuel (fresh V mt dc) = .ok q ∧
      List.Sorted (fun a b : List Char => List.Lex (fun c d : Char => c < d) a b)
        q.primeImplicants ∧
      q.primeImplicants.Nodup ∧
      ∀ p ∈ q.primeImplicants,
        p.length = V ∧ ∀ c ∈ p, c = '0' ∨ c = '1' ∨ c = '-' := by
  obtain ⟨q, hq, hgen⟩ := generatePrimeImplicants_spec V hv.1.2 mt dc fuel hfuel
  refine ⟨q, hq, hgen.2.2.2.2.1, ascending_nodup _ hgen.2.2.2.2.1, fun p hp => ?_⟩
  exact ((hgen.2.2.2.1 p).mp hp).1

theorem primeImplicants_ascending_patterns_witness :
    ∃ q, generatePrimeImplicants 4 (fresh 3 [0, 1, 2, 5, 6, 7] []) = .ok q ∧
      List.Sorted (fun a b : List Char => List.Lex (fun c d : Char => c < d) a b)
        q.primeImplicants ∧
      q.primeImplicants.Nodup ∧
      ∀ p ∈ q.primeImplicants,
        p.length = 3 ∧ ∀ c ∈ p, c = '0' ∨ c = '1' ∨ c = '-' :=
  primeImplicants_ascending_patterns 3 [0, 1, 2, 5, 6, 7] [] 4
    (by unfold ValidInput InRange; decide) (by decide)

/-! ## What a merge covers -/

theorem combineTerms_comm (a b : List Char) : combineTerms a b = combineTerms b a := by
  induction a generalizing b with
  | nil => cases b <;> rfl
  | cons x a ih =>
    cases b with
    | nil => rfl
    | cons y b =>
      simp only [combineTerms, ih b]
      by_cases h : x = y
      · subst h; rfl
      · rw [if_neg h, if_neg (Ne.symm h)]

theorem split_differ (pre post : List Char) (x y c d : Char) (i : Nat)
    (h1 : (pre ++ x :: post)[i]? = some c) (h2 : (pre ++ y :: post)[i]? = some d)
    (hcd : c ≠ d) : x = c ∧ y = d := by
  induction pre generalizing i with
  | nil =>
    cases i with
    | zero => simpa using And.intro h1 h2
    | succ j =>
      simp only [List.nil_append, List.getElem?_cons_succ] at h1 h2
      rw [h1] at h2
      exact absurd (Option.some.inj h2) hcd
  | cons e pre ih =>
    cases i with
    | zero =>
      simp only [List.cons_append, List.getElem?_cons_zero] at h1 h2
      rw [h1] at h2
      exact absurd (Option.some.inj h2) hcd
    | succ j =>
      simp only [List.cons_append, List.getElem?_cons_succ] at h1 h2
      exact ih j h1 h2

/-- C26: for patterns `a` and `b` of equal length `n` over `0`, `1`, `-` with
`isGreyCode a b` true whose differing position `i` holds `0` in one and `1` in the other,
and for every binary string `t` of length `n`, `covers (combineTerms a b) t` holds exactly
when `covers a t` or `covers b t` holds; and `combineTerms a b = combineTerms b a`. -/
theorem combineTerms_covers (n : Nat) (a b t : List Char) (i : Nat)
    (ha : IsPattern n a) (hb : IsPattern n b) (hg : isGreyCode a b = true)
    (hi : (a[i]? = some '0' ∧ b[i]? = some '1') ∨ (a[i]? = some '1' ∧ b[i]? = some '0'))
    (ht : IsBinary n t) :
    (covers (combineTerms a b) t = true ↔ (covers a t = true ∨ covers b t = true)) ∧
      combineTerms a b = combineTerms b a := by
  refine ⟨?_, combineTerms_comm a b⟩
  obtain ⟨pre, x, y, post, rfl, rfl, hxy⟩ := (isGreyCode_iff a b).mp hg
  rw [combineTerms_split pre post x y hxy]
  constructor
  · intro h
    have hsplit := covers_dash_split pre post t ht.2 h
    rcases hi with ⟨h1, h2⟩ | ⟨h1, h2⟩
    · obtain ⟨rfl, rfl⟩ := split_differ pre post x y '0' '1' i h1 h2 (by decide)
      exact hsplit
    · obtain ⟨rfl, rfl⟩ := split_differ pre post x y '1' '0' i h1 h2 (by decide)
      exact hsplit.symm
  · rintro (h | h)
    · exact covers_widen pre post x t h
    · exact covers_widen pre post y t h

theorem combineTerms_covers_witness :
    (covers (combineTerms ['0', '-', '1'] ['1', '-', '1']) ['1', '0', '1'] = true ↔
        (covers ['0', '-', '1'] ['1', '0', '1'] = true ∨
          covers ['1', '-', '1'] ['1', '0', '1'] = true)) ∧
      combineTerms ['0', '-', '1'] ['1', '-', '1'] =
        combineTerms ['1', '-', '1'] ['0', '-', '1'] :=
  combineTerms_covers 3 ['0', '-', '1'] ['1', '-', '1'] ['1', '0', '1'] 0
    (by unfold IsPattern; decide) (by unfold IsPattern; decide) (by decide)
    (by decide) (by unfold IsBinary; decide)

/-! ## The selected patterns stay inside the on-set and the don't-care set -/

theorem multiplyClause_members (clause : List (List Char)) (sols : List (List (List Char)))
    (P : List Char → Prop) (hs : ∀ sol ∈ sols, ∀ p ∈ sol, P p) (hc : ∀ p ∈ clause, P p) :
    ∀ sol ∈ multiplyClause clause sols [], ∀ p ∈ sol, P p := by
  intro s hsm p hp
  rcases (mem_multiplyClause clause sols [] s).mp hsm with h | ⟨sol, hsol, pi, hpi, rfl⟩
  · exact absurd h (List.not_mem_nil s)
  · rcases (mem_extend sol pi p).mp hp with h | rfl
    · exact hs sol hsol p h
    · exact hc p hpi

theorem multiplyAll_members (rest : List (Int × List (List Char))) (P : List Char → Prop) :
    ∀ (sols : List (List (List Char))), (∀ sol ∈ sols, ∀ p ∈ sol, P p) →
      (∀ e ∈ rest, ∀ p ∈ e.2, P p) → ∀ sol ∈ multiplyAll rest sols, ∀ p ∈ sol, P p := by
  induction rest with
  | nil => intro sols hs _; simpa [multiplyAll] using hs
  | cons e rest ih =>
    intro sols hs hc
    obtain ⟨k, clause⟩ := e
    have hnew := multiplyClause_members clause sols P hs (hc (k, clause) (List.mem_cons_self _ _))
    unfold multiplyAll
    split
    · exact hnew
    · exact ih _ hnew (fun e he => hc e (List.mem_cons_of_mem _ he))

theorem minimalSolutions_mem_prime (q : State) (mc : List (Int × List (List Char)))
    (sel : Selection) (q2 : State) (hsel : Selected q mc sel q2) (S : List (List Char))
    (hS : S ∈ q2.minimalSolutions) (p : List Char) (hp : p ∈ S) : p ∈ q.primeImplicants := by
  obtain ⟨_, _, _, _, _, _, _, _, _, _, hempty, hrest⟩ := hsel
  have hunc : q2.uncoveredMintermsAfterEPI ≠ [] := by
    intro h
    rw [hempty h] at hS
    exact absurd hS (List.not_mem_nil S)
  obtain ⟨rp, rc, hrem, hrp0, hrp1⟩ := hrest hunc
  have hrp : rp ≠ [] := by
    intro h
    rw [hrp0 h] at hS
    exact absurd hS (List.not_mem_nil S)
  obtain ⟨k, first, rest, ⟨hok, hgrp, _⟩, hmin⟩ := hrp1 hrp
  rw [hmin] at hS
  have hentry : ∀ e ∈ (k, first) :: rest, ∀ t ∈ e.2, t ∈ q.primeImplicants := by
    intro e he t ht
    have hin := (entry_inGroup _ hok e.1 e.2 he t).mpr ht
    exact ((hrem.1 t).mp ((hgrp e.1 t).mp hin).2.1).1
  refine multiplyAll_members rest (fun t => t ∈ q.primeImplicants) _ ?_ ?_ S
    ((mem_selectMinimal _ S).mp hS).1 p hp
  · intro s hs t ht
    obtain ⟨pi, hpi, rfl⟩ := List.mem_map.mp hs
    rw [List.mem_singleton] at ht
    subst ht
    exact hentry (k, first) (List.mem_cons_self _ _) t hpi
  · intro e he t ht
    exact hentry e (List.mem_cons_of_mem _ he) t ht

/-- C24: for every valid input, generation followed by selection on a fresh object (with
fuel for `V + 1` passes) returns, and every pattern of `essentialPrimeImplicants` and
every pattern of every solution of `minimalSolutions` covers only terms of
`[0, 2^V - 1]` that are in `mintermList` or `dontCareList`. -/
theorem selected_patterns_within_care_set (V : Nat) (mt dc : List Int) (fuel : Nat)
    (hv : ValidInput V mt dc) (hfuel : V + 1 ≤ fuel) :
    ∃ q q2, generatePrimeImplicants fuel (fresh V mt dc) = .ok q ∧
      findEssentialPrimeImplicants q = .ok q2 ∧
      (∀ p ∈ q2.essentialPrimeImplicants, ∀ t, InRange V t →
        coversInt V p t = .ok true → t ∈ mt ∨ t ∈ dc) ∧
      (∀ S ∈ q2.minimalSolutions, ∀ p ∈ S, ∀ t, InRange V t →
        coversInt V p t = .ok true → t ∈ mt ∨ t ∈ dc) := by
  obtain ⟨q, q2, hq, hgen, hq2, hcase⟩ := pipeline_run V hv.1.2 mt dc fuel hfuel
  have hprime : ∀ p ∈ q.primeImplicants, ∀ t, InRange V t →
      coversInt V p t = .ok true → t ∈ mt ∨ t ∈ dc := by
    intro p hp
    exact (implicant_iff_terms V mt dc hv p).mp ((hgen.2.2.2.1 p).mp hp).2.1
  refine ⟨q, q2, hq, hq2, ?_⟩
  rcases hcase with ⟨_, hnil, hess, _⟩ | ⟨_, mc, sel, hsel, _, _⟩
  · rw [hnil, hess]
    exact ⟨fun p hp => absurd hp (List.not_mem_nil p), fun S hS => absurd hS (List.not_mem_nil S)⟩
  · constructor
    · intro p hp
      refine hprime p (essential_mem_prime q mc sel q2 hsel p ?_)
      rw [hsel.2.2.2.2.2.2.2.1, hsel.2.2.1.1 p] at hp
      exact (hsel.2.2.1.2.1 p).mpr hp
    · intro S hS p hp
      exact hprime p (minimalSolutions_mem_prime q mc sel q2 hsel S hS p hp)

theorem selected_patterns_within_care_set_witness :
    ∃ q q2, generatePrimeImplicants 5 (fresh 4 [4, 8, 10, 11, 12, 15] [9, 14]) = .ok q ∧
      findEssentialPrimeImplicants q = .ok q2 ∧
      (∀ p ∈ q2.essentialPrimeImplicants, ∀ t, InRange 4 t →
        coversInt 4 p t = .ok true →
          t ∈ ([4, 8, 10, 11, 12, 15] : List Int) ∨ t ∈ ([9, 14] : List Int)) ∧
      (∀ S ∈ q2.minimalSolutions, ∀ p ∈ S, ∀ t, InRange 4 t →
        coversInt 4 p t = .ok true →
          t ∈ ([4, 8, 10, 11, 12, 15] : List Int) ∨ t ∈ ([9, 14] : List Int)) :=
  selected_patterns_within_care_set 4 [4, 8, 10, 11, 12, 15] [9, 14] 5
    (by unfold ValidInput InRange; decide) (by decide)

/-! ## Termination of the combining loop -/

theorem combineRounds_spec (V : Nat) (S : List (List Char)) (fuel : Nat) :
    ∀ (r : Nat) (cur : List (List Char)), (∀ p, p ∈ cur ↔ Level V S r p) → r ≤ V →
      (combineRounds fuel cur).length + r ≤ V + 1 ∧
      ∀ i c, (combineRounds fuel cur)[i]? = some c → ∀ p ∈ c, dashes p = r + i := by
  induction fuel with
  | zero =>
    intro r cur _ hr
    simp only [combineRounds, List.length_nil, zero_add]
    exact ⟨by omega, fun i c h => by simp at h⟩
  | succ fuel ih =>
    intro r cur hcur hr
    obtain ⟨hnext, _, hchanged⟩ := pass_spec V S r cur hcur
    unfold combineRounds
    by_cases hch : (compareAdjacent (groupByOnes cur [])
        { nextPIs := [], marked := [], changed := false }).changed = true
    · rw [if_pos hch]
      obtain ⟨c0, hc0⟩ := hchanged.mp hch
      have hr1 : r + 1 ≤ V := level_bound V S (r + 1) c0 hc0
      obtain ⟨hlen, hel⟩ := ih (r + 1) _ hnext hr1
      refine ⟨by simp only [List.length_cons]; omega, fun i c h p hp => ?_⟩
      cases i with
      | zero =>
        simp only [List.getElem?_cons_zero, Option.some.injEq] at h
        subst h
        exact ((hcur p).mp hp).2.1
      | succ j =>
        simp only [List.getElem?_cons_succ] at h
        have := hel j c h p hp
        omega
    · rw [if_neg hch]
      refine ⟨by simp only [List.length_cons, List.length_nil]; omega, fun i c h p hp => ?_⟩
      cases i with
      | zero =>
        simp only [List.getElem?_cons_zero, Option.some.injEq] at h
        subst h
        exact ((hcur p).mp hp).2.1
      | succ j => simp at h

theorem combineLoop_fuel_iff (fuel : Nat) :
    ∀ (cur acc : List (List Char)),
      combineLoop fuel (groupByOnes cur []) cur acc = .error .fuel ↔
        (combineRounds (fuel + 1) cur).length = fuel + 1 := by
  induction fuel with
  | zero =>
    intro cur acc
    unfold combineRounds
    simp only [combineLoop, true_iff, List.length_cons, combineRounds, ite_self, List.length_nil]
  | succ fuel ih =>
    intro cur acc
    unfold combineRounds combineLoop
    by_cases hch : (compareAdjacent (groupByOnes cur [])
        { nextPIs := [], marked := [], changed := false }).changed = true
    · simp only [hch, if_true, List.length_cons, add_left_inj]
      exact ih _ _
    · simp only [hch, if_false, List.length_cons, List.length_nil]
      constructor
      · intro h; cases h
      · intro h; simp at h

/-- C27: for every valid input, the patterns that the combining loop of
`generatePrimeImplicants` processes in its `r`-th pass (counting from 0) contain exactly
`r` symbols `-`, the loop makes at most `V + 1` passes however many are allowed, and
with fuel for `V + 1` passes `generatePrimeImplicants` returns. -/
theorem combining_loop_terminates (V : Nat) (mt dc : List Int) (hv : ValidInput V mt dc) :
    (∀ (fuel r : Nat) (cur : List (List Char)), (combineRounds fuel (binaryTermsOf V mt dc))[r]? = some cur →
      ∀ p ∈ cur, p.count '-' = r) ∧
    (∀ fuel, (combineRounds fuel (binaryTermsOf V mt dc)).length ≤ V + 1) ∧
    ∃ q, generatePrimeImplicants (V + 1) (fresh V mt dc) = .ok q := by
  have hS := binaryTermsOf_binary V hv.1.2 mt dc
  have h0 : ∀ p, p ∈ binaryTermsOf V mt dc ↔ Level V (binaryTermsOf V mt dc) 0 p :=
    level_zero V _ hS
  refine ⟨fun fuel r cur h p hp => ?_, fun fuel => ?_, ?_⟩
  · have := (combineRounds_spec V _ fuel 0 _ h0 (Nat.zero_le V)).2 r cur h p hp
    simpa [dashes] using this
  · have := (combineRounds_spec V _ fuel 0 _ h0 (Nat.zero_le V)).1
    omega
  · obtain ⟨q, hq, _⟩ := generatePrimeImplicants_spec V hv.1.2 mt dc (V + 1) (le_refl _)
    exact ⟨q, hq⟩

theorem combining_loop_terminates_witness :
    (∀ (fuel r : Nat) (cur : List (List Char)), (combineRounds fuel (binaryTermsOf 3 [0, 1, 2, 5, 6, 7] []))[r]? = some cur →
      ∀ p ∈ cur, p.count '-' = r) ∧
    (∀ fuel, (combineRounds fuel (binaryTermsOf 3 [0, 1, 2, 5, 6, 7] [])).length ≤ 3 + 1) ∧
    ∃ q, generatePrimeImplicants (3 + 1) (fresh 3 [0, 1, 2, 5, 6, 7] []) = .ok q :=
  combining_loop_terminates 3 [0, 1, 2, 5, 6, 7] [] (by unfold ValidInput InRange; decide)

/-! ## Exactness of Petrick's method when the early exit cannot fire -/

theorem length_extend (sol : List (List Char)) (pi : List Char) (h : Ascending sol) :
    sol.length ≤ (uniqueStd (sortStd (if pi ∈ sol then sol else sol ++ [pi]))).length := by
  refine (List.subperm_of_subset (ascending_nodup sol h) ?_).length_le
  intro p hp
  exact (mem_extend sol pi p).mpr (Or.inl hp)

theorem length_extend_two (c pi : List Char) (h : c ≠ pi) :
    2 ≤ (uniqueStd (sortStd (if pi ∈ [c] then [c] else [c] ++ [pi]))).length := by
  have hnd : [c, pi].Nodup := by simp [h]
  refine (List.subperm_of_subset hnd ?_).length_le
  intro p hp
  refine (mem_extend [c] pi p).mpr ?_
  simp only [List.mem_cons, List.mem_singleton, List.not_mem_nil, or_false] at hp ⊢
  exact hp

theorem multiplyAll_noexit (rest : List (Int × List (List Char))) :
    ∀ (sols : List (List (List Char))), (∀ sol ∈ sols, Ascending sol ∧ 2 ≤ sol.length) →
      multiplyAll rest sols = multiplyAllClauses rest sols := by
  induction rest with
  | nil => intro sols _; rfl
  | cons e rest ih =>
    intro sols hs
    obtain ⟨k, clause⟩ := e
    have hnew : ∀ s ∈ multiplyClause clause sols [], Ascending s ∧ 2 ≤ s.length := by
      intro s hsm
      refine ⟨multiplyClause_ascending clause sols s hsm, ?_⟩
      rcases (mem_multiplyClause clause sols [] s).mp hsm with h | ⟨sol, hsol, pi, _, rfl⟩
      · exact absurd h (List.not_mem_nil s)
      · exact le_trans (hs sol hsol).2 (length_extend sol pi (hs sol hsol).1)
    have hany : (multiplyClause clause sols []).any (fun sol => sol.length == 1) = false := by
      rw [List.any_eq_false]
      intro s hsm
      have := (hnew s hsm).2
      simp only [beq_iff_eq]
      omega
    unfold multiplyAll multiplyAllClauses
    rw [hany]
    exact ih _ hnew

theorem multiplyAllClauses_sound (rest : List (Int × List (List Char))) :
    ∀ (sols : List (List (List Char))) (sol : List (List Char)),
      sol ∈ multiplyAllClauses rest sols →
      (∀ e ∈ rest, ∃ p ∈ e.2, p ∈ sol) ∧ ∃ s0 ∈ sols, ∀ p ∈ s0, p ∈ sol := by
  induction rest with
  | nil =>
    intro sols sol h
    exact ⟨fun e he => absurd he (List.not_mem_nil e), sol, h, fun p hp => hp⟩
  | cons e rest ih =>
    intro sols sol h
    obtain ⟨k, clause⟩ := e
    unfold multiplyAllClauses at h
    obtain ⟨hrest, s1, hs1, hsub⟩ := ih _ sol h
    rcases (mem_multiplyClause clause sols [] s1).mp hs1 with h0 | ⟨s0, hs0, pi, hpi, rfl⟩
    · exact absurd h0 (List.not_mem_nil s1)
    · refine ⟨fun e he => ?_, s0, hs0, fun p hp => hsub p ((mem_extend s0 pi p).mpr (Or.inl hp))⟩
      rcases List.mem_cons.mp he with rfl | he2
      · exact ⟨pi, hpi, hsub pi ((mem_extend s0 pi pi).mpr (Or.inr rfl))⟩
      · exact hrest e he2

theorem clause_keys (rp : List (List Char)) (rc : List (List Char × List Int))
    (unc : List Int) (L : List (Int × List (List Char))) (hok : MapOK L)
    (hgrp : ∀ k2 t, InGroup L k2 t ↔ (k2 ∈ unc ∧ t ∈ rp ∧ k2 ∈ getVec rc t))
    (hkeys : ∀ k2 ∈ keys L, k2 ∈ unc) (hasc : Ascending unc)
    (hcov : ∀ m ∈ unc, ∃ p ∈ rp, m ∈ getVec rc p) : keys L = unc := by
  refine ascending_ext _ _ hok.1 hasc (fun m => ⟨hkeys m, fun hm => ?_⟩)
  obtain ⟨p, hp, hmp⟩ := hcov m hm
  exact inGroup_key L m p ((hgrp m p).mpr ⟨hm, hp, hmp⟩)

theorem petricks_noexit (rp : List (List Char)) (rc : List (List Char × List Int))
    (unc : List Int) (k : Int) (first : List (List Char)) (rest : List (Int × List (List Char)))
    (hok : MapOK ((k, first) :: rest))
    (hgrp : ∀ k2 t, InGroup ((k, first) :: rest) k2 t ↔ (k2 ∈ unc ∧ t ∈ rp ∧ k2 ∈ getVec rc t))
    (hkeysEq : keys ((k, first) :: rest) = unc)
    (hexit : unc.length ≤ 2 ∨ ∀ p ∈ rp, ¬ ∀ m ∈ unc.take 2, m ∈ getVec rc p) :
    multiplyAll rest (first.map fun pi => [pi]) =
      multiplyAllClauses rest (first.map fun pi => [pi]) := by
  cases rest with
  | nil => rfl
  | cons e rest2 =>
    obtain ⟨k2, c2⟩ := e
    rcases hexit with hlen | hno
    · rw [← hkeysEq] at hlen
      simp only [keys, List.map_cons, List.length_cons, List.length_map] at hlen
      have hnil : rest2 = [] := List.eq_nil_of_length_eq_zero (by omega)
      subst hnil
      simp [multiplyAll, multiplyAllClauses]
    · have hnew : ∀ s ∈ multiplyClause c2 (first.map fun pi => [pi]) [],
          Ascending s ∧ 2 ≤ s.length := by
        intro s hsm
        refine ⟨multiplyClause_ascending c2 _ s hsm, ?_⟩
        rcases (mem_multiplyClause c2 _ [] s).mp hsm with h | ⟨sol, hsol, pi, hpi, rfl⟩
        · exact absurd h (List.not_mem_nil s)
        · obtain ⟨c1, hc1, rfl⟩ := List.mem_map.mp hsol
          refine length_extend_two c1 pi ?_
          rintro rfl
          have h1 := (hgrp k c1).mp
            ((entry_inGroup _ hok k first (List.mem_cons_self _ _) c1).mpr hc1)
          have h2 := (hgrp k2 c1).mp
            ((entry_inGroup _ hok k2 c2
              (List.mem_cons_of_mem _ (List.mem_cons_self _ _)) c1).mpr hpi)
          refine hno c1 h1.2.1 ?_
          rw [← hkeysEq]
          intro m hm
          simp only [keys, List.map_cons, List.take_succ_cons, List.take_zero,
            List.mem_cons, List.not_mem_nil, or_false] at hm
          rcases hm with rfl | rfl
          · exact h1.2.2
          · exact h2.2.2
      have hany : (multiplyClause c2 (first.map fun pi => [pi]) []).any
          (fun sol => sol.length == 1) = false := by
        rw [List.any_eq_false]
        intro s hsm
        have := (hnew s hsm).2
        simp only [beq_iff_eq]
        omega
      unfold multiplyAll multiplyAllClauses
      rw [hany]
      exact multiplyAll_noexit rest2 _ hnew

theorem petricks_candidates (rp : List (List Char)) (rc : List (List Char × List Int))
    (unc : List Int) (k : Int) (first : List (List Char)) (rest : List (Int × List (List Char)))
    (hok : MapOK ((k, first) :: rest))
    (hgrp : ∀ k2 t, InGroup ((k, first) :: rest) k2 t ↔ (k2 ∈ unc ∧ t ∈ rp ∧ k2 ∈ getVec rc t))
    (hcov : ∀ m ∈ unc, ∃ p ∈ rp, m ∈ getVec rc p)
    (hC : multiplyAll rest (first.map fun pi => [pi]) =
      multiplyAllClauses rest (first.map fun pi => [pi]))
    (sol : List (List Char)) (hsol : sol ∈ multiplyAll rest (first.map fun pi => [pi])) :
    IsCover rp rc unc sol := by
  have hentry : ∀ e ∈ (k, first) :: rest, ∀ t ∈ e.2, t ∈ rp ∧ e.1 ∈ getVec rc t := by
    intro e he t ht
    have hin := (hgrp e.1 t).mp ((entry_inGroup _ hok e.1 e.2 he t).mpr ht)
    exact ⟨hin.2.1, hin.2.2⟩
  refine ⟨?_, ?_, ?_⟩
  · refine multiplyAll_ascending rest _ ?_ sol hsol
    intro s hs
    obtain ⟨pi, _, rfl⟩ := List.mem_map.mp hs
    exact List.sorted_singleton pi
  · refine multiplyAll_members rest (fun t => t ∈ rp) _ ?_ ?_ sol hsol
    · intro s hs t ht
      obtain ⟨pi, hpi, rfl⟩ := List.mem_map.mp hs
      rw [List.mem_singleton] at ht
      subst ht
      exact (hentry (k, first) (List.mem_cons_self _ _) t hpi).1
    · intro e he t ht
      exact (hentry e (List.mem_cons_of_mem _ he) t ht).1
  · intro m hm
    rw [hC] at hsol
    obtain ⟨hrest, s0, hs0, hsub⟩ := multiplyAllClauses_sound rest _ sol hsol
    obtain ⟨c1, hc1, rfl⟩ := List.mem_map.mp hs0
    obtain ⟨p, hp, hmp⟩ := hcov m hm
    obtain ⟨g, hg, _⟩ := (hgrp m p).mpr ⟨hm, hp, hmp⟩
    rcases List.mem_cons.mp hg with heq | hg2
    · have hk : m = k := (Prod.mk.inj heq).1
      subst hk
      exact ⟨c1, hsub c1 (List.mem_singleton.mpr rfl),
        (hentry (m, first) (List.mem_cons_self _ _) c1 hc1).2⟩
    · obtain ⟨t, ht, htsol⟩ := hrest (m, g) hg2
      exact ⟨t, htsol, (hentry (m, g) (List.mem_cons_of_mem _ hg2) t ht).2⟩

theorem petricks_hits (rp : List (List Char)) (rc : List (List Char × List Int))
    (unc : List Int) (k : Int) (first : List (List Char)) (rest : List (Int × List (List Char)))
    (hok : MapOK ((k, first) :: rest))
    (hgrp : ∀ k2 t, InGroup ((k, first) :: rest) k2 t ↔ (k2 ∈ unc ∧ t ∈ rp ∧ k2 ∈ getVec rc t))
    (hkeys : ∀ k2 ∈ keys ((k, first) :: rest), k2 ∈ unc)
    (T : List Char → Prop) (hT : ∀ k2 ∈ unc, ∃ p, T p ∧ p ∈ rp ∧ k2 ∈ getVec rc p) :
    ∃ sol ∈ multiplyAll rest (first.map fun pi => [pi]), ∀ p ∈ sol, T p := by
  have hhit : ∀ e ∈ (k, first) :: rest, ∃ p ∈ e.2, T p := by
    intro e he
    obtain ⟨k2, g⟩ := e
    have hk2 : k2 ∈ unc := hkeys k2 (List.mem_map.mpr ⟨(k2, g), he, rfl⟩)
    obtain ⟨p, hTp, hp, hkp⟩ := hT k2 hk2
    have hin := (hgrp k2 p).mpr ⟨hk2, hp, hkp⟩
    exact ⟨p, (entry_inGroup _ hok k2 g he p).mp hin, hTp⟩
  obtain ⟨p0, hp0, hTp0⟩ := hhit (k, first) (List.mem_cons_self _ _)
  have hinit : ∃ sol ∈ first.map (fun pi => [pi]), ∀ p ∈ sol, T p := by
    refine ⟨[p0], List.mem_map.mpr ⟨p0, hp0, rfl⟩, ?_⟩
    intro p hp
    rw [List.mem_singleton] at hp
    rw [hp]; exact hTp0
  exact multiplyAll_hits rest _ T (fun e he => hhit e (List.mem_cons_of_mem _ he)) hinit

theorem length_eq_card (l : List (List Char)) (h : Ascending l) : l.toFinset.card = l.length :=
  List.toFinset_card_of_nodup (ascending_nodup l h)

/-- C25 (as stated): two inputs on which the claim fails. With an empty residual set
`petricksMethod` leaves `minimalSolutions` empty although the empty subset is the
minimum cover; and when an implicant of `remainingPIs` has no entry in `remainingCoverage`
the lookup `remainingCoverage.at(pi)` throws, although the only residual minterm has a
covering implicant. -/
theorem petricksMethod_exact_counterexample :
    (petricksMethod (fresh 1 [0] []) [['0']] [(['0'], [0])] [] = .ok (fresh 1 [0] []) ∧
      (fresh 1 [0] []).minimalSolutions = [] ∧
      IsMinimumCover [['0']] [(['0'], [0])] [] []) ∧
    (petricksMethod (fresh 1 [0] []) [['-'], ['0']] [(['-'], [0])] [0] =
        .error .out_of_range ∧
      ([0] : List Int).length ≤ 2 ∧
      ∀ m ∈ ([0] : List Int), ∃ p ∈ [['-'], ['0']], m ∈ getVec [(['-'], [0])] p) := by
  refine ⟨⟨by decide, rfl, ⟨List.sorted_nil, fun p hp => absurd hp (List.not_mem_nil p),
    fun m hm => absurd hm (List.not_mem_nil m)⟩, fun T _ _ => Nat.zero_le _⟩,
    by decide, by decide, by decide⟩

/-- C25 (amended): for every input to `petricksMethod` with a non-empty residual set
(a `std::set`, so strictly ascending) in which every implicant of `remainingPIs` has an
entry in `remainingCoverage` and each residual minterm has a covering implicant, if there
are at most two residual minterms, or no implicant of `remainingPIs` covers both of the
two smallest residual minterms, then `petricksMethod` returns and `minimalSolutions`
holds exactly the minimum-cardinality subsets of `remainingPIs` that cover every
residual minterm. -/
theorem petricksMethod_exact (q : State) (rp : List (List Char))
    (rc : List (List Char × List Int)) (unc : List Int)
    (hunc : unc ≠ []) (hasc : Ascending unc)
    (hall : ∀ pi ∈ rp, ∃ cov, mapFind pi rc = some cov)
    (hcov : ∀ m ∈ unc, ∃ p ∈ rp, m ∈ getVec rc p)
    (hexit : unc.length ≤ 2 ∨ ∀ p ∈ rp, ¬ ∀ m ∈ unc.take 2, m ∈ getVec rc p) :
    ∃ q2, petricksMethod q rp rc unc = .ok q2 ∧
      ∀ S, S ∈ q2.minimalSolutions ↔ IsMinimumCover rp rc unc S := by
  obtain ⟨m0, hm0⟩ := List.exists_mem_of_ne_nil unc hunc
  obtain ⟨p0, hp0, hmp0⟩ := hcov m0 hm0
  have hrp : rp ≠ [] := List.ne_nil_of_mem hp0
  obtain ⟨k, first, rest, hok, hgrp, hkeys, hrun⟩ :=
    petricksMethod_ok q rp rc unc hrp hunc hall ⟨p0, hp0, m0, hm0, hmp0⟩
  have hkeysEq := clause_keys rp rc unc _ hok hgrp hkeys hasc hcov
  have hC := petricks_noexit rp rc unc k first rest hok hgrp hkeysEq hexit
  have hcand := petricks_candidates rp rc unc k first rest hok hgrp hcov hC
  have hhits := petricks_hits rp rc unc k first rest hok hgrp hkeys
  refine ⟨_, hrun, fun S => ?_⟩
  show S ∈ selectMinimal (multiplyAll rest (first.map fun pi => [pi])) ↔ _
  rw [mem_selectMinimal]
  constructor
  · rintro ⟨hS, hmin⟩
    refine ⟨hcand S hS, fun T hT1 hT2 => ?_⟩
    obtain ⟨sol, hsol, hsub⟩ := hhits (fun p => p ∈ T) (fun m hm => by
      obtain ⟨p, hp, hmp⟩ := hT2 m hm
      exact ⟨p, hp, hT1 p hp, hmp⟩)
    have h1 := hmin sol hsol
    have h2 : sol.toFinset ⊆ T := fun p hp => hsub p (List.mem_toFinset.mp hp)
    have h3 := Finset.card_le_card h2
    rw [length_eq_card sol (hcand sol hsol).1] at h3
    omega
  · rintro ⟨hS, hmin⟩
    obtain ⟨sol, hsol, hsub⟩ := hhits (fun p => p ∈ S) (fun m hm => by
      obtain ⟨p, hp, hmp⟩ := hS.2.2 m hm
      exact ⟨p, hp, hS.2.1 p hp, hmp⟩)
    have hbound : ∀ c ∈ multiplyAll rest (first.map fun pi => [pi]), S.length ≤ c.length := by
      intro c hc
      have hcc := hcand c hc
      have := hmin c.toFinset (fun p hp => hcc.2.1 p (List.mem_toFinset.mp hp))
        (fun m hm => by
          obtain ⟨p, hp, hmp⟩ := hcc.2.2 m hm
          exact ⟨p, List.mem_toFinset.mpr hp, hmp⟩)
      rw [length_eq_card c hcc.1] at this
      exact this
    have hsolc := hcand sol hsol
    have hsubF : sol.toFinset ⊆ S.toFinset := fun p hp =>
      List.mem_toFinset.mpr (hsub p (List.mem_toFinset.mp hp))
    have hle : S.toFinset.card ≤ sol.toFinset.card := by
      rw [length_eq_card S hS.1, length_eq_card sol hsolc.1]
      exact hbound sol hsol
    have heqF := Finset.eq_of_subset_of_card_le hsubF hle
    have heq : sol = S := by
      refine ascending_ext sol S hsolc.1 hS.1 (fun p => ?_)
      rw [← List.mem_toFinset, heqF, List.mem_toFinset]
    rw [← heq]
    exact ⟨hsol, fun c hc => by rw [heq]; exact hbound c hc⟩

theorem petricksMethod_exact_witness :
    ∃ q2, petricksMethod (fresh 2 [1, 2, 3] []) [['-', '1'], ['1', '-']]
        [(['-', '1'], [1, 3]), (['1', '-'], [2, 3])] [1, 2, 3] = .ok q2 ∧
      ∀ S, S ∈ q2.minimalSolutions ↔
        IsMinimumCover [['-', '1'], ['1', '-']]
          [(['-', '1'], [1, 3]), (['1', '-'], [2, 3])] [1, 2, 3] S :=
  petricksMethod_exact (fresh 2 [1, 2, 3] []) [['-', '1'], ['1', '-']]
    [(['-', '1'], [1, 3]), (['1', '-'], [2, 3])] [1, 2, 3]
    (by decide) (by unfold Ascending; decide) (by simp [mapFind])
    (by decide) (Or.inr (by decide))

end QM
